import Mathlib

/-!
Shallow embedding of the `snappr` snapshot-retention library (snappr.go) in Lean 4,
together with proofs of the specification claims about it.

Modelling conventions:
* Go `int`/`int64` are modelled as unbounded `Int`; the two places where the
  source relies on 64-bit wrap-around (`time.Duration` multiplication) use an
  explicit `wrap64`.
* `time.Time` is modelled as an absolute instant (nanoseconds since the Unix
  epoch) together with a fixed zone offset in seconds.  `Truncate(-1)` only
  strips the monotonic-clock reading, which the model does not have, so it is
  the identity here.  Calendar conversions follow the proleptic Gregorian
  calendar, extensionally equal to Go's `time` package conversions.
* Go maps (`map[Period]int`) are represented by association lists kept sorted
  by the canonical `Period` order, which is exactly the order `Policy.Each`
  iterates in; `maps.Clone` is value copying.
-/

namespace Snappr

/-- Two's-complement wrap-around to the `int64` range, used where the Go source
performs `time.Duration` arithmetic that can overflow. -/
def wrap64 (x : Int) : Int := (x + 2 ^ 63) % 2 ^ 64 - 2 ^ 63

/-- Days since 1970-01-01 of the civil (proleptic Gregorian) date `y-m-d`
(for `m ∈ [1,12]`); extensionally the conversion used by Go's `time.Date`. -/
def daysFromCivil (y m d : Int) : Int :=
  let y' := y - (if m ≤ 2 then 1 else 0)
  let era := Int.fdiv y' 400
  let yoe := y' - era * 400
  let mp := Int.emod (m + 9) 12
  let doy := Int.fdiv (153 * mp + 2) 5 + d - 1
  let doe := yoe * 365 + Int.fdiv yoe 4 - Int.fdiv yoe 100 + doy
  era * 146097 + doe - 719468

/-- Civil (proleptic Gregorian) date from days since 1970-01-01; extensionally
the conversion used by Go's `time.Time.Date`. -/
def civilFromDays (z : Int) : Int × Int × Int :=
  let z' := z + 719468
  let era := Int.fdiv z' 146097
  let doe := z' - era * 146097
  let yoe := Int.fdiv (doe - Int.fdiv doe 1460 + Int.fdiv doe 36524 - Int.fdiv doe 146096) 365
  let y := yoe + era * 400
  let doy := doe - (365 * yoe + Int.fdiv yoe 4 - Int.fdiv yoe 100)
  let mp := Int.fdiv (5 * doy + 2) 153
  let d := doy - Int.fdiv (153 * mp + 2) 5 + 1
  let m := mp + (if mp < 10 then 3 else -9)
  (if m ≤ 2 then y + 1 else y, m, d)

def nsPerSec : Int := 1000000000

def nsPerDay : Int := 86400 * nsPerSec

/-- `time.Time`: an absolute instant (`wall`, in nanoseconds since the Unix
epoch) in a fixed-offset zone (`offset`, seconds east of UTC).  The zone only
affects calendar-field computations, exactly as in Go. -/
structure GoTime where
  wall : Int
  offset : Int
deriving DecidableEq, Repr

/-- The instant of Go's zero `time.Time` (January 1, year 1, 00:00:00 UTC). -/
def zeroWall : Int := daysFromCivil 1 1 1 * nsPerDay

/-- Go's zero `time.Time` value. -/
def zeroTime : GoTime := ⟨zeroWall, 0⟩

/-- `Time.IsZero` (the instant is January 1, year 1, 00:00:00 UTC). -/
def GoTime.isZero (t : GoTime) : Bool := t.wall == zeroWall

/-- `Time.Before`: instant comparison, zone-independent. -/
def GoTime.before (a b : GoTime) : Bool := a.wall < b.wall

/-- `Time.Equal`: instant equality, zone-independent. -/
def GoTime.equal (a b : GoTime) : Bool := a.wall == b.wall

/-- `Time.Compare` result as an `Int` (negative/zero/positive). -/
def GoTime.cmpT (a b : GoTime) : Int := if a.wall < b.wall then -1 else if a.wall = b.wall then 0 else 1

/-- `Time.Unix`: seconds since the Unix epoch (floor). -/
def GoTime.unix (t : GoTime) : Int := Int.fdiv t.wall nsPerSec

/-- Local wall-clock nanoseconds (instant shifted by the zone offset). -/
def GoTime.localNs (t : GoTime) : Int := t.wall + t.offset * nsPerSec

/-- `Time.Date`: calendar year/month/day in the time's own zone. -/
def GoTime.date (t : GoTime) : Int × Int × Int := civilFromDays (Int.fdiv t.localNs nsPerDay)

/-- `Time.Clock`: hour/minute/second in the time's own zone. -/
def GoTime.clock (t : GoTime) : Int × Int × Int :=
  let s := Int.fdiv (Int.emod t.localNs nsPerDay) nsPerSec
  (Int.fdiv s 3600, Int.emod (Int.fdiv s 60) 60, Int.emod s 60)

/-- `Time.Nanosecond`. -/
def GoTime.nsec (t : GoTime) : Int := Int.emod t.wall nsPerSec

/-- `Time.Add`: add a duration in nanoseconds. -/
def GoTime.add (t : GoTime) (d : Int) : GoTime := ⟨t.wall + d, t.offset⟩

/-- `time.Date(y, mo, d, hh, mi, ss, ns, loc)` for a fixed-offset `loc`:
normalizes the out-of-range fields exactly like Go's `norm` and converts the
local calendar fields to an absolute instant. -/
def goDateTime (y mo d hh mi ss ns offset : Int) : GoTime :=
  let ss' := ss + Int.fdiv ns nsPerSec
  let ns' := Int.emod ns nsPerSec
  let mi' := mi + Int.fdiv ss' 60
  let ss'' := Int.emod ss' 60
  let hh' := hh + Int.fdiv mi' 60
  let mi'' := Int.emod mi' 60
  let d' := d + Int.fdiv hh' 24
  let hh'' := Int.emod hh' 24
  let y' := y + Int.fdiv (mo - 1) 12
  let mo' := Int.emod (mo - 1) 12 + 1
  let days := daysFromCivil y' mo' 1 + (d' - 1)
  let localSec := days * 86400 + hh'' * 3600 + mi'' * 60 + ss''
  ⟨(localSec - offset) * nsPerSec + ns', offset⟩

/-- `Time.AddDate`: calendar-field addition with Go's normalization. -/
def GoTime.addDate (t : GoTime) (dy dmo dd : Int) : GoTime :=
  let (y, mo, d) := t.date
  let (hh, mi, ss) := t.clock
  goDateTime (y + dy) (mo + dmo) (d + dd) hh mi ss t.nsec t.offset

/-! ## Unit -/

/-- `Unit` is an integer enum in Go (`Last = 0`, …, `Yearly = 4`). -/
def uLast : Int := 0

def uSecondly : Int := 1

def uDaily : Int := 2

def uMonthly : Int := 3

def uYearly : Int := 4

def numUnits : Int := 5

/-- `Unit.IsValid`. -/
def unitIsValid (u : Int) : Bool := decide (0 ≤ u ∧ u < numUnits)

/-- `Unit.TimeEquals`: whether two times fall in the same bucket of the unit. -/
def unitTimeEquals (u : Int) (a b : GoTime) : Bool :=
  if ¬ unitIsValid u then false
  else if u = uLast then a.equal b
  else if u = uSecondly then a.unix == b.unix
  else if u = uDaily then a.date == b.date
  else if u = uMonthly then (a.date.1, a.date.2.1) == (b.date.1, b.date.2.1)
  else (a.date.1 == b.date.1)

/-! ## Period -/

/-- `Period`: a `(Unit, Interval)` pair. -/
structure Period where
  unit : Int
  interval : Int
deriving DecidableEq, Repr

/-- `cmp.Compare` on `Int`. -/
def cmpI (a b : Int) : Int := if a < b then -1 else if a = b then 0 else 1

/-- `Period.Compare`: by unit, then by interval. -/
def Period.compareI (p q : Period) : Int :=
  if cmpI p.unit q.unit ≠ 0 then cmpI p.unit q.unit else cmpI p.interval q.interval

/-- The strict canonical order on periods (`Period.Compare < 0`). -/
def Period.ltP (p q : Period) : Prop :=
  p.unit < q.unit ∨ (p.unit = q.unit ∧ p.interval < q.interval)

instance : DecidablePred fun pq : Period × Period => pq.1.ltP pq.2 := by
  intro pq; unfold Period.ltP; infer_instance

instance (p q : Period) : Decidable (p.ltP q) := by
  unfold Period.ltP; infer_instance

/-- `Period.Normalize`. -/
def Period.normalize (p : Period) : Period × Bool :=
  if p.unit = uLast then ({ p with interval := 1 }, unitIsValid p.unit)
  else (p, unitIsValid p.unit && decide (0 < p.interval))

/-- `Period.PrevTime`: one interval before `t` (not truncated to the start of
the interval).  The `Secondly` case multiplies inside `time.Duration`
(`int64`) arithmetic, hence `wrap64`. -/
def Period.prevTime (p : Period) (t : GoTime) : GoTime :=
  if ¬ unitIsValid p.unit then zeroTime
  else if p.unit = uLast then t.add (-1)
  else if p.unit = uSecondly then t.add (wrap64 (-(nsPerSec * p.interval)))
  else if p.unit = uDaily then t.addDate 0 0 (-p.interval)
  else if p.unit = uMonthly then t.addDate 0 (-p.interval) 0
  else t.addDate (-p.interval) 0 0

/-! ## Policy -/

/-- `Policy`: the `map[Period]int` represented as an association list kept
sorted by the canonical period order (the order `Policy.Each` iterates in).
A `nil` map and an empty map are observationally identical in the source and
are both represented by the empty list. -/
structure Policy where
  entries : List (Period × Int)
deriving DecidableEq, Repr

/-- Go map read with zero default (`p.count[period]`). -/
def lookup0 (l : List (Period × Int)) (pd : Period) : Int :=
  match l.find? fun e => e.1 == pd with
  | some e => e.2
  | none => 0

/-- Whether a key is present in the map. -/
def hasKey (l : List (Period × Int)) (pd : Period) : Bool :=
  (l.find? fun e => e.1 == pd).isSome

/-- Insert/replace a binding, keeping the list sorted by the canonical order. -/
def insertSorted : List (Period × Int) → Period → Int → List (Period × Int)
  | [], pd, v => [(pd, v)]
  | (q, w) :: t, pd, v =>
    if pd = q then (pd, v) :: t
    else if pd.ltP q then (pd, v) :: (q, w) :: t
    else (q, w) :: insertSorted t pd v

/-- Remove a binding (`delete(p.count, period)`). -/
def eraseKey (l : List (Period × Int)) (pd : Period) : List (Period × Int) :=
  l.filter fun e => ¬(e.1 == pd)

/-- `Policy.Set`: returns the updated policy and the `ok` result. -/
def Policy.set (p : Policy) (period : Period) (count : Int) : Policy × Bool :=
  let count' := if count < 0 then -1 else count
  let (pd, ok) := period.normalize
  if ok then
    (⟨if count' = 0 then eraseKey p.entries pd else insertSorted p.entries pd count'⟩, true)
  else (p, false)

/-- `Policy.Get`. -/
def Policy.get (p : Policy) (period : Period) : Int :=
  let (pd, ok) := period.normalize
  if ok then lookup0 p.entries pd else 0

/-- Insert a period into a list sorted ascending by the canonical order. -/
def insertPeriod (pd : Period) : List Period → List Period
  | [] => [pd]
  | q :: t => if pd.ltP q then pd :: q :: t else q :: insertPeriod pd t

/-- Sort periods ascending by the canonical order (the sort in `Policy.Each`). -/
def sortPeriods (l : List Period) : List Period := l.foldr insertPeriod []

/-- The key list `Policy.Each` iterates over: the map's keys, sorted. -/
def eachKeys (l : List (Period × Int)) : List Period := sortPeriods (l.map Prod.fst)

/-- `Policy.Clone` (value copy; the heap model below captures independence). -/
def Policy.clone (p : Policy) : Policy := p

/-- Well-formedness: entries sorted strictly by the canonical order and every
key valid and normalized (the documented `Policy` invariant). -/
def Policy.WF (p : Policy) : Prop :=
  p.entries.Pairwise (fun a b => a.1.ltP b.1) ∧
    ∀ e ∈ p.entries, (e.1.normalize = (e.1, true))

/-! ## Prune -/

/-- Decrement the value stored at a key (`need.count[period]--`). -/
def decKey (l : List (Period × Int)) (pd : Period) : List (Period × Int) :=
  l.map fun e => if e.1 == pd then (e.1, e.2 - 1) else e

/-- The mutable state of the `Prune` loop: the `keep` output under
construction, the `need` accumulator, and the `lastPeriod` / `lastPeriodIdx` /
`lastUnit` trackers (Go map/array reads of missing entries yield zero values,
so the trackers are total functions defaulting to the zero time / index 0). -/
structure PruneSt where
  keep : List (List Period)
  need : List (Period × Int)
  lastP : Period → GoTime
  lastIdx : Period → Nat
  lastU : Int → GoTime

/-- Append a period to `keep[i]`. -/
def appendKeep (keep : List (List Period)) (i : Nat) (pd : Period) : List (List Period) :=
  keep.set i (keep.getD i [] ++ [pd])

/-- The body of the `need.Each(func(period, count){ … })` closure in `Prune`,
for one period at the snapshot with index `idx`. -/
def pruneStep (snaps : List GoTime) (idx : Nat) (st : PruneSt) (pd : Period) : PruneSt :=
  let at' := snaps.getD idx zeroTime
  let count := lookup0 st.need pd
  if count = 0 then st
  else if pd.unit = uLast then
    { st with
      keep := appendKeep st.keep idx pd
      need := if 0 < count then decKey st.need pd else st.need }
  else
    let last := st.lastP pd
    let want := pd.prevTime last
    if !last.isZero && (want.before at' && !unitTimeEquals pd.unit want at') then st
    else
      let st' :=
        if (st.lastU pd.unit).isZero || !unitTimeEquals pd.unit (st.lastU pd.unit) at' then
          { st with
            lastP := fun q => if q = pd then at' else st.lastP q
            lastIdx := fun q => if q = pd then idx else st.lastIdx q }
        else st
      { st' with
        keep := appendKeep st'.keep (st'.lastIdx pd) pd
        need := if 0 < count then decKey st'.need pd else st'.need }

/-- Processing of one snapshot: iterate the `need.Each` closure over the
(sorted) keys of `need`. -/
def pruneSnap (snaps : List GoTime) (st : PruneSt) (idx : Nat) : PruneSt :=
  (eachKeys st.need).foldl (pruneStep snaps idx) st

/-- The descending order on snapshot indices used by `Prune` (most recent
first).  Go sorts with an unstable sort keyed on the time only; the model
fixes the unspecified tie order by index, descending. -/
def idxAfter (snaps : List GoTime) (a b : Nat) : Prop :=
  (snaps.getD b zeroTime).wall < (snaps.getD a zeroTime).wall ∨
    ((snaps.getD a zeroTime).wall = (snaps.getD b zeroTime).wall ∧ b < a)

instance (snaps : List GoTime) (a b : Nat) : Decidable (idxAfter snaps a b) := by
  unfold idxAfter; infer_instance

/-- Insert an index into a list sorted by `idxAfter` (descending times). -/
def insertIdx (snaps : List GoTime) (i : Nat) : List Nat → List Nat
  | [] => [i]
  | j :: t => if idxAfter snaps i j then i :: j :: t else j :: insertIdx snaps i t

/-- Snapshot indices sorted descending by time (`sorted` in the source, after
the `slices.Reverse`). -/
def sortIdx (snaps : List GoTime) : List Nat :=
  (List.range snaps.length).foldr (insertIdx snaps) []

/-- `Prune snapshots policy = (keep, need)`, the core pruning algorithm. -/
def Prune (snapshots : List GoTime) (policy : Policy) : List (List Period) × Policy :=
  let st0 : PruneSt :=
    { keep := List.replicate snapshots.length []
      need := policy.clone.entries
      lastP := fun _ => zeroTime
      lastIdx := fun _ => 0
      lastU := fun _ => zeroTime }
  let stF := (sortIdx snapshots).foldl (pruneSnap snapshots) st0
  (stF.keep, ⟨stF.need⟩)

/-! ## The simplified step

In the source, `lastUnit` is declared and read but never assigned, so the
reuse guard `have.IsZero() || !period.Unit.TimeEquals(have, at)` always
evaluates to true and `lastPeriodIdx[period]` always equals the index of the
snapshot being processed.  `stepS` is `pruneStep` with that dead branch
resolved; the equivalence is proved in `pruneStep_eq_stepS`. -/

/-- The skip test of the schedule check (`want.Before(at) && !TimeEquals`). -/
def skipB (st : PruneSt) (at' : GoTime) (pd : Period) : Bool :=
  !(st.lastP pd).isZero &&
    ((pd.prevTime (st.lastP pd)).before at' &&
      !unitTimeEquals pd.unit (pd.prevTime (st.lastP pd)) at')

/-- Whether the period claims (appends itself to) the current snapshot. -/
def acceptB (st : PruneSt) (at' : GoTime) (pd : Period) : Bool :=
  (lookup0 st.need pd != 0) && (pd.unit == uLast || !skipB st at' pd)

/-- `pruneStep` with the dead `lastUnit` guard resolved to true. -/
def stepS (snaps : List GoTime) (idx : Nat) (st : PruneSt) (pd : Period) : PruneSt :=
  let at' := snaps.getD idx zeroTime
  if acceptB st at' pd then
    { keep := appendKeep st.keep idx pd
      need := if 0 < lookup0 st.need pd then decKey st.need pd else st.need
      lastP := if pd.unit = uLast then st.lastP else fun q => if q = pd then at' else st.lastP q
      lastIdx := if pd.unit = uLast then st.lastIdx else fun q => if q = pd then idx else st.lastIdx q
      lastU := st.lastU }
  else st

theorem zeroTime_isZero : zeroTime.isZero = true := by
  simp [GoTime.isZero, zeroTime]

theorem pruneStep_eq_stepS (snaps : List GoTime) (idx : Nat) (st : PruneSt) (pd : Period)
    (h : st.lastU = fun _ => zeroTime) :
    pruneStep snaps idx st pd = stepS snaps idx st pd := by
  have hz : (st.lastU pd.unit).isZero = true := by rw [h]; exact zeroTime_isZero
  unfold pruneStep stepS acceptB skipB
  generalize snaps.getD idx zeroTime = a
  by_cases hc : lookup0 st.need pd = 0
  · simp [hc]
  · by_cases hl : pd.unit = uLast
    · simp [hc, hl, bne]
    · by_cases h1 : (st.lastP pd).isZero
      · simp [hc, hl, bne, h1, hz]
      · by_cases h2 : (pd.prevTime (st.lastP pd)).before a
        · by_cases h3 : unitTimeEquals pd.unit (pd.prevTime (st.lastP pd)) a
          · simp [hc, hl, bne, h1, h2, h3, hz]
          · simp [hc, hl, bne, h1, h2, h3, hz]
        · simp [hc, hl, bne, h1, h2, hz]

theorem stepS_lastU (snaps : List GoTime) (idx : Nat) (st : PruneSt) (pd : Period) :
    (stepS snaps idx st pd).lastU = st.lastU := by
  unfold stepS
  generalize snaps.getD idx zeroTime = a
  by_cases h : acceptB st a pd <;> simp [h]

/-- The run of `Prune` phrased with the simplified step. -/
def runS (snaps : List GoTime) (policy : Policy) : PruneSt :=
  let st0 : PruneSt :=
    { keep := List.replicate snaps.length []
      need := policy.entries
      lastP := fun _ => zeroTime
      lastIdx := fun _ => 0
      lastU := fun _ => zeroTime }
  (sortIdx snaps).foldl (fun st idx => (eachKeys st.need).foldl (stepS snaps idx) st) st0

theorem foldl_stepS_lastU (snaps : List GoTime) (idx : Nat) (ks : List Period) (st : PruneSt) :
    (ks.foldl (stepS snaps idx) st).lastU = st.lastU := by
  induction ks generalizing st with
  | nil => rfl
  | cons k t ih => simp only [List.foldl_cons, ih, stepS_lastU]

theorem foldl_pruneStep_eq (snaps : List GoTime) (idx : Nat) (ks : List Period) (st : PruneSt)
    (h : st.lastU = fun _ => zeroTime) :
    ks.foldl (pruneStep snaps idx) st = ks.foldl (stepS snaps idx) st := by
  induction ks generalizing st with
  | nil => rfl
  | cons k t ih =>
    simp only [List.foldl_cons, pruneStep_eq_stepS _ _ _ _ h]
    exact ih _ (by rw [stepS_lastU]; exact h)

theorem foldl_pruneSnap_eq (snaps : List GoTime) (idxs : List Nat) (st : PruneSt)
    (h : st.lastU = fun _ => zeroTime) :
    idxs.foldl (pruneSnap snaps) st =
      idxs.foldl (fun st idx => (eachKeys st.need).foldl (stepS snaps idx) st) st := by
  induction idxs generalizing st with
  | nil => rfl
  | cons i t ih =>
    simp only [List.foldl_cons]
    rw [pruneSnap, foldl_pruneStep_eq _ _ _ _ h]
    exact ih _ (by rw [foldl_stepS_lastU]; exact h)

theorem prune_eq_runS (snaps : List GoTime) (policy : Policy) :
    Prune snaps policy = ((runS snaps policy).keep, ⟨(runS snaps policy).need⟩) := by
  simp only [Prune, runS, Policy.clone]
  rw [foldl_pruneSnap_eq snaps (sortIdx snaps) _ rfl]

/-! ## Association-list lemmas -/

theorem lookup0_cons (e : Period × Int) (t : List (Period × Int)) (q : Period) :
    lookup0 (e :: t) q = if e.1 = q then e.2 else lookup0 t q := by
  unfold lookup0
  rw [List.find?_cons]
  by_cases h : e.1 = q
  · simp [h]
  · have hb : (e.1 == q) = false := by simp [h]
    simp [h, hb]

theorem hasKey_cons (e : Period × Int) (t : List (Period × Int)) (q : Period) :
    hasKey (e :: t) q = (if e.1 = q then true else hasKey t q) := by
  unfold hasKey
  rw [List.find?_cons]
  by_cases h : e.1 = q
  · simp [h]
  · have hb : (e.1 == q) = false := by simp [h]
    simp [h, hb]

theorem decKey_cons (e : Period × Int) (t : List (Period × Int)) (pd : Period) :
    decKey (e :: t) pd = (if e.1 = pd then (e.1, e.2 - 1) else e) :: decKey t pd := by
  unfold decKey
  rw [List.map_cons]
  by_cases h : e.1 = pd
  · simp [h]
  · have hb : (e.1 == pd) = false := by simp [h]
    simp [h, hb]

theorem hasKey_iff_mem (l : List (Period × Int)) (pd : Period) :
    hasKey l pd = true ↔ pd ∈ l.map Prod.fst := by
  induction l with
  | nil => simp [hasKey]
  | cons e t ih =>
    rw [hasKey_cons]
    by_cases h : e.1 = pd
    · simp [h]
    · simp only [h, if_false, List.map_cons, List.mem_cons, ih]
      constructor
      · exact fun hm => Or.inr hm
      · rintro (hm | hm)
        · exact absurd hm.symm h
        · exact hm

theorem lookup0_eq_zero_of_not_hasKey (l : List (Period × Int)) (pd : Period)
    (h : hasKey l pd = false) : lookup0 l pd = 0 := by
  induction l with
  | nil => rfl
  | cons e t ih =>
    rw [hasKey_cons] at h
    rw [lookup0_cons]
    by_cases he : e.1 = pd
    · simp [he] at h
    · simp only [he, if_false] at h ⊢
      exact ih h

theorem decKey_map_fst (l : List (Period × Int)) (pd : Period) :
    (decKey l pd).map Prod.fst = l.map Prod.fst := by
  induction l with
  | nil => rfl
  | cons e t ih =>
    rw [decKey_cons, List.map_cons, List.map_cons, ih]
    by_cases h : e.1 = pd <;> simp [h]

theorem lookup0_decKey_ne (l : List (Period × Int)) (pd q : Period) (h : q ≠ pd) :
    lookup0 (decKey l pd) q = lookup0 l q := by
  induction l with
  | nil => rfl
  | cons e t ih =>
    rw [decKey_cons, lookup0_cons, lookup0_cons]
    by_cases he : e.1 = pd
    · have hq : ¬ e.1 = q := by rw [he]; exact fun hc => h hc.symm
      have hq' : ¬ pd = q := he ▸ hq
      simp only [he, if_true]
      simp [hq', ih]
    · simp only [he, if_false]
      by_cases hq : e.1 = q
      · simp [hq]
      · rw [if_neg hq, if_neg hq, ih]

theorem lookup0_decKey_self (l : List (Period × Int)) (pd : Period) (h : hasKey l pd = true) :
    lookup0 (decKey l pd) pd = lookup0 l pd - 1 := by
  induction l with
  | nil => simp [hasKey] at h
  | cons e t ih =>
    rw [hasKey_cons] at h
    rw [decKey_cons, lookup0_cons, lookup0_cons]
    by_cases he : e.1 = pd
    · simp [he]
    · simp only [he, if_false] at h ⊢
      exact ih h

theorem lookup0_insertSorted_self (l : List (Period × Int)) (pd : Period) (v : Int) :
    lookup0 (insertSorted l pd v) pd = v := by
  induction l with
  | nil => simp [insertSorted, lookup0_cons]
  | cons e t ih =>
    rcases e with ⟨q, w⟩
    by_cases he : pd = q
    · simp [insertSorted, he, lookup0_cons]
    · by_cases hlt : pd.ltP q
      · simp [insertSorted, he, hlt, lookup0_cons]
      · have hq : ¬ q = pd := fun hc => he hc.symm
        simp only [insertSorted, he, if_false, hlt]
        rw [lookup0_cons, if_neg hq]
        exact ih

theorem hasKey_eraseKey_self (l : List (Period × Int)) (pd : Period) :
    hasKey (eraseKey l pd) pd = false := by
  induction l with
  | nil => rfl
  | cons e t ih =>
    by_cases he : e.1 = pd
    · have heq : eraseKey (e :: t) pd = eraseKey t pd := by
        simp [eraseKey, List.filter_cons, he]
      rw [heq]; exact ih
    · have heq : eraseKey (e :: t) pd = e :: eraseKey t pd := by
        simp [eraseKey, List.filter_cons, he]
      rw [heq, hasKey_cons, if_neg he]; exact ih

theorem mem_insertSorted (l : List (Period × Int)) (pd : Period) (v : Int) :
    ∀ e ∈ insertSorted l pd v, e ∈ l ∨ e = (pd, v) := by
  induction l with
  | nil => intro e he; simp [insertSorted] at he; exact Or.inr he
  | cons f t ih =>
    rcases f with ⟨q, w⟩
    intro e he
    by_cases hq : pd = q
    · simp only [insertSorted, hq, if_true] at he
      rcases List.mem_cons.mp he with h | h
      · exact Or.inr (by rw [h, hq])
      · exact Or.inl (List.mem_cons_of_mem _ h)
    · by_cases hlt : pd.ltP q
      · simp only [insertSorted, hq, if_false, hlt, if_true] at he
        rcases List.mem_cons.mp he with h | h
        · exact Or.inr h
        · exact Or.inl h
      · simp only [insertSorted, hq, if_false, hlt] at he
        rcases List.mem_cons.mp he with h | h
        · exact Or.inl (by rw [h]; exact List.mem_cons_self _ _)
        · rcases ih e h with h' | h'
          · exact Or.inl (List.mem_cons_of_mem _ h')
          · exact Or.inr h'

theorem mem_eraseKey (l : List (Period × Int)) (pd : Period) :
    ∀ e ∈ eraseKey l pd, e ∈ l :=
  fun _ he => List.mem_of_mem_filter he

/-! ## appendKeep lemmas -/

theorem appendKeep_nil (i : Nat) (pd : Period) : appendKeep [] i pd = [] := by
  simp [appendKeep]

theorem appendKeep_cons_zero (r : List Period) (t : List (List Period)) (pd : Period) :
    appendKeep (r :: t) 0 pd = (r ++ [pd]) :: t := by
  simp [appendKeep]

theorem appendKeep_cons_succ (r : List Period) (t : List (List Period)) (n : Nat)
    (pd : Period) : appendKeep (r :: t) (n + 1) pd = r :: appendKeep t n pd := by
  simp [appendKeep]

theorem appendKeep_length (k : List (List Period)) (i : Nat) (pd : Period) :
    (appendKeep k i pd).length = k.length := by
  simp [appendKeep]

theorem appendKeep_getD_ne (k : List (List Period)) (i j : Nat) (pd : Period) (h : j ≠ i) :
    (appendKeep k i pd).getD j [] = k.getD j [] := by
  induction k generalizing i j with
  | nil => rw [appendKeep_nil]
  | cons r t ih =>
    cases i with
    | zero =>
      rw [appendKeep_cons_zero]
      cases j with
      | zero => exact absurd rfl h
      | succ m => simp [List.getD_cons_succ]
    | succ n =>
      rw [appendKeep_cons_succ]
      cases j with
      | zero => simp [List.getD_cons_zero]
      | succ m =>
        rw [List.getD_cons_succ, List.getD_cons_succ]
        exact ih n m fun hc => h (by rw [hc])

theorem appendKeep_getD_self (k : List (List Period)) (i : Nat) (pd : Period)
    (h : i < k.length) :
    (appendKeep k i pd).getD i [] = k.getD i [] ++ [pd] := by
  induction k generalizing i with
  | nil => simp at h
  | cons r t ih =>
    cases i with
    | zero => rw [appendKeep_cons_zero]; simp [List.getD_cons_zero]
    | succ n =>
      rw [appendKeep_cons_succ, List.getD_cons_succ, List.getD_cons_succ]
      exact ih n (by simpa using h)

/-- Number of slots of `keep` that contain the period. -/
def keptCount (k : List (List Period)) (pd : Period) : Nat :=
  k.countP fun r => decide (pd ∈ r)

theorem keptCount_cons (r : List Period) (t : List (List Period)) (pd : Period) :
    keptCount (r :: t) pd = keptCount t pd + (if pd ∈ r then 1 else 0) := by
  unfold keptCount
  rw [List.countP_cons]
  by_cases h : pd ∈ r <;> simp [h]

theorem keptCount_appendKeep_ne (k : List (List Period)) (i : Nat) (pd q : Period)
    (h : pd ≠ q) : keptCount (appendKeep k i q) pd = keptCount k pd := by
  induction k generalizing i with
  | nil => rw [appendKeep_nil]
  | cons r t ih =>
    cases i with
    | zero =>
      rw [appendKeep_cons_zero, keptCount_cons, keptCount_cons]
      have : (pd ∈ r ++ [q]) ↔ pd ∈ r := by simp [h]
      simp only [this]
    | succ n =>
      rw [appendKeep_cons_succ, keptCount_cons, keptCount_cons, ih]

theorem keptCount_appendKeep_self (k : List (List Period)) (i : Nat) (pd : Period)
    (hi : i < k.length) (hn : pd ∉ k.getD i []) :
    keptCount (appendKeep k i pd) pd = keptCount k pd + 1 := by
  induction k generalizing i with
  | nil => simp at hi
  | cons r t ih =>
    cases i with
    | zero =>
      rw [List.getD_cons_zero] at hn
      rw [appendKeep_cons_zero, keptCount_cons, keptCount_cons]
      have h1 : pd ∈ r ++ [pd] := by simp
      rw [if_pos h1, if_neg hn]
    | succ n =>
      rw [List.getD_cons_succ] at hn
      rw [appendKeep_cons_succ, keptCount_cons, keptCount_cons,
        ih n (by simpa using hi) hn]
      omega

/-! ## Claim C7: empty-input edge cases -/

theorem foldl_pruneSnap_need_nil (snaps : List GoTime) (l : List Nat) (st : PruneSt)
    (h : st.need = []) : l.foldl (pruneSnap snaps) st = st := by
  induction l generalizing st with
  | nil => rfl
  | cons i t ih =>
    have hstep : pruneSnap snaps st i = st := by
      rw [pruneSnap, h]; rfl
    rw [List.foldl_cons, hstep]
    exact ih st h

/-- C7: `Prune` on an empty snapshot list returns an empty `keep` and a `need`
equal to (a clone of) the input policy; `Prune` of any snapshot list under the
empty policy marks every snapshot with an empty period list. -/
theorem prune_empty_snapshots_and_empty_policy :
    (∀ policy : Policy, Prune [] policy = ([], policy)) ∧
    (∀ snaps : List GoTime,
      Prune snaps ⟨[]⟩ = (List.replicate snaps.length [], ⟨[]⟩)) := by
  constructor
  · intro policy; rfl
  · intro snaps
    simp only [Prune, Policy.clone]
    rw [foldl_pruneSnap_need_nil _ _ _ rfl]

/-! ## Claim C2: the at-most-one-per-bucket guarantee fails

`lastUnit` is never assigned in the source, so the unit-level dedup guard is
inert.  Together with the `AddDate` day-overflow normalization
(Mar 31 − 1 month = Feb 31 = Mar 2 in 2012), a single `monthly:1` rule retains
two snapshots inside the same calendar month. -/

def c2Period : Period := { unit := uMonthly, interval := 1 }

def c2Snaps : List GoTime :=
  [goDateTime 2012 3 31 0 0 0 0 0, goDateTime 2012 3 10 0 0 0 0 0]

def c2Policy : Policy := ⟨[(c2Period, -1)]⟩

/-- C2 (failing input): on snapshots 2012-03-31 and 2012-03-10 (UTC) under the
policy `monthly:1 ↦ ∞`, `Prune` retains both snapshots for the monthly period
even though they fall in the same calendar-month bucket. -/
theorem prune_retains_two_snapshots_in_same_month_bucket :
    (Prune c2Snaps c2Policy).1 = [[c2Period], [c2Period]] ∧
      unitTimeEquals uMonthly (goDateTime 2012 3 31 0 0 0 0 0)
        (goDateTime 2012 3 10 0 0 0 0 0) = true := by
  constructor
  · rfl
  · rfl

/-! ## Claim C8: the Set/Get contract -/

/-- C8: the `Policy.Set` / `Policy.Get` contract: failed normalization means no
mutation and `false`; negative counts are stored as the sentinel `-1`; zero
count deletes; positive counts replace and `Set` reports `true`; `Get` reads
through normalization with default `0`; stored counts stay nonzero. -/
theorem policy_set_get_contract :
    (∀ (p : Policy) (pd : Period) (c : Int),
      pd.normalize.2 = false → p.set pd c = (p, false)) ∧
    (∀ (p : Policy) (pd : Period) (c : Int), pd.normalize.2 = true →
      (p.set pd c).2 = true ∧
      (c < 0 → lookup0 (p.set pd c).1.entries pd.normalize.1 = -1) ∧
      (c = 0 → hasKey (p.set pd c).1.entries pd.normalize.1 = false) ∧
      (0 < c → lookup0 (p.set pd c).1.entries pd.normalize.1 = c)) ∧
    (∀ (p : Policy) (pd : Period), pd.normalize.2 = false → p.get pd = 0) ∧
    (∀ (p : Policy) (pd : Period), pd.normalize.2 = true →
      p.get pd = lookup0 p.entries pd.normalize.1) ∧
    (∀ (p : Policy) (pd : Period), hasKey p.entries pd.normalize.1 = false →
      p.get pd = 0) ∧
    (∀ (p : Policy) (pd : Period) (c : Int),
      (∀ e ∈ p.entries, e.2 ≠ 0) → ∀ e ∈ (p.set pd c).1.entries, e.2 ≠ 0) := by
  refine ⟨?_, ?_, ?_, ?_, ?_, ?_⟩
  · intro p pd c h
    unfold Policy.set
    rcases hn : pd.normalize with ⟨pd', ok⟩
    rw [hn] at h
    simp only at h
    simp [h]
  · intro p pd c h
    unfold Policy.set
    rcases hn : pd.normalize with ⟨pd', ok⟩
    rw [hn] at h
    simp only at h
    subst h
    refine ⟨by simp, ?_, ?_, ?_⟩
    · intro hc
      have h0 : ¬ (if c < 0 then (-1 : Int) else c) = 0 := by
        rw [if_pos hc]; decide
      simp only [hn, if_pos rfl, h0, if_false, if_pos hc]
      exact lookup0_insertSorted_self _ _ _
    · intro hc
      have h0 : (if c < 0 then (-1 : Int) else c) = 0 := by
        rw [if_neg (by omega)]; exact hc
      simp only [hn, if_pos rfl, h0, if_true]
      exact hasKey_eraseKey_self _ _
    · intro hc
      have h0 : ¬ c = 0 := by omega
      have h1 : (if c < 0 then (-1 : Int) else c) = c := by rw [if_neg (by omega)]
      simp only [hn, h1, h0, if_false, if_true, eq_self_iff_true, ite_true]
      exact lookup0_insertSorted_self _ _ _
  · intro p pd h
    unfold Policy.get
    rcases hn : pd.normalize with ⟨pd', ok⟩
    rw [hn] at h
    simp only at h
    simp [h]
  · intro p pd h
    unfold Policy.get
    rcases hn : pd.normalize with ⟨pd', ok⟩
    rw [hn] at h
    simp only at h
    simp [h]
  · intro p pd h
    unfold Policy.get
    rcases hn : pd.normalize with ⟨pd', ok⟩
    cases ok with
    | false => simp
    | true =>
      rw [hn] at h
      simp only at h
      simpa using lookup0_eq_zero_of_not_hasKey _ _ h
  · intro p pd c hall e he
    unfold Policy.set at he
    rcases hn : pd.normalize with ⟨pd', ok⟩
    rw [hn] at he
    simp only at he
    cases ok with
    | false => exact hall e (by simpa using he)
    | true =>
      by_cases h0 : (if c < 0 then (-1 : Int) else c) = 0
      · simp only [if_pos rfl, h0, if_true] at he
        exact hall e (mem_eraseKey _ _ e he)
      · simp only [if_pos rfl, h0, if_false] at he
        rcases mem_insertSorted _ _ _ e he with h | h
        · exact hall e h
        · rw [h]
          by_cases hc : c < 0
          · simp only [if_pos hc]; decide
          · simpa only [if_neg hc] using h0

def c8BadPeriod : Period := { unit := 7, interval := 1 }

def c8GoodPeriod : Period := { unit := uDaily, interval := 2 }

/-- Witness for C8 at concrete inputs. -/
theorem policy_set_get_contract_witness :
    (⟨[]⟩ : Policy).set c8BadPeriod 5 = (⟨[]⟩, false) ∧
    ((⟨[]⟩ : Policy).set c8GoodPeriod (-4)).2 = true ∧
    lookup0 ((⟨[]⟩ : Policy).set c8GoodPeriod (-4)).1.entries c8GoodPeriod = -1 ∧
    hasKey ((⟨[(c8GoodPeriod, 3)]⟩ : Policy).set c8GoodPeriod 0).1.entries c8GoodPeriod = false ∧
    lookup0 ((⟨[(c8GoodPeriod, 3)]⟩ : Policy).set c8GoodPeriod 9).1.entries c8GoodPeriod = 9 ∧
    (⟨[]⟩ : Policy).get c8BadPeriod = 0 ∧
    (⟨[(c8GoodPeriod, 3)]⟩ : Policy).get c8GoodPeriod = 3 ∧
    (∀ e ∈ ((⟨[(c8GoodPeriod, 3)]⟩ : Policy).set c8GoodPeriod (-2)).1.entries, e.2 ≠ 0) := by
  have h := policy_set_get_contract
  refine ⟨h.1 ⟨[]⟩ c8BadPeriod 5 (by decide), ?_, ?_, ?_, ?_, ?_, ?_, ?_⟩
  · exact (h.2.1 ⟨[]⟩ c8GoodPeriod (-4) (by decide)).1
  · have := (h.2.1 ⟨[]⟩ c8GoodPeriod (-4) (by decide)).2.1 (by decide)
    simpa using this
  · have := (h.2.1 ⟨[(c8GoodPeriod, 3)]⟩ c8GoodPeriod 0 (by decide)).2.2.1 rfl
    simpa using this
  · have := (h.2.1 ⟨[(c8GoodPeriod, 3)]⟩ c8GoodPeriod 9 (by decide)).2.2.2 (by decide)
    simpa using this
  · exact h.2.2.1 ⟨[]⟩ c8BadPeriod (by decide)
  · have := h.2.2.2.1 ⟨[(c8GoodPeriod, 3)]⟩ c8GoodPeriod (by decide)
    rw [this]; rfl
  · exact h.2.2.2.2.2 ⟨[(c8GoodPeriod, 3)]⟩ c8GoodPeriod (-2) (by decide)

/-! ## Claim C10: `Prune` never mutates its policy argument

Map identity is made explicit through a heap of map cells: a policy value is a
reference into the heap, `Policy.Clone` (`maps.Clone`) allocates a fresh cell
holding a copy, and every write `Prune` performs (`need.count[period]--`) goes
through the `need` reference.  The theorem states that the cell the input
policy references is untouched when `Prune` returns. -/

abbrev Heap := List (List (Period × Int))

def heapRead (h : Heap) (r : Nat) : List (Period × Int) := h.getD r []

def heapWrite (h : Heap) (r : Nat) (v : List (Period × Int)) : Heap := h.set r v

/-- `maps.Clone` in `Policy.Clone`: allocate a fresh cell with a copy. -/
def cloneH (h : Heap) (r : Nat) : Heap × Nat := (h ++ [heapRead h r], h.length)

/-- The `Prune` loop state with the `need` map held in a heap cell. -/
structure PruneStH where
  heap : Heap
  keep : List (List Period)
  lastP : Period → GoTime
  lastIdx : Period → Nat
  lastU : Int → GoTime

/-- `pruneStep` acting through the heap: identical decision logic, with the
`need` reads and the decrement going through `needRef`. -/
def pruneStepH (snaps : List GoTime) (idx : Nat) (needRef : Nat) (st : PruneStH)
    (pd : Period) : PruneStH :=
  let at' := snaps.getD idx zeroTime
  let need := heapRead st.heap needRef
  let count := lookup0 need pd
  if count = 0 then st
  else if pd.unit = uLast then
    { st with
      keep := appendKeep st.keep idx pd
      heap := if 0 < count then heapWrite st.heap needRef (decKey need pd) else st.heap }
  else
    let last := st.lastP pd
    let want := pd.prevTime last
    if !last.isZero && (want.before at' && !unitTimeEquals pd.unit want at') then st
    else
      let st' :=
        if (st.lastU pd.unit).isZero || !unitTimeEquals pd.unit (st.lastU pd.unit) at' then
          { st with
            lastP := fun q => if q = pd then at' else st.lastP q
            lastIdx := fun q => if q = pd then idx else st.lastIdx q }
        else st
      { st' with
        keep := appendKeep st'.keep (st'.lastIdx pd) pd
        heap := if 0 < count then heapWrite st'.heap needRef (decKey need pd) else st'.heap }

def pruneSnapH (snaps : List GoTime) (needRef : Nat) (st : PruneStH) (idx : Nat) : PruneStH :=
  (eachKeys (heapRead st.heap needRef)).foldl (pruneStepH snaps idx needRef) st

/-- `Prune` over the heap model: clone the policy cell into a fresh `need`
cell, then run the loop.  Returns the final state and the `need` reference. -/
def pruneH (snaps : List GoTime) (h : Heap) (policyRef : Nat) : PruneStH × Nat :=
  let (h1, needRef) := cloneH h policyRef
  let st0 : PruneStH :=
    { heap := h1
      keep := List.replicate snaps.length []
      lastP := fun _ => zeroTime
      lastIdx := fun _ => 0
      lastU := fun _ => zeroTime }
  ((sortIdx snaps).foldl (pruneSnapH snaps needRef) st0, needRef)

theorem getD_set_ne (l : List (List (Period × Int))) (i j : Nat)
    (x : List (Period × Int)) (h : j ≠ i) : (l.set i x).getD j [] = l.getD j [] := by
  induction l generalizing i j with
  | nil => rfl
  | cons a t ih =>
    cases i with
    | zero =>
      cases j with
      | zero => exact absurd rfl h
      | succ m => simp [List.set_cons_zero, List.getD_cons_succ]
    | succ n =>
      cases j with
      | zero => simp [List.set_cons_succ, List.getD_cons_zero]
      | succ m =>
        rw [List.set_cons_succ, List.getD_cons_succ, List.getD_cons_succ]
        exact ih n m fun hc => h (by rw [hc])

theorem heapRead_write_ne (h : Heap) (r r' : Nat) (v : List (Period × Int)) (hne : r' ≠ r) :
    heapRead (heapWrite h r v) r' = heapRead h r' :=
  getD_set_ne h r r' v hne

theorem heapRead_append_lt (h : Heap) (t : Heap) (r : Nat) (hr : r < h.length) :
    heapRead (h ++ t) r = heapRead h r := by
  unfold heapRead
  induction h generalizing r with
  | nil => simp at hr
  | cons a s ih =>
    cases r with
    | zero => simp [List.getD_cons_zero]
    | succ n =>
      rw [List.cons_append, List.getD_cons_succ, List.getD_cons_succ]
      exact ih n (by simpa using hr)

theorem pruneStepH_frame (snaps : List GoTime) (idx needRef r : Nat) (st : PruneStH)
    (pd : Period) (hne : r ≠ needRef) :
    heapRead (pruneStepH snaps idx needRef st pd).heap r = heapRead st.heap r := by
  unfold pruneStepH
  generalize snaps.getD idx zeroTime = a
  by_cases h1 : lookup0 (heapRead st.heap needRef) pd = 0
  · simp [h1]
  · by_cases h2 : pd.unit = uLast
    · simp only [h1, if_false, h2, if_true]
      by_cases h3 : 0 < lookup0 (heapRead st.heap needRef) pd
      · simp only [h3, if_true]
        exact heapRead_write_ne _ _ _ _ hne
      · simp [h3]
    · simp only [h1, if_false, h2]
      by_cases h3 :
          (!(st.lastP pd).isZero &&
            ((pd.prevTime (st.lastP pd)).before a &&
              !unitTimeEquals pd.unit (pd.prevTime (st.lastP pd)) a)) = true
      · simp [h3]
      · rw [Bool.not_eq_true] at h3
        simp only [h3, Bool.false_eq_true, if_false]
        by_cases h4 :
            ((st.lastU pd.unit).isZero || !unitTimeEquals pd.unit (st.lastU pd.unit) a) = true
        · simp only [h4, if_true]
          by_cases h5 : 0 < lookup0 (heapRead st.heap needRef) pd
          · simp only [h5, if_true]
            exact heapRead_write_ne _ _ _ _ hne
          · simp [h5]
        · rw [Bool.not_eq_true] at h4
          simp only [h4, Bool.false_eq_true, if_false]
          by_cases h5 : 0 < lookup0 (heapRead st.heap needRef) pd
          · simp only [h5, if_true]
            exact heapRead_write_ne _ _ _ _ hne
          · simp [h5]

theorem pruneSnapH_frame (snaps : List GoTime) (needRef r : Nat) (st : PruneStH)
    (idx : Nat) (hne : r ≠ needRef) :
    heapRead (pruneSnapH snaps needRef st idx).heap r = heapRead st.heap r := by
  unfold pruneSnapH
  generalize eachKeys (heapRead st.heap needRef) = ks
  induction ks generalizing st with
  | nil => rfl
  | cons k t ih =>
    rw [List.foldl_cons]
    rw [ih (pruneStepH snaps idx needRef st k)]
    exact pruneStepH_frame snaps idx needRef r st k hne

/-- C10: after `Prune` (heap model), the cell referenced by the input policy
holds exactly the map it held before the call; all decrement bookkeeping
happens in the freshly allocated `need` cell. -/
theorem prune_preserves_policy_argument (snaps : List GoTime) (h : Heap) (policyRef : Nat)
    (hr : policyRef < h.length) :
    heapRead (pruneH snaps h policyRef).1.heap policyRef = heapRead h policyRef := by
  have hne : policyRef ≠ h.length := Nat.ne_of_lt hr
  simp only [pruneH, cloneH]
  generalize hidx : sortIdx snaps = idxs
  have hbase :
      heapRead (h ++ [heapRead h policyRef]) policyRef = heapRead h policyRef :=
    heapRead_append_lt h _ policyRef hr
  generalize hst0 :
    ({ heap := h ++ [heapRead h policyRef]
       keep := List.replicate snaps.length []
       lastP := fun _ => zeroTime
       lastIdx := fun _ => 0
       lastU := fun _ => zeroTime } : PruneStH) = st0
  have : ∀ (l : List Nat) (st : PruneStH),
      heapRead (l.foldl (pruneSnapH snaps h.length) st).heap policyRef =
        heapRead st.heap policyRef := by
    intro l
    induction l with
    | nil => intro st; rfl
    | cons i t ih =>
      intro st
      rw [List.foldl_cons, ih]
      exact pruneSnapH_frame snaps h.length policyRef st i hne
  rw [this idxs st0, ← hst0]
  exact hbase

/-- Witness for C10 at a concrete heap and snapshot list. -/
theorem prune_preserves_policy_argument_witness :
    heapRead (pruneH c2Snaps [[(c8GoodPeriod, 2)]] 0).1.heap 0 = [(c8GoodPeriod, 2)] := by
  have h := prune_preserves_policy_argument c2Snaps [[(c8GoodPeriod, 2)]] 0 (by decide)
  rw [h]
  rfl

/-! ## Order lemmas for the canonical period order -/

theorem ltP_irrefl (p : Period) : ¬ p.ltP p := by
  unfold Period.ltP; omega

theorem ltP_trans {p q r : Period} (h1 : p.ltP q) (h2 : q.ltP r) : p.ltP r := by
  unfold Period.ltP at *; omega

theorem ltP_total {p q : Period} (h1 : ¬ p.ltP q) (h2 : ¬ q.ltP p) : p = q := by
  unfold Period.ltP at *
  rcases p with ⟨pu, pi⟩
  rcases q with ⟨qu, qi⟩
  simp only at h1 h2
  have : pu = qu ∧ pi = qi := by omega
  rw [this.1, this.2]

instance : IsIrrefl Period Period.ltP := ⟨ltP_irrefl⟩

instance : Trans Period.ltP Period.ltP Period.ltP := ⟨ltP_trans⟩

theorem insertPeriod_of_lt (pd : Period) (l : List Period) (h : ∀ y ∈ l, pd.ltP y) :
    insertPeriod pd l = pd :: l := by
  cases l with
  | nil => rfl
  | cons q t => simp [insertPeriod, h q (List.mem_cons_self _ _)]

theorem sortPeriods_of_pairwise (l : List Period) (h : l.Pairwise Period.ltP) :
    sortPeriods l = l := by
  induction l with
  | nil => rfl
  | cons x t ih =>
    have hx := List.pairwise_cons.mp h
    unfold sortPeriods at ih ⊢
    rw [List.foldr_cons, ih hx.2]
    exact insertPeriod_of_lt x t hx.1

/-! ## Misc list lemmas for the run invariant -/

theorem getD_replicate_nil (n j : Nat) :
    (List.replicate n ([] : List Period)).getD j [] = [] := by
  induction n generalizing j with
  | zero => rfl
  | succ m ih =>
    cases j with
    | zero => rfl
    | succ k => rw [List.replicate_succ, List.getD_cons_succ]; exact ih k

theorem keptCount_replicate_nil (n : Nat) (pd : Period) :
    keptCount (List.replicate n []) pd = 0 := by
  induction n with
  | zero => rfl
  | succ m ih => rw [List.replicate_succ, keptCount_cons, ih]; simp

theorem lookup0_of_mem_nodup (l : List (Period × Int)) (pd : Period) (v : Int)
    (hmem : (pd, v) ∈ l) (hnd : (l.map Prod.fst).Nodup) : lookup0 l pd = v := by
  induction l with
  | nil => simp at hmem
  | cons e t ih =>
    rw [List.map_cons, List.nodup_cons] at hnd
    rw [lookup0_cons]
    rcases List.mem_cons.mp hmem with h | h
    · rw [← h]; simp
    · have hne : ¬ e.1 = pd := by
        intro hc
        exact hnd.1 (hc ▸ List.mem_map_of_mem Prod.fst h)
      rw [if_neg hne]
      exact ih h hnd.2

/-! ## stepS case analysis -/

theorem stepS_accept (snaps : List GoTime) (idx : Nat) (st : PruneSt) (pd : Period)
    (h : acceptB st (snaps.getD idx zeroTime) pd = true) :
    stepS snaps idx st pd =
      { keep := appendKeep st.keep idx pd
        need := if 0 < lookup0 st.need pd then decKey st.need pd else st.need
        lastP := if pd.unit = uLast then st.lastP
          else fun q => if q = pd then snaps.getD idx zeroTime else st.lastP q
        lastIdx := if pd.unit = uLast then st.lastIdx
          else fun q => if q = pd then idx else st.lastIdx q
        lastU := st.lastU } := by
  unfold stepS
  rw [if_pos h]

theorem stepS_skip (snaps : List GoTime) (idx : Nat) (st : PruneSt) (pd : Period)
    (h : acceptB st (snaps.getD idx zeroTime) pd = false) :
    stepS snaps idx st pd = st := by
  unfold stepS
  rw [if_neg (by rw [h]; exact Bool.false_ne_true)]

theorem acceptB_ne_zero (st : PruneSt) (a : GoTime) (pd : Period)
    (h : acceptB st a pd = true) : lookup0 st.need pd ≠ 0 := by
  unfold acceptB at h
  have h1 : (lookup0 st.need pd != 0) = true := by
    cases hb : (lookup0 st.need pd != 0) with
    | true => rfl
    | false => rw [hb, Bool.false_and] at h; exact absurd h Bool.false_ne_true
  simpa [bne] using h1

/-! ## The run invariant shared by the conservation and well-formedness claims -/

/-- Invariant maintained by the (simplified) `Prune` loop: `need` keeps the
policy's keys; `keep` is index-aligned; every reason list is strictly sorted
with periods drawn from the policy; and per period the running count plus the
number of retaining slots balances the original count (with negative counts
untouched). -/
def InvKeep (policy : Policy) (snaps : List GoTime) (st : PruneSt) : Prop :=
  st.need.map Prod.fst = policy.entries.map Prod.fst ∧
  st.keep.length = snaps.length ∧
  (∀ j, (st.keep.getD j []).Pairwise Period.ltP) ∧
  (∀ j, ∀ pd ∈ st.keep.getD j [], pd ∈ policy.entries.map Prod.fst) ∧
  (∀ e ∈ policy.entries,
    (0 < e.2 → 0 ≤ lookup0 st.need e.1 ∧
      lookup0 st.need e.1 + (keptCount st.keep e.1 : Int) = e.2) ∧
    (e.2 < 0 → lookup0 st.need e.1 = e.2))

theorem innerFold_inv (policy : Policy) (snaps : List GoTime) (idx : Nat)
    (hidx : idx < snaps.length) :
    ∀ (ks : List Period) (st : PruneSt),
      ks.Pairwise Period.ltP →
      (∀ y ∈ ks, y ∈ policy.entries.map Prod.fst) →
      (∀ x ∈ st.keep.getD idx [], ∀ y ∈ ks, x.ltP y) →
      InvKeep policy snaps st →
      InvKeep policy snaps (ks.foldl (stepS snaps idx) st) ∧
      (∀ j, j ≠ idx →
        (ks.foldl (stepS snaps idx) st).keep.getD j [] = st.keep.getD j []) := by
  intro ks
  induction ks with
  | nil => intro st _ _ _ hI; exact ⟨hI, fun _ _ => rfl⟩
  | cons pd t ih =>
    intro st hpw hks hord hI
    obtain ⟨hkeys, hlen, hsort, hmem, hcnt⟩ := hI
    have hidx' : idx < st.keep.length := by rw [hlen]; exact hidx
    rw [List.foldl_cons]
    cases hacc : acceptB st (snaps.getD idx zeroTime) pd with
    | false =>
      rw [stepS_skip snaps idx st pd hacc]
      exact ih st (List.pairwise_cons.mp hpw).2
        (fun y hy => hks y (List.mem_cons_of_mem _ hy))
        (fun x hx y hy => hord x hx y (List.mem_cons_of_mem _ hy))
        ⟨hkeys, hlen, hsort, hmem, hcnt⟩
    | true =>
      have hpd_notin : pd ∉ st.keep.getD idx [] := fun hin =>
        ltP_irrefl pd (hord pd hin pd (List.mem_cons_self _ _))
      have hslot :
          (appendKeep st.keep idx pd).getD idx [] = st.keep.getD idx [] ++ [pd] :=
        appendKeep_getD_self st.keep idx pd hidx'
      rw [stepS_accept snaps idx st pd hacc]
      set st1 : PruneSt :=
        { keep := appendKeep st.keep idx pd
          need := if 0 < lookup0 st.need pd then decKey st.need pd else st.need
          lastP := if pd.unit = uLast then st.lastP
            else fun q => if q = pd then snaps.getD idx zeroTime else st.lastP q
          lastIdx := if pd.unit = uLast then st.lastIdx
            else fun q => if q = pd then idx else st.lastIdx q
          lastU := st.lastU } with hst1
      have hkeys1 : st1.need.map Prod.fst = policy.entries.map Prod.fst := by
        rw [hst1]
        by_cases h : 0 < lookup0 st.need pd
        · simp only [h, if_true]
          rw [decKey_map_fst]
          exact hkeys
        · simp only [h, if_false]
          exact hkeys
      have hhas : hasKey st.need pd = true := by
        cases hh : hasKey st.need pd with
        | true => rfl
        | false =>
          exact absurd (lookup0_eq_zero_of_not_hasKey _ _ hh)
            (acceptB_ne_zero _ _ _ hacc)
      have hlook1 : ∀ q : Period, q ≠ pd → lookup0 st1.need q = lookup0 st.need q := by
        intro q hq
        rw [hst1]
        by_cases h : 0 < lookup0 st.need pd
        · simp only [h, if_true]
          exact lookup0_decKey_ne _ _ _ hq
        · simp only [h, if_false]
      have hkept1_ne : ∀ q : Period, q ≠ pd → keptCount st1.keep q = keptCount st.keep q := by
        intro q hq
        rw [hst1]
        exact keptCount_appendKeep_ne _ _ _ _ hq
      have hkept1_self : keptCount st1.keep pd = keptCount st.keep pd + 1 := by
        rw [hst1]
        exact keptCount_appendKeep_self _ _ _ hidx' hpd_notin
      have hI1 : InvKeep policy snaps st1 := by
        refine ⟨hkeys1, ?_, ?_, ?_, ?_⟩
        · rw [hst1]; simp only [appendKeep_length]; exact hlen
        · intro j
          by_cases hj : j = idx
          · rw [hj, hst1]
            simp only [hslot]
            rw [List.pairwise_append]
            exact ⟨hsort idx, List.pairwise_singleton _ _,
              fun x hx y hy => by
                rw [List.mem_singleton.mp hy]
                exact hord x hx pd (List.mem_cons_self _ _)⟩
          · rw [hst1]
            simp only [appendKeep_getD_ne st.keep idx j pd hj]
            exact hsort j
        · intro j q hq
          by_cases hj : j = idx
          · rw [hj, hst1] at hq
            simp only [hslot] at hq
            rcases List.mem_append.mp hq with h | h
            · exact hmem idx q h
            · rw [List.mem_singleton.mp h]
              exact hks pd (List.mem_cons_self _ _)
          · rw [hst1] at hq
            simp only [appendKeep_getD_ne st.keep idx j pd hj] at hq
            exact hmem j q hq
        · intro e he
          rcases hcnt e he with ⟨hpos, hneg⟩
          by_cases hepd : e.1 = pd
          · constructor
            · intro h2
              rcases hpos h2 with ⟨hge, hsum⟩
              have hgt : 0 < lookup0 st.need pd := by
                rcases lt_or_eq_of_le hge with h | h
                · rwa [hepd] at h
                · exact absurd (hepd ▸ h.symm) (acceptB_ne_zero _ _ _ hacc)
              have hlk : lookup0 st1.need pd = lookup0 st.need pd - 1 := by
                rw [hst1]
                simp only [hgt, if_true]
                exact lookup0_decKey_self _ _ hhas
              rw [hepd, hlk, hkept1_self]
              rw [hepd] at hsum
              push_cast
              exact ⟨by omega, by omega⟩
            · intro h2
              have hlkneg : lookup0 st.need e.1 = e.2 := hneg h2
              have : ¬ 0 < lookup0 st.need pd := by rw [← hepd, hlkneg]; omega
              have hlk : lookup0 st1.need pd = lookup0 st.need pd := by
                rw [hst1]; simp only [this, if_false]
              rw [hepd, hlk, ← hepd, hlkneg]
          · constructor
            · intro h2
              rcases hpos h2 with ⟨hge, hsum⟩
              rw [hlook1 e.1 hepd, hkept1_ne e.1 hepd]
              exact ⟨hge, hsum⟩
            · intro h2
              rw [hlook1 e.1 hepd]
              exact hneg h2
      have hord1 : ∀ x ∈ st1.keep.getD idx [], ∀ y ∈ t, x.ltP y := by
        intro x hx y hy
        rw [hst1] at hx
        simp only [hslot] at hx
        rcases List.mem_append.mp hx with h | h
        · exact hord x h y (List.mem_cons_of_mem _ hy)
        · rw [List.mem_singleton.mp h]
          exact (List.pairwise_cons.mp hpw).1 y hy
      have hrest := ih st1 (List.pairwise_cons.mp hpw).2
        (fun y hy => hks y (List.mem_cons_of_mem _ hy)) hord1 hI1
      refine ⟨hrest.1, ?_⟩
      intro j hj
      rw [hrest.2 j hj, hst1]
      simp only [appendKeep_getD_ne st.keep idx j pd hj]

theorem outerFold_inv (policy : Policy) (snaps : List GoTime) (hWF : policy.WF) :
    ∀ (idxs : List Nat) (st : PruneSt),
      idxs.Nodup →
      (∀ i ∈ idxs, i < snaps.length) →
      (∀ j ∈ idxs, st.keep.getD j [] = []) →
      InvKeep policy snaps st →
      InvKeep policy snaps
        (idxs.foldl (fun st idx => (eachKeys st.need).foldl (stepS snaps idx) st) st) := by
  intro idxs
  induction idxs with
  | nil => intro st _ _ _ hI; exact hI
  | cons i t ih =>
    intro st hnd hlt hempty hI
    have hKSpw : (policy.entries.map Prod.fst).Pairwise Period.ltP :=
      List.pairwise_map.mpr hWF.1
    have hks : eachKeys st.need = policy.entries.map Prod.fst := by
      unfold eachKeys
      rw [hI.1]
      exact sortPeriods_of_pairwise _ hKSpw
    rw [List.foldl_cons]
    have hinner := innerFold_inv policy snaps i (hlt i (List.mem_cons_self _ _))
      (eachKeys st.need) st (by rw [hks]; exact hKSpw)
      (by rw [hks]; exact fun y hy => hy)
      (by rw [hempty i (List.mem_cons_self _ _)]; intro x hx; simp at hx)
      hI
    have hnd' := List.nodup_cons.mp hnd
    exact ih _ hnd'.2 (fun j hj => hlt j (List.mem_cons_of_mem _ hj))
      (fun j hj => by
        rw [hinner.2 j (fun hc => hnd'.1 (hc ▸ hj))]
        exact hempty j (List.mem_cons_of_mem _ hj))
      hinner.1

theorem insertIdx_perm (snaps : List GoTime) (i : Nat) (l : List Nat) :
    (insertIdx snaps i l).Perm (i :: l) := by
  induction l with
  | nil => exact List.Perm.refl _
  | cons j t ih =>
    unfold insertIdx
    by_cases h : idxAfter snaps i j
    · rw [if_pos h]
    · rw [if_neg h]
      exact (List.Perm.cons j ih).trans (List.Perm.swap i j t)

theorem sortIdx_perm (snaps : List GoTime) :
    (sortIdx snaps).Perm (List.range snaps.length) := by
  unfold sortIdx
  generalize List.range snaps.length = l
  induction l with
  | nil => exact List.Perm.refl _
  | cons x t ih =>
    rw [List.foldr_cons]
    exact (insertIdx_perm snaps x _).trans (List.Perm.cons x ih)

theorem sortIdx_nodup (snaps : List GoTime) : (sortIdx snaps).Nodup :=
  ((sortIdx_perm snaps).nodup_iff).mpr (List.nodup_range _)

theorem mem_sortIdx_lt (snaps : List GoTime) (i : Nat) (h : i ∈ sortIdx snaps) :
    i < snaps.length :=
  List.mem_range.mp (((sortIdx_perm snaps).mem_iff).mp h)

theorem runS_inv (snaps : List GoTime) (policy : Policy) (hWF : policy.WF) :
    InvKeep policy snaps (runS snaps policy) := by
  have hKSpw : (policy.entries.map Prod.fst).Pairwise Period.ltP :=
    List.pairwise_map.mpr hWF.1
  have hKSnd : (policy.entries.map Prod.fst).Nodup := hKSpw.nodup
  unfold runS
  refine outerFold_inv policy snaps hWF (sortIdx snaps) _ (sortIdx_nodup snaps)
    (mem_sortIdx_lt snaps) (fun j _ => getD_replicate_nil _ _) ?_
  refine ⟨rfl, by simp, fun j => by rw [getD_replicate_nil]; exact List.Pairwise.nil,
    fun j pd hpd => by rw [getD_replicate_nil] at hpd; simp at hpd, ?_⟩
  intro e he
  have hl : lookup0 policy.entries e.1 = e.2 :=
    lookup0_of_mem_nodup _ _ _ (by rcases e with ⟨a, b⟩; exact he) hKSnd
  constructor
  · intro h2
    rw [hl, keptCount_replicate_nil]
    constructor
    · omega
    · simp
  · intro _
    exact hl

/-! ## Claim C1: conservation -/

/-- C1: for every stored period: if the original count is finite positive, the
`need` output count plus the number of snapshots whose `keep` entry contains
the period equals the original count; if the original count is negative (the
infinite sentinel `-1`), the `need` entry still holds that sentinel. -/
theorem prune_conservation (snaps : List GoTime) (policy : Policy) (hWF : policy.WF)
    (pd : Period) (n0 : Int) (hmem : (pd, n0) ∈ policy.entries) :
    (0 < n0 →
      lookup0 (Prune snaps policy).2.entries pd
        + (keptCount (Prune snaps policy).1 pd : Int) = n0) ∧
    (n0 = -1 → lookup0 (Prune snaps policy).2.entries pd = -1) := by
  rw [prune_eq_runS]
  have hI := runS_inv snaps policy hWF
  have hcnt := hI.2.2.2.2 (pd, n0) hmem
  exact ⟨fun h => (hcnt.1 h).2, fun h => by
    have := hcnt.2 (by rw [h]; omega)
    rw [this, h]⟩

def polW : Policy := ⟨[({ unit := uLast, interval := 1 }, 2), (c2Period, -1)]⟩

/-- Witness for C1 at the concrete March snapshots and a two-rule policy. -/
theorem prune_conservation_witness :
    (lookup0 (Prune c2Snaps polW).2.entries { unit := uLast, interval := 1 }
      + (keptCount (Prune c2Snaps polW).1 { unit := uLast, interval := 1 } : Int) = 2) ∧
    lookup0 (Prune c2Snaps polW).2.entries c2Period = -1 := by
  constructor
  · exact (prune_conservation c2Snaps polW
      ⟨by decide, by decide⟩ { unit := uLast, interval := 1 } 2 (by decide)).1 (by decide)
  · exact (prune_conservation c2Snaps polW
      ⟨by decide, by decide⟩ c2Period (-1) (by decide)).2 rfl

/-! ## Claim C9: well-formedness of the outputs -/

/-- C9: `keep` is index-aligned with the input (same length); every reason
list is strictly sorted in the canonical period order (hence duplicate-free)
and only mentions periods of the policy; `need` has exactly the policy's
period keys. -/
theorem prune_output_wellformed (snaps : List GoTime) (policy : Policy)
    (hWF : policy.WF) :
    (Prune snaps policy).1.length = snaps.length ∧
    (∀ r ∈ (Prune snaps policy).1,
      r.Pairwise Period.ltP ∧ r.Nodup ∧ ∀ pd ∈ r, pd ∈ policy.entries.map Prod.fst) ∧
    (Prune snaps policy).2.entries.map Prod.fst = policy.entries.map Prod.fst := by
  rw [prune_eq_runS]
  have hI := runS_inv snaps policy hWF
  refine ⟨hI.2.1, ?_, hI.1⟩
  intro r hr
  obtain ⟨⟨j, hj⟩, hget⟩ := List.get_of_mem hr
  have hr' : (runS snaps policy).keep.getD j [] = r := by
    rw [List.getD_eq_getElem _ _ hj]
    exact hget
  refine ⟨hr' ▸ hI.2.2.1 j, (hr' ▸ hI.2.2.1 j).nodup, fun pd hpd => ?_⟩
  exact hI.2.2.2.1 j pd (hr' ▸ hpd)

/-- Witness for C9 at the concrete March snapshots and a two-rule policy. -/
theorem prune_output_wellformed_witness :
    (Prune c2Snaps polW).1.length = 2 ∧
    (Prune c2Snaps polW).2.entries.map Prod.fst =
      [{ unit := uLast, interval := 1 }, c2Period] := by
  have h := prune_output_wellformed c2Snaps polW ⟨by decide, by decide⟩
  exact ⟨h.1, h.2.2⟩

/-! ## The descending index order: sortedness and uniqueness -/

theorem idxAfter_trans (snaps : List GoTime) {a b c : Nat}
    (h1 : idxAfter snaps a b) (h2 : idxAfter snaps b c) : idxAfter snaps a c := by
  unfold idxAfter at *
  generalize (snaps.getD a zeroTime).wall = wa at *
  generalize (snaps.getD b zeroTime).wall = wb at *
  generalize (snaps.getD c zeroTime).wall = wc at *
  rcases h1 with h1 | ⟨h1, h1'⟩ <;> rcases h2 with h2 | ⟨h2, h2'⟩
  · exact Or.inl (h2.trans h1)
  · exact Or.inl (h2 ▸ h1)
  · exact Or.inl (h1 ▸ h2)
  · exact Or.inr ⟨h1.trans h2, h2'.trans h1'⟩

theorem idxAfter_total (snaps : List GoTime) {a b : Nat} (hne : a ≠ b)
    (h : ¬ idxAfter snaps a b) : idxAfter snaps b a := by
  unfold idxAfter at *
  generalize (snaps.getD a zeroTime).wall = wa at *
  generalize (snaps.getD b zeroTime).wall = wb at *
  rcases lt_trichotomy wa wb with hw | hw | hw
  · exact Or.inl hw
  · rcases Nat.lt_or_ge a b with hab | hab
    · exact Or.inr ⟨hw.symm, hab⟩
    · exfalso
      exact h (Or.inr ⟨hw, lt_of_le_of_ne hab (Ne.symm hne)⟩)
  · exfalso; exact h (Or.inl hw)

theorem idxAfter_asymm (snaps : List GoTime) {a b : Nat}
    (h1 : idxAfter snaps a b) (h2 : idxAfter snaps b a) : False := by
  unfold idxAfter at *
  generalize (snaps.getD a zeroTime).wall = wa at *
  generalize (snaps.getD b zeroTime).wall = wb at *
  rcases h1 with h1 | ⟨h1, h1'⟩ <;> rcases h2 with h2 | ⟨h2, h2'⟩ <;> omega

theorem mem_insertIdx (snaps : List GoTime) (i x : Nat) (l : List Nat)
    (h : x ∈ insertIdx snaps i l) : x = i ∨ x ∈ l := by
  have := (insertIdx_perm snaps i l).mem_iff.mp h
  simpa using this

theorem insertIdx_pairwise (snaps : List GoTime) (i : Nat) (l : List Nat)
    (hl : l.Pairwise (idxAfter snaps)) (hni : i ∉ l) :
    (insertIdx snaps i l).Pairwise (idxAfter snaps) := by
  induction l with
  | nil => simp [insertIdx]
  | cons j t ih =>
    have hl' := List.pairwise_cons.mp hl
    unfold insertIdx
    by_cases h : idxAfter snaps i j
    · rw [if_pos h]
      refine List.pairwise_cons.mpr ⟨?_, hl⟩
      intro x hx
      rcases List.mem_cons.mp hx with hx | hx
      · rw [hx]; exact h
      · exact idxAfter_trans snaps h (hl'.1 x hx)
    · rw [if_neg h]
      have hij : i ≠ j := fun hc => hni (hc ▸ List.mem_cons_self _ _)
      have hji : idxAfter snaps j i := idxAfter_total snaps hij h
      refine List.pairwise_cons.mpr ⟨?_, ih hl'.2 (fun hc => hni (List.mem_cons_of_mem _ hc))⟩
      intro x hx
      rcases mem_insertIdx snaps i x t hx with hx | hx
      · rw [hx]; exact hji
      · exact hl'.1 x hx

theorem sortIdx_pairwise (snaps : List GoTime) :
    (sortIdx snaps).Pairwise (idxAfter snaps) := by
  unfold sortIdx
  have : ∀ l : List Nat, l.Nodup →
      (l.foldr (insertIdx snaps) []).Pairwise (idxAfter snaps) ∧
        ∀ x ∈ l.foldr (insertIdx snaps) [], x ∈ l := by
    intro l
    induction l with
    | nil => intro _; exact ⟨List.Pairwise.nil, fun x hx => by simp at hx⟩
    | cons a t ih =>
      intro hnd
      have hnd' := List.nodup_cons.mp hnd
      rcases ih hnd'.2 with ⟨hpw, hmem⟩
      rw [List.foldr_cons]
      constructor
      · exact insertIdx_pairwise snaps a _ hpw (fun hc => hnd'.1 (hmem a hc))
      · intro x hx
        rcases mem_insertIdx snaps a x _ hx with hx | hx
        · rw [hx]; exact List.mem_cons_self _ _
        · exact List.mem_cons_of_mem _ (hmem x hx)
  exact (this _ (List.nodup_range _)).1

theorem sorted_desc_unique (snaps : List GoTime) (l1 l2 : List Nat) (hp : l1.Perm l2)
    (h1 : l1.Pairwise (idxAfter snaps)) (h2 : l2.Pairwise (idxAfter snaps)) : l1 = l2 := by
  haveI : IsAntisymm Nat (idxAfter snaps) :=
    ⟨fun a b ha hb => (idxAfter_asymm snaps ha hb).elim⟩
  exact List.eq_of_perm_of_sorted hp h1 h2

/-! ## Generic frame lemmas for the simplified fold -/

theorem stepS_keep_length (snaps : List GoTime) (idx : Nat) (st : PruneSt) (pd : Period) :
    (stepS snaps idx st pd).keep.length = st.keep.length := by
  cases hacc : acceptB st (snaps.getD idx zeroTime) pd with
  | false => rw [stepS_skip _ _ _ _ hacc]
  | true => rw [stepS_accept _ _ _ _ hacc]; exact appendKeep_length _ _ _

theorem foldl_stepS_keep_length (snaps : List GoTime) (idx : Nat) (ks : List Period)
    (st : PruneSt) : (ks.foldl (stepS snaps idx) st).keep.length = st.keep.length := by
  induction ks generalizing st with
  | nil => rfl
  | cons pd t ih => rw [List.foldl_cons, ih, stepS_keep_length]

theorem stepS_slot_ne (snaps : List GoTime) (idx j : Nat) (st : PruneSt) (pd : Period)
    (h : j ≠ idx) : (stepS snaps idx st pd).keep.getD j [] = st.keep.getD j [] := by
  cases hacc : acceptB st (snaps.getD idx zeroTime) pd with
  | false => rw [stepS_skip _ _ _ _ hacc]
  | true => rw [stepS_accept _ _ _ _ hacc]; exact appendKeep_getD_ne _ _ _ _ h

theorem foldl_stepS_slot_ne (snaps : List GoTime) (idx j : Nat) (ks : List Period)
    (st : PruneSt) (h : j ≠ idx) :
    (ks.foldl (stepS snaps idx) st).keep.getD j [] = st.keep.getD j [] := by
  induction ks generalizing st with
  | nil => rfl
  | cons pd t ih => rw [List.foldl_cons, ih, stepS_slot_ne _ _ _ _ _ h]

theorem foldl_stepS_slot_suffix (snaps : List GoTime) (idx : Nat) (ks : List Period)
    (st : PruneSt) (hidx : idx < st.keep.length) :
    ∃ t, (ks.foldl (stepS snaps idx) st).keep.getD idx [] = st.keep.getD idx [] ++ t := by
  induction ks generalizing st with
  | nil => exact ⟨[], by simp⟩
  | cons pd t ih =>
    rw [List.foldl_cons]
    cases hacc : acceptB st (snaps.getD idx zeroTime) pd with
    | false =>
      rw [stepS_skip _ _ _ _ hacc]
      exact ih st hidx
    | true =>
      rw [stepS_accept _ _ _ _ hacc]
      have hlen : idx <
          (({ keep := appendKeep st.keep idx pd
              need := if 0 < lookup0 st.need pd then decKey st.need pd else st.need
              lastP := if pd.unit = uLast then st.lastP
                else fun q => if q = pd then snaps.getD idx zeroTime else st.lastP q
              lastIdx := if pd.unit = uLast then st.lastIdx
                else fun q => if q = pd then idx else st.lastIdx q
              lastU := st.lastU } : PruneSt)).keep.length := by
        simp only [appendKeep_length]; exact hidx
      rcases ih _ hlen with ⟨t', ht'⟩
      refine ⟨pd :: t', ?_⟩
      rw [ht']
      simp only [appendKeep_getD_self st.keep idx pd hidx]
      rw [List.append_assoc]
      rfl

theorem pass_no_accept (snaps : List GoTime) (idx : Nat) (ks : List Period) (st : PruneSt)
    (hidx : idx < st.keep.length)
    (h : (ks.foldl (stepS snaps idx) st).keep.getD idx [] = st.keep.getD idx []) :
    ks.foldl (stepS snaps idx) st = st := by
  induction ks generalizing st with
  | nil => rfl
  | cons pd t ih =>
    rw [List.foldl_cons] at h ⊢
    cases hacc : acceptB st (snaps.getD idx zeroTime) pd with
    | false =>
      rw [stepS_skip _ _ _ _ hacc] at h ⊢
      exact ih st hidx h
    | true =>
      exfalso
      rw [stepS_accept _ _ _ _ hacc] at h
      have hlen : idx <
          (({ keep := appendKeep st.keep idx pd
              need := if 0 < lookup0 st.need pd then decKey st.need pd else st.need
              lastP := if pd.unit = uLast then st.lastP
                else fun q => if q = pd then snaps.getD idx zeroTime else st.lastP q
              lastIdx := if pd.unit = uLast then st.lastIdx
                else fun q => if q = pd then idx else st.lastIdx q
              lastU := st.lastU } : PruneSt)).keep.length := by
        simp only [appendKeep_length]; exact hidx
      rcases foldl_stepS_slot_suffix snaps idx t _ hlen with ⟨t', ht'⟩
      rw [ht'] at h
      simp only [appendKeep_getD_self st.keep idx pd hidx] at h
      have := congrArg List.length h
      simp at this

/-! ## Simulation of one pass over two index-aligned snapshot lists -/

theorem acceptB_congr (st1 st2 : PruneSt) (a : GoTime) (pd : Period)
    (hN : st1.need = st2.need) (hP : st1.lastP = st2.lastP) :
    acceptB st1 a pd = acceptB st2 a pd := by
  unfold acceptB skipB
  rw [hN, hP]

theorem pass_sim (snaps snaps2 : List GoTime) (i j : Nat)
    (ht : snaps.getD i zeroTime = snaps2.getD j zeroTime) :
    ∀ (ks : List Period) (st1 st2 : PruneSt),
      st1.need = st2.need → st1.lastP = st2.lastP →
      i < st1.keep.length → j < st2.keep.length →
      st1.keep.getD i [] = st2.keep.getD j [] →
      (ks.foldl (stepS snaps i) st1).need = (ks.foldl (stepS snaps2 j) st2).need ∧
      (ks.foldl (stepS snaps i) st1).lastP = (ks.foldl (stepS snaps2 j) st2).lastP ∧
      (ks.foldl (stepS snaps i) st1).keep.getD i [] =
        (ks.foldl (stepS snaps2 j) st2).keep.getD j [] := by
  intro ks
  induction ks with
  | nil => intro st1 st2 hN hP _ _ hslot; exact ⟨hN, hP, hslot⟩
  | cons pd t ih =>
    intro st1 st2 hN hP hi hj hslot
    rw [List.foldl_cons, List.foldl_cons]
    have haccs : acceptB st1 (snaps.getD i zeroTime) pd =
        acceptB st2 (snaps2.getD j zeroTime) pd := by
      rw [ht]
      exact acceptB_congr st1 st2 _ pd hN hP
    cases hacc : acceptB st1 (snaps.getD i zeroTime) pd with
    | false =>
      rw [stepS_skip snaps i st1 pd hacc, stepS_skip snaps2 j st2 pd (haccs ▸ hacc)]
      exact ih st1 st2 hN hP hi hj hslot
    | true =>
      rw [stepS_accept snaps i st1 pd hacc, stepS_accept snaps2 j st2 pd (haccs ▸ hacc)]
      refine ih _ _ ?_ ?_ ?_ ?_ ?_
      · simp only [hN]
      · simp only [hP, ht]
      · simp only [appendKeep_length]; exact hi
      · simp only [appendKeep_length]; exact hj
      · simp only
        rw [appendKeep_getD_self st1.keep i pd hi, appendKeep_getD_self st2.keep j pd hj,
          hslot]

/-! ## Frame lemmas for the outer fold -/

theorem outer_slot_unchanged (snaps : List GoTime) (L : List Nat) (st : PruneSt) (x : Nat)
    (hx : x ∉ L) :
    ((L.foldl (fun st idx => (eachKeys st.need).foldl (stepS snaps idx) st) st)).keep.getD x []
      = st.keep.getD x [] := by
  induction L generalizing st with
  | nil => rfl
  | cons i t ih =>
    rw [List.foldl_cons]
    rw [ih _ (fun hc => hx (List.mem_cons_of_mem _ hc))]
    exact foldl_stepS_slot_ne snaps i x _ st (fun hc => hx (hc ▸ List.mem_cons_self _ _))

theorem outer_keep_length (snaps : List GoTime) (L : List Nat) (st : PruneSt) :
    ((L.foldl (fun st idx => (eachKeys st.need).foldl (stepS snaps idx) st) st)).keep.length
      = st.keep.length := by
  induction L generalizing st with
  | nil => rfl
  | cons i t ih =>
    rw [List.foldl_cons, ih, foldl_stepS_keep_length]

/-! ## The main simulation: re-pruning the kept subsequence -/

theorem sim_main (snaps snaps2 : List GoTime) (ψ : Nat → Nat) :
    ∀ (I : List Nat) (J : List Nat) (st1 st2 : PruneSt),
      I.Nodup → J.Nodup →
      (∀ i' ∈ I, i' < st1.keep.length ∧ st1.keep.getD i' [] = []) →
      (∀ j' ∈ J, j' < st2.keep.length ∧ st2.keep.getD j' [] = []) →
      (∀ j' ∈ J, snaps2.getD j' zeroTime = snaps.getD (ψ j') zeroTime) →
      st1.need = st2.need → st1.lastP = st2.lastP →
      J.map ψ = I.filter (fun i' =>
        decide ((I.foldl (fun st idx => (eachKeys st.need).foldl (stepS snaps idx) st)
          st1).keep.getD i' [] ≠ [])) →
      (I.foldl (fun st idx => (eachKeys st.need).foldl (stepS snaps idx) st) st1).need =
        (J.foldl (fun st idx => (eachKeys st.need).foldl (stepS snaps2 idx) st) st2).need ∧
      (I.foldl (fun st idx => (eachKeys st.need).foldl (stepS snaps idx) st) st1).lastP =
        (J.foldl (fun st idx => (eachKeys st.need).foldl (stepS snaps2 idx) st) st2).lastP ∧
      (∀ j' ∈ J,
        (J.foldl (fun st idx => (eachKeys st.need).foldl (stepS snaps2 idx) st)
            st2).keep.getD j' [] =
          (I.foldl (fun st idx => (eachKeys st.need).foldl (stepS snaps idx) st)
            st1).keep.getD (ψ j') []) := by
  intro I
  induction I with
  | nil =>
    intro J st1 st2 _ _ _ _ _ hN hP hmap
    simp only [List.filter_nil, List.map_eq_nil_iff] at hmap
    subst hmap
    exact ⟨hN, hP, fun j' hj => by simp at hj⟩
  | cons i I' ih =>
    intro J st1 st2 hnd1 hnd2 hb1 hb2 hts hN hP hmap
    have hnd1' := List.nodup_cons.mp hnd1
    have hi := hb1 i (List.mem_cons_self _ _)
    simp only [List.foldl_cons] at hmap ⊢
    set stA := (eachKeys st1.need).foldl (stepS snaps i) st1 with hstA
    have hAslot_final :
        ((I'.foldl (fun st idx => (eachKeys st.need).foldl (stepS snaps idx) st)
          stA)).keep.getD i [] = stA.keep.getD i [] :=
      outer_slot_unchanged snaps I' stA i hnd1'.1
    rw [List.filter_cons] at hmap
    cases haccD : decide
        ((I'.foldl (fun st idx => (eachKeys st.need).foldl (stepS snaps idx) st)
          stA).keep.getD i [] ≠ []) with
    | false =>
      rw [haccD] at hmap
      simp only [Bool.false_eq_true, if_false] at hmap
      have hAempty : stA.keep.getD i [] = [] := by
        have := of_decide_eq_false haccD
        rw [hAslot_final] at this
        exact not_not.mp (by simpa using this)
      have hAeq : stA = st1 := by
        rw [hstA]
        exact pass_no_accept snaps i _ st1 hi.1 (by rw [← hstA, hAempty, hi.2])
      refine ih J stA st2 hnd1'.2 hnd2 ?_ hb2 hts ?_ ?_ hmap
      · intro i' hi'
        rw [hAeq]
        exact hb1 i' (List.mem_cons_of_mem _ hi')
      · rw [hAeq]; exact hN
      · rw [hAeq]; exact hP
    | true =>
      rw [haccD] at hmap
      simp only [if_true] at hmap
      cases J with
      | nil => simp at hmap
      | cons j J' =>
        rw [List.map_cons] at hmap
        have hψj : ψ j = i := (List.cons.injEq _ _ _ _).mp hmap |>.1
        have hmap' := (List.cons.injEq _ _ _ _).mp hmap |>.2
        have hnd2' := List.nodup_cons.mp hnd2
        have hj := hb2 j (List.mem_cons_self _ _)
        have htj : snaps.getD i zeroTime = snaps2.getD j zeroTime := by
          rw [hts j (List.mem_cons_self _ _), hψj]
        have hks : eachKeys st2.need = eachKeys st1.need := by rw [hN]
        set stB := (eachKeys st2.need).foldl (stepS snaps2 j) st2 with hstB
        have hstB' : stB = (eachKeys st1.need).foldl (stepS snaps2 j) st2 := by
          rw [hstB, hks]
        have hpass := pass_sim snaps snaps2 i j htj (eachKeys st1.need) st1 st2
          hN hP hi.1 hj.1 (by rw [hi.2, hj.2])
        rw [← hstA, ← hstB'] at hpass
        have hb1' : ∀ i' ∈ I', i' < stA.keep.length ∧ stA.keep.getD i' [] = [] := by
          intro i' hi'
          have hne : i' ≠ i := fun hc => hnd1'.1 (hc ▸ hi')
          constructor
          · rw [hstA, foldl_stepS_keep_length]
            exact (hb1 i' (List.mem_cons_of_mem _ hi')).1
          · rw [hstA, foldl_stepS_slot_ne snaps i i' _ st1 hne]
            exact (hb1 i' (List.mem_cons_of_mem _ hi')).2
        have hb2' : ∀ j' ∈ J', j' < stB.keep.length ∧ stB.keep.getD j' [] = [] := by
          intro j' hj'
          have hne : j' ≠ j := fun hc => hnd2'.1 (hc ▸ hj')
          constructor
          · rw [hstB, foldl_stepS_keep_length]
            exact (hb2 j' (List.mem_cons_of_mem _ hj')).1
          · rw [hstB, foldl_stepS_slot_ne snaps2 j j' _ st2 hne]
            exact (hb2 j' (List.mem_cons_of_mem _ hj')).2
        have hrec := ih J' stA stB hnd1'.2 hnd2'.2 hb1' hb2'
          (fun j' hj' => hts j' (List.mem_cons_of_mem _ hj'))
          hpass.1 hpass.2.1 hmap'
        refine ⟨hrec.1, hrec.2.1, ?_⟩
        intro x hx
        rcases List.mem_cons.mp hx with hx | hx
        · subst hx
          have h1 := outer_slot_unchanged snaps2 J' stB x hnd2'.1
          rw [hψj, hAslot_final, hpass.2.2]
          exact h1
        · exact hrec.2.2 x hx

/-! ## Claim C3: idempotence of pruning -/

/-- Indices (in input order) of the snapshots `Prune` retained. -/
def keptIdx (keep : List (List Period)) (n : Nat) : List Nat :=
  (List.range n).filter fun i => decide (keep.getD i [] ≠ [])

theorem keptIdx_pairwise_lt (keep : List (List Period)) (n : Nat) :
    (keptIdx keep n).Pairwise (· < ·) :=
  (List.pairwise_lt_range n).filter _

theorem map_getD_range (l : List Nat) :
    (List.range l.length).map (fun j => l.getD j 0) = l := by
  apply List.ext_getElem
  · simp
  · intro j h1 h2
    have hj : j < l.length := by simpa using h2
    rw [List.getElem_map, List.getElem_range, List.getD_eq_getElem l 0 hj]

theorem getD_map_snaps (snaps : List GoTime) (l : List Nat) (j : Nat) (hj : j < l.length) :
    (l.map fun i => snaps.getD i zeroTime).getD j zeroTime =
      snaps.getD (l.getD j 0) zeroTime := by
  rw [List.getD_eq_getElem _ _ (by simpa using hj), List.getElem_map,
    List.getD_eq_getElem l 0 hj]

theorem getD_lt_of_pairwise_lt (l : List Nat) (h : l.Pairwise (· < ·)) (j j' : Nat)
    (hjj : j < j') (hj' : j' < l.length) : l.getD j 0 < l.getD j' 0 := by
  have hj : j < l.length := hjj.trans hj'
  rw [List.getD_eq_getElem l 0 hj, List.getD_eq_getElem l 0 hj']
  exact List.pairwise_iff_getElem.mp h j j' hj hj' hjj

/-- The descending visit order of the kept subsequence is the original
descending visit order restricted to the kept indices. -/
theorem sortIdx_filtered_map (snaps : List GoTime) (keep : List (List Period)) :
    (sortIdx ((keptIdx keep snaps.length).map fun i => snaps.getD i zeroTime)).map
        (fun j => (keptIdx keep snaps.length).getD j 0) =
      (sortIdx snaps).filter fun i => decide (keep.getD i [] ≠ []) := by
  set ki := keptIdx keep snaps.length with hki
  set snaps2 := ki.map fun i => snaps.getD i zeroTime with hsnaps2
  have hm : snaps2.length = ki.length := by rw [hsnaps2, List.length_map]
  apply sorted_desc_unique snaps
  · have h1 : ((sortIdx snaps2).map (fun j => ki.getD j 0)).Perm
        ((List.range ki.length).map (fun j => ki.getD j 0)) := by
      apply List.Perm.map
      rw [← hm]
      exact sortIdx_perm snaps2
    rw [map_getD_range ki] at h1
    have h2 : ((sortIdx snaps).filter (fun i => decide (keep.getD i [] ≠ []))).Perm
        ((List.range snaps.length).filter (fun i => decide (keep.getD i [] ≠ []))) :=
      (sortIdx_perm snaps).filter _
    exact h1.trans h2.symm
  · rw [List.pairwise_map]
    refine List.Pairwise.imp_of_mem ?_ (sortIdx_pairwise snaps2)
    intro a b ha hb hab
    have ha' : a < ki.length := hm ▸ mem_sortIdx_lt snaps2 a ha
    have hb' : b < ki.length := hm ▸ mem_sortIdx_lt snaps2 b hb
    unfold idxAfter at hab ⊢
    rw [getD_map_snaps snaps ki a ha', getD_map_snaps snaps ki b hb'] at hab
    rcases hab with h | ⟨h, h'⟩
    · exact Or.inl h
    · exact Or.inr ⟨h, getD_lt_of_pairwise_lt ki (keptIdx_pairwise_lt keep snaps.length)
        b a h' ha'⟩
  · exact (sortIdx_pairwise snaps).filter _

/-- C3: discarding the snapshots whose `keep` entry is empty and pruning the
remaining (kept) snapshots under the same policy yields the same `need` and a
`keep` equal to the original one restricted to the kept subset. -/
theorem prune_idempotent (snaps : List GoTime) (policy : Policy) :
    Prune ((keptIdx (Prune snaps policy).1 snaps.length).map fun i =>
        snaps.getD i zeroTime) policy =
      ((keptIdx (Prune snaps policy).1 snaps.length).map fun i =>
        (Prune snaps policy).1.getD i [], (Prune snaps policy).2) := by
  rw [prune_eq_runS snaps policy]
  set keepF := (runS snaps policy).keep with hkeepF
  set ki := keptIdx keepF snaps.length with hki
  set snaps2 := ki.map fun i => snaps.getD i zeroTime with hsnaps2
  rw [prune_eq_runS snaps2 policy]
  have hm : snaps2.length = ki.length := by rw [hsnaps2, List.length_map]
  have hsim := sim_main snaps snaps2 (fun j => ki.getD j 0) (sortIdx snaps)
    (sortIdx snaps2)
    { keep := List.replicate snaps.length []
      need := policy.entries
      lastP := fun _ => zeroTime
      lastIdx := fun _ => 0
      lastU := fun _ => zeroTime }
    { keep := List.replicate snaps2.length []
      need := policy.entries
      lastP := fun _ => zeroTime
      lastIdx := fun _ => 0
      lastU := fun _ => zeroTime }
    (sortIdx_nodup snaps) (sortIdx_nodup snaps2)
    (fun i' hi' => ⟨by simpa using mem_sortIdx_lt snaps i' hi', getD_replicate_nil _ _⟩)
    (fun j' hj' => ⟨by simpa using mem_sortIdx_lt snaps2 j' hj', getD_replicate_nil _ _⟩)
    (fun j' hj' => getD_map_snaps snaps ki j' (hm ▸ mem_sortIdx_lt snaps2 j' hj'))
    rfl rfl
    (sortIdx_filtered_map snaps keepF)
  have hneed : (runS snaps2 policy).need = (runS snaps policy).need := hsim.1.symm
  have hkeep : (runS snaps2 policy).keep = ki.map fun i => keepF.getD i [] := by
    apply List.ext_getElem
    · have hlen : (runS snaps2 policy).keep.length = snaps2.length := by
        unfold runS
        rw [outer_keep_length]
        simp
      rw [hlen, hm, List.length_map]
    · intro j h1 h2
      have hj2 : j < snaps2.length := by
        have : (runS snaps2 policy).keep.length = snaps2.length := by
          unfold runS
          rw [outer_keep_length]
          simp
        rw [← this]
        exact h1
      have hjki : j < ki.length := hm ▸ hj2
      have hjmem : j ∈ sortIdx snaps2 :=
        ((sortIdx_perm snaps2).mem_iff).mpr (List.mem_range.mpr hj2)
      have hcorr := hsim.2.2 j hjmem
      rw [← List.getD_eq_getElem _ _ h1, ← List.getD_eq_getElem _ _ h2]
      have hrhs : (ki.map fun i => keepF.getD i []).getD j [] =
          keepF.getD (ki.getD j 0) [] := by
        rw [List.getD_eq_getElem _ _ (by simpa using hjki), List.getElem_map,
          List.getD_eq_getElem ki 0 hjki]
      rw [hrhs]
      exact hcorr
  rw [Prod.mk.injEq]
  constructor
  · exact hkeep
  · rw [hneed]

/-! ## Strings: the textual boundary (ASCII model)

Strings are modelled as `List Char`.  Go's Unicode-aware `strings.ToLower`
and `strings.Fields` are modelled on their ASCII behavior, which covers the
entire rule grammar. -/

def isDigit (c : Char) : Bool := '0' ≤ c && c ≤ '9'

def digitVal (c : Char) : Nat := c.toNat - '0'.toNat

def toLowerAscii (s : List Char) : List Char :=
  s.map fun c => if 'A' ≤ c && c ≤ 'Z' then Char.ofNat (c.toNat + 32) else c

/-- `strings.Cut` with a one-character separator: `(before, after, found)`. -/
def cutChar (sep : Char) : List Char → List Char × List Char × Bool
  | [] => ([], [], false)
  | c :: t =>
    if c = sep then ([], t, true)
    else
      let (a, b, f) := cutChar sep t
      (c :: a, b, f)

def isSpaceAscii (c : Char) : Bool :=
  c = ' ' || c = '\t' || c = '\n' || c = Char.ofNat 11 || c = Char.ofNat 12 || c = '\r'

/-- The word accumulator of the `strings.Fields` split. -/
def fieldsStep (c : Char) (acc : List (List Char)) : List (List Char) :=
  if isSpaceAscii c then [] :: acc
  else
    match acc with
    | [] => [[c]]
    | w :: ws => (c :: w) :: ws

/-- `strings.Fields` (ASCII whitespace). -/
def fields (s : List Char) : List (List Char) :=
  (s.foldr fieldsStep []).filter fun w => !w.isEmpty

/-- Decimal digits with explicit fuel (structural, so the kernel can
evaluate it; `fuel > n` always suffices). -/
def natDigsAux : Nat → Nat → List Nat
  | 0, _ => []
  | fuel + 1, n => if n < 10 then [n] else natDigsAux fuel (n / 10) ++ [n % 10]

/-- Decimal digits of a natural number, most significant first. -/
def natDigs (n : Nat) : List Nat := natDigsAux (n + 1) n

def digitChar (d : Nat) : Char := Char.ofNat ('0'.toNat + d)

def natToChars (n : Nat) : List Char := (natDigs n).map digitChar

/-- `strconv.AppendInt(..., 10)`. -/
def intToChars (v : Int) : List Char :=
  if v < 0 then '-' :: natToChars v.natAbs else natToChars v.toNat

def digitsVal (s : List Char) : Nat := s.foldl (fun a c => a * 10 + digitVal c) 0

/-- The optional leading sign of an integer literal. -/
def stripSign (s : List Char) : Bool × List Char :=
  match s with
  | '+' :: t => (false, t)
  | '-' :: t => (true, t)
  | t => (false, t)

/-- Modelled extensionally from `strconv.ParseInt(s, 10, 64)`: optional sign,
nonempty digit run, `int64` range check. -/
def parseInt64 (s : List Char) : Option Int :=
  let (neg, ds) := stripSign s
  if ds ≠ [] ∧ ds.all isDigit then
    let v : Int := if neg then -(digitsVal ds : Int) else (digitsVal ds : Int)
    if -(2 ^ 63) ≤ v ∧ v ≤ 2 ^ 63 - 1 then some v else none
  else none

/-! ### `time.ParseDuration` -/

/-- `leadingInt` of `time.ParseDuration` with its overflow checks. -/
def leadingInt (x : Nat) : List Char → Option (Nat × List Char)
  | [] => some (x, [])
  | c :: t =>
    if isDigit c then
      if x > 2 ^ 63 / 10 then none
      else
        let x' := x * 10 + digitVal c
        if x' > 2 ^ 63 then none else leadingInt x' t
    else some (x, c :: t)

/-- `leadingFraction`: digits of the fraction with Go's saturation behavior.
`scale` is the power of ten (exact in `float64` for every reachable value). -/
def leadingFraction (x scale : Nat) (overflow : Bool) :
    List Char → Nat × Nat × List Char
  | [] => (x, scale, [])
  | c :: t =>
    if isDigit c then
      if overflow then leadingFraction x scale true t
      else if x > (2 ^ 63 - 1) / 10 then leadingFraction x scale true t
      else
        let y := x * 10 + digitVal c
        if y > 2 ^ 63 then leadingFraction x scale true t
        else leadingFraction y (scale * 10) false t
    else (x, scale, c :: t)

/-- The duration unit table (`unitMap`), in nanoseconds. -/
def unitNs (u : List Char) : Option Nat :=
  if u = ['n', 's'] then some 1
  else if u = ['u', 's'] then some 1000
  else if u = ['µ', 's'] then some 1000
  else if u = ['μ', 's'] then some 1000
  else if u = ['m', 's'] then some 1000000
  else if u = ['s'] then some 1000000000
  else if u = ['m'] then some 60000000000
  else if u = ['h'] then some 3600000000000
  else none

def notUnitChar (c : Char) : Bool := c = '.' || isDigit c

/-- One `(number unit)+` loop of `ParseDuration`, with fuel (each iteration
consumes at least the unit character, so `fuel = length + 1` suffices).
The fractional contribution is Go's
`uint64(float64(f) * (float64(unit)/scale))`, modelled as the exact
`f * unit / scale` (Go's `float64` computation is exact at every value the
renderer produces and at the boundary cases the claims touch). -/
def parseDurLoop : Nat → List Char → Nat → Option Nat
  | 0, _, _ => none
  | _, [], d => some d
  | fuel + 1, c :: s0, d =>
    if ¬(c = '.' ∨ isDigit c = true) then none
    else
      match leadingInt 0 (c :: s0) with
      | none => none
      | some (v, s1) =>
        let pre : Bool := s1.length != (c :: s0).length
        let (f, scale, s2, post) :=
          if s1.head? = some '.' then
            let (f, sc, s3) := leadingFraction 0 1 false s1.tail
            (f, sc, s3, (s3.length != s1.tail.length : Bool))
          else ((0 : Nat), (1 : Nat), s1, (false : Bool))
        if !pre && !post then none
        else
          let u := s2.takeWhile fun c => !notUnitChar c
          let s4 := s2.dropWhile fun c => !notUnitChar c
          if u = [] then none
          else
            match unitNs u with
            | none => none
            | some unit =>
              if v > 2 ^ 63 / unit then none
              else
                let v1 := v * unit
                let v2 := if f > 0 then v1 + f * unit / scale else v1
                if f > 0 ∧ v2 > 2 ^ 63 then none
                else
                  let d' := d + v2
                  if d' > 2 ^ 63 then none
                  else parseDurLoop fuel s4 d'

/-- `time.ParseDuration`, returning nanoseconds. -/
def parseDuration (s : List Char) : Option Int :=
  let neg : Bool := s.head? == some '-'
  let s1 := if s.head? = some '-' ∨ s.head? = some '+' then s.tail else s
  if s1 = ['0'] then some 0
  else if s1 = [] then none
  else
    match parseDurLoop (s1.length + 1) s1 0 with
    | none => none
    | some d =>
      if neg then some (-(d : Int))
      else if (d : Int) > 2 ^ 63 - 1 then none
      else some d

/-! ### `time.Duration.String` -/

/-- Decimal digits padded with leading zeros to width `w` (for `n < 10^w`). -/
def padDigits (n w : Nat) : List Char :=
  List.replicate (w - (natDigs n).length) '0' ++ natToChars n

def stripZerosRight (l : List Char) : List Char :=
  (l.reverse.dropWhile fun c => c = '0').reverse

/-- `fmtFrac`: the fraction part (with leading `'.'`, trailing zeros omitted,
empty when the fraction is zero) and the remaining integer value. -/
def fmtFracChars (u : Nat) (prec : Nat) : List Char × Nat :=
  let p := 10 ^ prec
  let frac := u % p
  (if frac = 0 then [] else '.' :: stripZerosRight (padDigits frac prec), u / p)

/-- `time.Duration.String` for a (wrapped) `int64` nanosecond count. -/
def durString (d : Int) : List Char :=
  let neg := d < 0
  let u : Nat := d.natAbs
  let body :=
    if u < 1000000000 then
      if u = 0 then ['0', 's']
      else if u < 1000 then natToChars u ++ ['n', 's']
      else if u < 1000000 then
        let (fr, u') := fmtFracChars u 3
        natToChars u' ++ fr ++ ['µ', 's']
      else
        let (fr, u') := fmtFracChars u 6
        natToChars u' ++ fr ++ ['m', 's']
    else
      let (fr, u1) := fmtFracChars u 9
      let secs := natToChars (u1 % 60) ++ fr ++ ['s']
      let u2 := u1 / 60
      if u2 = 0 then secs
      else
        let mins := natToChars (u2 % 60) ++ ['m'] ++ secs
        let u3 := u2 / 60
        if u3 = 0 then mins
        else natToChars u3 ++ ['h'] ++ mins
  if neg then '-' :: body else body

/-! ### `Unit.String`, `Policy.MarshalText` -/

def unitName (u : Int) : List Char :=
  if u = uLast then ['l', 'a', 's', 't']
  else if u = uSecondly then ['s', 'e', 'c', 'o', 'n', 'd', 'l', 'y']
  else if u = uDaily then ['d', 'a', 'i', 'l', 'y']
  else if u = uMonthly then ['m', 'o', 'n', 't', 'h', 'l', 'y']
  else if u = uYearly then ['y', 'e', 'a', 'r', 'l', 'y']
  else []

/-- `strings.CutSuffix`. -/
def cutSuffixL (s suf : List Char) : Option (List Char) :=
  if s.length ≥ suf.length ∧ s.drop (s.length - suf.length) = suf then
    some (s.take (s.length - suf.length))
  else none

/-- The `m0s` suffix compaction (`strings.CutSuffix(s, "m0s")`). -/
def durCompact1 (s : List Char) : List Char :=
  match cutSuffixL s ['m', '0', 's'] with
  | some v => v ++ ['m']
  | none => s

/-- The `h0m` suffix compaction (`strings.CutSuffix(s, "h0m")`). -/
def durCompact2 (s : List Char) : List Char :=
  match cutSuffixL s ['h', '0', 'm'] with
  | some v => v ++ ['h']
  | none => s

/-- The `m0s`/`h0m` suffix compaction applied to rendered durations. -/
def durCompact (s : List Char) : List Char := durCompact2 (durCompact1 s)

/-- One rule as `Policy.MarshalText` renders it.  The `Secondly` duration
rendering multiplies inside `time.Duration` (`int64`), hence `wrap64`. -/
def renderRule (pd : Period) (count : Int) : List Char :=
  (if 0 < count then intToChars count ++ ['@'] else []) ++
    unitName pd.unit ++
    (if pd.interval ≠ 1 then
      ':' :: (if pd.unit = uSecondly ∧ pd.interval ≥ 60 then
          durCompact (durString (wrap64 (1000000000 * pd.interval)))
        else intToChars pd.interval)
    else [])

/-- The `(period, count)` pairs in the order `Policy.Each` yields them. -/
def eachEntries (p : Policy) : List (Period × Int) :=
  (eachKeys p.entries).map fun pd => (pd, lookup0 p.entries pd)

/-- Join words with single spaces (the `if b != nil` space logic). -/
def joinSpace : List (List Char) → List Char
  | [] => []
  | [w] => w
  | w :: ws => w ++ ' ' :: joinSpace ws

/-- `Policy.MarshalText`. -/
def marshalText (p : Policy) : List Char :=
  joinSpace ((eachEntries p).map fun e => renderRule e.1 e.2)

/-! ### `ParsePolicy` -/

/-- The error cases of `ParsePolicy`, mirroring its `fmt.Errorf` calls (each
error identifies the offending rule string). -/
inductive ParseErr where
  | unknownUnit (rule u : List Char)
  | parseCount (rule n : List Char)
  | zeroCount (rule : List Char)
  | parseInterval (rule x : List Char)
  | intervalNotPositive (rule : List Char)
  | lastInterval (rule : List Char)
  | duplicate (rule : List Char) (pd : Period)
  | invalidPeriod (rule : List Char) (pd : Period)
deriving DecidableEq, Repr

/-- The `N`/`unit`/`X` parts of a rule after the two `strings.Cut` calls with
their defaults (`-1` when `N@` is omitted, `1` when `:X` is omitted). -/
def ruleParts (s : List Char) : List Char × List Char × List Char :=
  let (n, u0, hasN) := cutChar '@' s
  let (n', u1) := if hasN then (n, u0) else (['-', '1'], n)
  let (u, x0, hasX) := cutChar ':' u1
  (n', u, if hasX then x0 else ['1'])

/-- The unit keyword lookup (case-insensitive). -/
def ruleUnit (u : List Char) : Option Int :=
  let lu := toLowerAscii u
  if lu = unitName uLast then some uLast
  else if lu = unitName uSecondly then some uSecondly
  else if lu = unitName uDaily then some uDaily
  else if lu = unitName uMonthly then some uMonthly
  else if lu = unitName uYearly then some uYearly
  else none

/-- The interval of a rule: `strconv.ParseInt`, with `time.ParseDuration`
(truncated to whole seconds, Go integer division) as the fallback for the
`secondly` unit. -/
def intervalVal (vu : Int) (x : List Char) : Option Int :=
  match parseInt64 x with
  | some vx => some vx
  | none =>
    if vu = uSecondly then (parseDuration x).map fun tmp => Int.tdiv tmp 1000000000
    else none

/-- One iteration of the `ParsePolicy` loop. -/
def parseRule (p : Policy) (s : List Char) : Except ParseErr Policy :=
  let (n, u, x) := ruleParts s
  match ruleUnit u with
  | none => .error (.unknownUnit s u)
  | some vu =>
    match parseInt64 n with
    | none => .error (.parseCount s n)
    | some vn =>
      if vn = 0 then .error (.zeroCount s)
      else
        match intervalVal vu x with
        | none => .error (.parseInterval s x)
        | some vx =>
          if vx < 1 then .error (.intervalNotPositive s)
          else if vu = uLast ∧ vx ≠ 1 then .error (.lastInterval s)
          else if p.get ⟨vu, vx⟩ ≠ 0 then .error (.duplicate s ⟨vu, vx⟩)
          else
            let (p', ok) := p.set ⟨vu, vx⟩ vn
            if ok then .ok p' else .error (.invalidPeriod s ⟨vu, vx⟩)

def parsePolicyAux (p : Policy) : List (List Char) → Policy × Option ParseErr
  | [] => (p, none)
  | s :: t =>
    match parseRule p s with
    | .error e => (p, some e)
    | .ok p' => parsePolicyAux p' t

/-- `ParsePolicy`: returns the policy and the error (Go's `(Policy, error)`
pair; on error the partial policy is whatever was built so far, exactly as in
the source). -/
def parsePolicyGo (rules : List (List Char)) : Policy × Option ParseErr :=
  parsePolicyAux ⟨[]⟩ rules

/-- `Policy.UnmarshalText`: replaces the policy only when parsing succeeds. -/
def unmarshalText (prev : Policy) (b : List Char) : Policy × Option ParseErr :=
  let (v, err) := parsePolicyGo (fields b)
  match err with
  | none => (v, none)
  | some e => (prev, some e)

/-! ## Decimal printing / parsing round trip -/

theorem natDigsAux_congr (n : Nat) : ∀ f1 f2 : Nat, n < f1 → n < f2 →
    natDigsAux f1 n = natDigsAux f2 n := by
  induction n using Nat.strong_induction_on with
  | _ n ih =>
    intro f1 f2 h1 h2
    cases f1 with
    | zero => omega
    | succ a =>
      cases f2 with
      | zero => omega
      | succ b =>
        show (if n < 10 then [n] else natDigsAux a (n / 10) ++ [n % 10]) =
          (if n < 10 then [n] else natDigsAux b (n / 10) ++ [n % 10])
        by_cases h : n < 10
        · rw [if_pos h, if_pos h]
        · rw [if_neg h, if_neg h]
          have hlt : n / 10 < n := Nat.div_lt_self (by omega) (by omega)
          rw [ih (n / 10) hlt a b (by omega) (by omega)]

/-- The recursion equation of the digit expansion. -/
theorem natDigs_eq (n : Nat) :
    natDigs n = if n < 10 then [n] else natDigs (n / 10) ++ [n % 10] := by
  show (if n < 10 then [n] else natDigsAux n (n / 10) ++ [n % 10]) = _
  by_cases h : n < 10
  · rw [if_pos h, if_pos h]
  · rw [if_neg h, if_neg h]
    have hlt : n / 10 < n := Nat.div_lt_self (by omega) (by omega)
    rw [natDigsAux_congr (n / 10) n (n / 10 + 1) (by omega) (by omega)]
    rfl

theorem natDigs_nonempty (n : Nat) : natDigs n ≠ [] := by
  rw [natDigs_eq]
  by_cases h : n < 10 <;> simp [h]

theorem natDigs_lt (n : Nat) : ∀ d ∈ natDigs n, d < 10 := by
  induction n using Nat.strong_induction_on with
  | _ n ih =>
    intro d hd
    rw [natDigs_eq] at hd
    by_cases h : n < 10
    · simp [h] at hd; omega
    · simp only [h, dif_neg, not_false_iff] at hd
      rcases List.mem_append.mp hd with h' | h'
      · exact ih (n / 10) (Nat.div_lt_self (by omega) (by omega)) d h'
      · simp at h'; omega

theorem digitsVal_from (init : Nat) (s : List Char) :
    s.foldl (fun a c => a * 10 + digitVal c) init = init * 10 ^ s.length + digitsVal s := by
  induction s generalizing init with
  | nil => simp [digitsVal]
  | cons c t ih =>
    simp only [List.foldl_cons, List.length_cons]
    rw [ih (init * 10 + digitVal c)]
    have hstep : digitsVal (c :: t) =
        List.foldl (fun a c => a * 10 + digitVal c) (0 * 10 + digitVal c) t := rfl
    rw [hstep, ih (0 * 10 + digitVal c)]
    ring

theorem digitsVal_append (a b : List Char) :
    digitsVal (a ++ b) = digitsVal a * 10 ^ b.length + digitsVal b := by
  unfold digitsVal
  rw [List.foldl_append]
  rw [digitsVal_from]
  rfl

theorem digitVal_digitChar (d : Nat) (h : d < 10) : digitVal (digitChar d) = d := by
  interval_cases d <;> decide

theorem isDigit_digitChar (d : Nat) (h : d < 10) : isDigit (digitChar d) = true := by
  interval_cases d <;> decide

theorem digitsVal_natToChars (n : Nat) : digitsVal (natToChars n) = n := by
  induction n using Nat.strong_induction_on with
  | _ n ih =>
    unfold natToChars
    rw [natDigs_eq]
    by_cases h : n < 10
    · rw [if_pos h]
      simp only [List.map_cons, List.map_nil]
      unfold digitsVal
      simp [digitVal_digitChar n h]
    · rw [if_neg h]
      simp only [List.map_append, List.map_cons, List.map_nil]
      rw [show (natDigs (n / 10)).map digitChar = natToChars (n / 10) from rfl]
      rw [digitsVal_append]
      rw [ih (n / 10) (Nat.div_lt_self (by omega) (by omega))]
      unfold digitsVal
      simp [digitVal_digitChar (n % 10) (Nat.mod_lt _ (by omega))]
      omega

theorem natToChars_all_digits (n : Nat) : (natToChars n).all isDigit = true := by
  unfold natToChars
  rw [List.all_eq_true]
  intro c hc
  rcases List.mem_map.mp hc with ⟨d, hd, rfl⟩
  exact isDigit_digitChar d (natDigs_lt n d hd)

theorem natToChars_nonempty (n : Nat) : natToChars n ≠ [] := by
  unfold natToChars
  intro h
  exact natDigs_nonempty n (List.map_eq_nil_iff.mp h)

theorem stripSign_of_head (s : List Char) (h : ∀ c ∈ s.head?, c ≠ '+' ∧ c ≠ '-') :
    stripSign s = (false, s) := by
  unfold stripSign
  split
  · exact absurd rfl (h '+' rfl).1
  · exact absurd rfl (h '-' rfl).2
  · rfl

theorem head_digit_not_sign (s : List Char) (hall : s.all isDigit = true) :
    ∀ c ∈ s.head?, c ≠ '+' ∧ c ≠ '-' := by
  intro c hc
  cases s with
  | nil => simp at hc
  | cons x t =>
    simp only [List.head?_cons, Option.mem_def, Option.some.injEq] at hc
    subst hc
    have hx : isDigit x = true := (List.all_eq_true.mp hall) x (List.mem_cons_self _ _)
    constructor
    · intro hcc; rw [hcc] at hx; simp [isDigit] at hx
    · intro hcc; rw [hcc] at hx; simp [isDigit] at hx

/-- `parseInt64` of a digit string in range. -/
theorem parseInt64_digits (ds : List Char) (hne : ds ≠ []) (hall : ds.all isDigit = true)
    (hrange : (digitsVal ds : Int) ≤ 2 ^ 63 - 1) :
    parseInt64 ds = some ((digitsVal ds : Int)) := by
  unfold parseInt64
  rw [stripSign_of_head ds (head_digit_not_sign ds hall)]
  simp only [ne_eq, hne, not_false_iff, hall, and_self, if_true, if_false,
    Bool.false_eq_true]
  rw [if_pos ⟨by omega, hrange⟩]

/-- `parseInt64` of a rendered nonnegative integer in range. -/
theorem parseInt64_natToChars (n : Nat) (h : (n : Int) ≤ 2 ^ 63 - 1) :
    parseInt64 (natToChars n) = some ((n : Int)) := by
  rw [parseInt64_digits (natToChars n) (natToChars_nonempty n) (natToChars_all_digits n)
    (by rw [digitsVal_natToChars]; exact h)]
  rw [digitsVal_natToChars]

/-- A string whose digit-run part contains a non-digit fails `parseInt64`. -/
theorem parseInt64_none_of_nondigit (s : List Char) (c : Char)
    (hc : c ∈ (stripSign s).2) (hd : isDigit c = false) : parseInt64 s = none := by
  unfold parseInt64
  rcases hs : stripSign s with ⟨neg, ds⟩
  rw [hs] at hc
  simp only at hc ⊢
  rw [if_neg]
  rintro ⟨_, hall⟩
  rw [(List.all_eq_true.mp hall) c hc] at hd
  exact absurd hd (by decide)

/-! ## Cut and Fields lemmas -/

theorem cutChar_not_mem (sep : Char) (s : List Char) (h : sep ∉ s) :
    cutChar sep s = (s, [], false) := by
  induction s with
  | nil => rfl
  | cons c t ih =>
    unfold cutChar
    rw [if_neg fun hc => h (by rw [← hc]; exact List.mem_cons_self _ _)]
    rw [ih fun hc => h (List.mem_cons_of_mem _ hc)]

theorem cutChar_append (sep : Char) (w r : List Char) (h : sep ∉ w) :
    cutChar sep (w ++ sep :: r) = (w, r, true) := by
  induction w with
  | nil => simp [cutChar]
  | cons c t ih =>
    rw [List.cons_append]
    unfold cutChar
    rw [if_neg fun hc => h (by rw [← hc]; exact List.mem_cons_self _ _)]
    rw [ih fun hc => h (List.mem_cons_of_mem _ hc)]

/-- Characters that may appear inside a rendered rule word (digits, lowercase
letters, `.`, `-`, `µ`); disjoint from `@`, `:`, and whitespace. -/
def wordChar (c : Char) : Bool :=
  isDigit c || c = '.' || c = '-' || c = 'µ' || ('a' ≤ c && c ≤ 'z')

theorem wordChar_not_space (c : Char) (h : wordChar c = true) : isSpaceAscii c = false := by
  cases hs : isSpaceAscii c with
  | false => rfl
  | true =>
    exfalso
    have hs' : c = ' ' ∨ c = '\t' ∨ c = '\n' ∨ c = Char.ofNat 11 ∨ c = Char.ofNat 12 ∨
        c = '\r' := by
      simpa [isSpaceAscii, or_assoc] using hs
    rcases hs' with rfl | rfl | rfl | rfl | rfl | rfl <;> exact absurd h (by decide)

theorem wordChar_ne_at (c : Char) (h : wordChar c = true) : c ≠ '@' := by
  intro hc; rw [hc] at h; exact absurd h (by decide)

theorem wordChar_ne_colon (c : Char) (h : wordChar c = true) : c ≠ ':' := by
  intro hc; rw [hc] at h; exact absurd h (by decide)

theorem fields_eq_foldr (s : List Char) :
    fields s = (s.foldr fieldsStep []).filter fun w => !w.isEmpty := rfl

/-- Prepend a non-space word to the raw field split. -/
def consWord (w : List Char) (acc : List (List Char)) : List (List Char) :=
  match acc with
  | [] => [w]
  | x :: xs => (w ++ x) :: xs

theorem foldr_fieldsStep_word (w s : List Char) (hw : w ≠ [])
    (hws : ∀ c ∈ w, isSpaceAscii c = false) :
    (w ++ s).foldr fieldsStep [] = consWord w (s.foldr fieldsStep []) := by
  induction w with
  | nil => exact absurd rfl hw
  | cons c t ih =>
    rw [List.cons_append, List.foldr_cons]
    have hc : isSpaceAscii c = false := hws c (List.mem_cons_self _ _)
    cases ht : t with
    | nil =>
      subst ht
      rw [List.nil_append]
      generalize List.foldr fieldsStep [] s = acc
      cases acc with
      | nil => simp [fieldsStep, consWord, hc]
      | cons x xs => simp [fieldsStep, consWord, hc]
    | cons c' t' =>
      rw [← ht]
      have htne : t ≠ [] := by rw [ht]; exact List.cons_ne_nil _ _
      rw [ih htne fun x hx => hws x (List.mem_cons_of_mem _ hx)]
      generalize List.foldr fieldsStep [] s = acc
      cases acc with
      | nil => simp [fieldsStep, consWord, hc]
      | cons x xs => simp [fieldsStep, consWord, hc]

/-- `strings.Fields` undoes the single-space join of nonempty space-free
words. -/
theorem fields_joinSpace (ws : List (List Char))
    (h : ∀ w ∈ ws, w ≠ [] ∧ ∀ c ∈ w, isSpaceAscii c = false) :
    fields (joinSpace ws) = ws := by
  induction ws with
  | nil => rfl
  | cons w t ih =>
    rcases h w (List.mem_cons_self _ _) with ⟨hw, hws⟩
    cases t with
    | nil =>
      show fields (joinSpace [w]) = [w]
      rw [fields_eq_foldr]
      have : joinSpace [w] = w ++ [] := by simp [joinSpace]
      rw [this, foldr_fieldsStep_word w [] hw hws]
      unfold consWord
      simp only [List.foldr_nil]
      rw [List.filter_cons]
      have : (!w.isEmpty) = true := by
        cases w with
        | nil => exact absurd rfl hw
        | cons a b => rfl
      rw [this]
      rfl
    | cons w2 t2 =>
      have hjs : joinSpace (w :: w2 :: t2) = w ++ ' ' :: joinSpace (w2 :: t2) := rfl
      rw [fields_eq_foldr, hjs, foldr_fieldsStep_word w _ hw hws]
      rw [List.foldr_cons]
      have hsp : fieldsStep ' ' ((joinSpace (w2 :: t2)).foldr fieldsStep []) =
          [] :: (joinSpace (w2 :: t2)).foldr fieldsStep [] := by
        unfold fieldsStep
        rw [if_pos (by decide)]
      rw [hsp]
      have hcw : consWord w ([] :: List.foldr fieldsStep [] (joinSpace (w2 :: t2))) =
          w :: List.foldr fieldsStep [] (joinSpace (w2 :: t2)) := by
        simp [consWord]
      rw [hcw, List.filter_cons]
      have hne : (!w.isEmpty) = true := by
        cases w with
        | nil => exact absurd rfl hw
        | cons a b => rfl
      rw [hne]
      have := ih fun x hx => h x (List.mem_cons_of_mem _ hx)
      rw [fields_eq_foldr] at this
      rw [this]
      rfl

/-! ## `leadingInt` on rendered digit runs -/

theorem digitsVal_cons (c : Char) (t : List Char) :
    digitsVal (c :: t) = digitVal c * 10 ^ t.length + digitsVal t := by
  have h : digitsVal (c :: t) =
      List.foldl (fun a c => a * 10 + digitVal c) (0 * 10 + digitVal c) t := rfl
  rw [h, digitsVal_from]
  ring

theorem leadingInt_digits (ds : List Char) (r : List Char) (x : Nat)
    (hall : ∀ c ∈ ds, isDigit c = true)
    (hb : x * 10 ^ ds.length + digitsVal ds ≤ 2 ^ 63)
    (hr : ∀ c ∈ r.head?, isDigit c = false) :
    leadingInt x (ds ++ r) = some (x * 10 ^ ds.length + digitsVal ds, r) := by
  induction ds generalizing x with
  | nil =>
    simp only [List.nil_append, List.length_nil, pow_zero, Nat.mul_one]
    cases r with
    | nil => simp [leadingInt, digitsVal]
    | cons c t =>
      have hc : isDigit c = false := hr c rfl
      simp [leadingInt, hc, digitsVal]
  | cons c t ih =>
    have hc : isDigit c = true := hall c (List.mem_cons_self _ _)
    have hP : 1 ≤ 10 ^ t.length := Nat.one_le_pow _ _ (by omega)
    have hdv : digitsVal (c :: t) = digitVal c * 10 ^ t.length + digitsVal t :=
      digitsVal_cons c t
    have heqv : x * 10 ^ (c :: t).length + digitsVal (c :: t) =
        (x * 10 + digitVal c) * 10 ^ t.length + digitsVal t := by
      rw [List.length_cons, pow_succ, hdv]; ring
    have hb' : (x * 10 + digitVal c) * 10 ^ t.length + digitsVal t ≤ 2 ^ 63 := by
      rw [← heqv]; exact hb
    have hself : x * 10 + digitVal c ≤ (x * 10 + digitVal c) * 10 ^ t.length :=
      Nat.le_mul_of_pos_right _ (by omega)
    have hx10 : x * 10 ≤ 2 ^ 63 := by omega
    have hx' : x * 10 + digitVal c ≤ 2 ^ 63 := by omega
    rw [List.cons_append]
    unfold leadingInt
    rw [if_pos hc]
    rw [if_neg (show ¬ x > 2 ^ 63 / 10 from by
      have : x ≤ 2 ^ 63 / 10 := Nat.le_div_iff_mul_le (by omega) |>.mpr hx10
      omega)]
    simp only
    rw [if_neg (show ¬ x * 10 + digitVal c > 2 ^ 63 from by omega)]
    rw [ih (x * 10 + digitVal c) (fun d hd => hall d (List.mem_cons_of_mem _ hd)) hb']
    rw [heqv]

theorem leadingInt_natToChars (n : Nat) (r : List Char) (hn : n ≤ 2 ^ 63)
    (hr : ∀ c ∈ r.head?, isDigit c = false) :
    leadingInt 0 (natToChars n ++ r) = some (n, r) := by
  have h := leadingInt_digits (natToChars n) r 0
    (fun c hc => List.all_eq_true.mp (natToChars_all_digits n) c hc)
    (by rw [digitsVal_natToChars]; omega) hr
  rw [h, Nat.zero_mul, Nat.zero_add, digitsVal_natToChars]

/-! ## `ParseDuration` on rendered `(number unit)+` strings -/

theorem unitNs_pos (u : List Char) (v : Nat) (h : unitNs u = some v) : 1 ≤ v := by
  unfold unitNs at h
  split at h <;> try split at h
  all_goals first
    | (injection h with h'; omega)
    | exact absurd h (by simp)
    | skip
  repeat' split at h
  all_goals first
    | (injection h with h'; omega)
    | exact absurd h (by simp)

theorem notUnitChar_of_digit (c : Char) (h : isDigit c = true) : notUnitChar c = true := by
  simp [notUnitChar, h]

theorem notUnitChar_false_elim (c : Char) (h : notUnitChar c = false) :
    c ≠ '.' ∧ isDigit c = false := by
  simp only [notUnitChar, Bool.or_eq_false_iff, decide_eq_false_iff_not] at h
  exact h

/-- A run of `(decimal, unit-char)` segments as the renderer lays them out. -/
def segsRender (segs : List (Nat × Char)) : List Char :=
  (segs.map fun e => natToChars e.1 ++ [e.2]).flatten

/-- The nanosecond value the segments denote. -/
def segsVal (segs : List (Nat × Char)) : Nat :=
  (segs.map fun e => e.1 * (unitNs [e.2]).getD 0).sum

theorem segsRender_head_digit (segs : List (Nat × Char)) :
    ∀ c ∈ (segsRender segs).head?, isDigit c = true := by
  cases segs with
  | nil => simp [segsRender]
  | cons e t =>
    intro c hc
    rcases hnc : natToChars e.1 with _ | ⟨d, ds⟩
    · exact absurd hnc (natToChars_nonempty e.1)
    · have hd : isDigit d = true := by
        have := natToChars_all_digits e.1
        rw [hnc] at this
        exact (List.all_eq_true.mp this) d (List.mem_cons_self _ _)
      have : segsRender (e :: t) = d :: (ds ++ [e.2] ++ segsRender t) := by
        simp [segsRender, hnc]
      rw [this] at hc
      simp only [List.head?_cons, Option.mem_def, Option.some.injEq] at hc
      rw [← hc]; exact hd

theorem segsRender_length (segs : List (Nat × Char)) :
    segs.length ≤ (segsRender segs).length := by
  induction segs with
  | nil => simp [segsRender]
  | cons e t ih =>
    have h : segsRender (e :: t) = (natToChars e.1 ++ [e.2]) ++ segsRender t := by
      simp [segsRender]
    rw [h, List.length_append, List.length_append]
    have := natToChars_nonempty e.1
    have : 1 ≤ (natToChars e.1).length := by
      cases hnc : natToChars e.1 with
      | nil => exact absurd hnc (natToChars_nonempty e.1)
      | cons a b => simp
    simp only [List.length_cons, List.length_nil]
    omega

/-- One `(number unit)` segment of the `ParseDuration` loop. -/
theorem parseDurLoop_seg (fuel : Nat) (n : Nat) (uc : Char) (unit : Nat)
    (rest : List Char) (d : Nat)
    (hu : unitNs [uc] = some unit) (hnuc : notUnitChar uc = false)
    (hrest : ∀ c ∈ rest.head?, notUnitChar c = true)
    (hb : d + n * unit ≤ 2 ^ 63) :
    parseDurLoop (fuel + 1) (natToChars n ++ uc :: rest) d =
      parseDurLoop fuel rest (d + n * unit) := by
  have hupos : 1 ≤ unit := unitNs_pos [uc] unit hu
  rcases notUnitChar_false_elim uc hnuc with ⟨hudot, hud⟩
  have hn : n ≤ 2 ^ 63 := by
    have : n ≤ n * unit := Nat.le_mul_of_pos_right _ (by omega)
    omega
  obtain ⟨c0, ds0, hnc⟩ : ∃ c0 ds0, natToChars n = c0 :: ds0 := by
    cases h : natToChars n with
    | nil => exact absurd h (natToChars_nonempty n)
    | cons a b => exact ⟨a, b, rfl⟩
  have hc0 : isDigit c0 = true := by
    have := natToChars_all_digits n
    rw [hnc] at this
    exact (List.all_eq_true.mp this) c0 (List.mem_cons_self _ _)
  have hli : leadingInt 0 (c0 :: (ds0 ++ uc :: rest)) = some (n, uc :: rest) := by
    rw [show c0 :: (ds0 ++ uc :: rest) = natToChars n ++ uc :: rest from by
      rw [hnc, List.cons_append]]
    exact leadingInt_natToChars n (uc :: rest) hn
      (by intro c hc; simp only [List.head?_cons, Option.mem_def, Option.some.injEq] at hc;
          rw [← hc]; exact hud)
  rw [hnc, List.cons_append]
  conv_lhs => unfold parseDurLoop
  rw [if_neg (not_not_intro (Or.inr hc0))]
  rw [hli]
  simp only
  have hpre : ((uc :: rest).length != (c0 :: (ds0 ++ uc :: rest)).length) = true := by
    simp only [bne_iff_ne, ne_eq, List.length_cons, List.length_append]
    omega
  have hdot : ¬ (uc :: rest).head? = some '.' := by
    simp only [List.head?_cons, Option.some.injEq]
    exact hudot
  rw [if_neg hdot]
  simp only [hpre, Bool.not_true, Bool.not_false, Bool.false_and, Bool.and_false]
  rw [if_neg (by simp)]
  have htw : (uc :: rest).takeWhile (fun c => !notUnitChar c) = [uc] := by
    rw [List.takeWhile_cons]
    rw [hnuc]
    simp only [Bool.not_false, if_pos]
    cases rest with
    | nil => rfl
    | cons c t =>
      have hcrest : notUnitChar c = true := hrest c rfl
      rw [List.takeWhile_cons, hcrest]
      rfl
  have hdw : (uc :: rest).dropWhile (fun c => !notUnitChar c) = rest := by
    rw [List.dropWhile_cons]
    rw [hnuc]
    simp only [Bool.not_false, if_pos]
    cases rest with
    | nil => rfl
    | cons c t =>
      have hcrest : notUnitChar c = true := hrest c rfl
      rw [List.dropWhile_cons, hcrest]
      rfl
  rw [htw, hdw]
  rw [if_neg (by simp : ¬ ([uc] : List Char) = [])]
  rw [hu]
  simp only
  have hnb : n * unit ≤ 2 ^ 63 := by omega
  rw [if_neg (show ¬ n > 2 ^ 63 / unit from by
    have : n ≤ 2 ^ 63 / unit := Nat.le_div_iff_mul_le (by omega) |>.mpr hnb
    omega)]
  simp only [show ¬ (0 : Nat) > 0 from by omega, if_neg, not_false_iff]
  rw [if_neg (show ¬ (False ∧ n * unit > 2 ^ 63) from by simp)]
  rw [if_neg (show ¬ d + n * unit > 2 ^ 63 from by omega)]

theorem parseDurLoop_segs (segs : List (Nat × Char)) (fuel d : Nat)
    (hok : ∀ e ∈ segs, (unitNs [e.2]).isSome = true ∧ notUnitChar e.2 = false)
    (hb : d + segsVal segs ≤ 2 ^ 63) :
    parseDurLoop (fuel + 1 + segs.length) (segsRender segs) d = some (d + segsVal segs) := by
  induction segs generalizing d with
  | nil =>
    show parseDurLoop (fuel + 1) [] d = some (d + segsVal [])
    have h1 : segsVal [] = 0 := rfl
    have h2 : parseDurLoop (fuel + 1) [] d = some d := rfl
    rw [h1, h2, Nat.add_zero]
  | cons e t ih =>
    rcases hok e (List.mem_cons_self _ _) with ⟨hs, hnu⟩
    obtain ⟨unit, hu⟩ := Option.isSome_iff_exists.mp hs
    have hrender : segsRender (e :: t) = natToChars e.1 ++ e.2 :: segsRender t := by
      simp [segsRender]
    have hval : segsVal (e :: t) = e.1 * unit + segsVal t := by
      simp [segsVal, hu]
    have hlen : fuel + 1 + (e :: t).length = (fuel + 1 + t.length) + 1 := by
      simp [List.length_cons]; omega
    rw [hrender, hlen]
    rw [parseDurLoop_seg (fuel + 1 + t.length) e.1 e.2 unit (segsRender t) d hu hnu
      (fun c hc => notUnitChar_of_digit c (segsRender_head_digit t c hc))
      (by rw [hval] at hb; omega)]
    rw [ih (d + e.1 * unit) (fun x hx => hok x (List.mem_cons_of_mem _ hx))
      (by rw [hval] at hb; omega)]
    rw [hval]
    congr 1
    omega

theorem segsRender_ne_singleton (segs : List (Nat × Char)) (hne : segs ≠ [])
    (c : Char) : segsRender segs ≠ [c] := by
  cases segs with
  | nil => exact absurd rfl hne
  | cons e t =>
    intro h
    have h1 : segsRender (e :: t) = (natToChars e.1 ++ [e.2]) ++ segsRender t := by
      simp [segsRender]
    have h2 : 2 ≤ (segsRender (e :: t)).length := by
      rw [h1, List.length_append, List.length_append]
      have : 1 ≤ (natToChars e.1).length := by
        cases hnc : natToChars e.1 with
        | nil => exact absurd hnc (natToChars_nonempty e.1)
        | cons a b => simp
      simp only [List.length_cons, List.length_nil]
      omega
    rw [h] at h2
    simp at h2

/-- `ParseDuration` of a rendered nonempty segment run. -/
theorem parseDuration_segs (segs : List (Nat × Char)) (hne : segs ≠ [])
    (hok : ∀ e ∈ segs, (unitNs [e.2]).isSome = true ∧ notUnitChar e.2 = false)
    (hb : segsVal segs ≤ 2 ^ 63 - 1) :
    parseDuration (segsRender segs) = some ((segsVal segs : Int)) := by
  obtain ⟨c0, t0, hrep⟩ : ∃ c0 t0, segsRender segs = c0 :: t0 := by
    cases hs : segsRender segs with
    | nil =>
      cases segs with
      | nil => exact absurd rfl hne
      | cons e t =>
        exfalso
        have h1 : segsRender (e :: t) = (natToChars e.1 ++ [e.2]) ++ segsRender t := by
          simp [segsRender]
        rw [h1] at hs
        rcases List.append_eq_nil.mp hs with ⟨h2, _⟩
        rcases List.append_eq_nil.mp h2 with ⟨h3, _⟩
        exact natToChars_nonempty e.1 h3
    | cons a b => exact ⟨a, b, rfl⟩
  have hc0 : isDigit c0 = true := by
    have := segsRender_head_digit segs c0
    rw [hrep] at this
    exact this rfl
  have hc0m : c0 ≠ '-' ∧ c0 ≠ '+' := by
    constructor <;> intro h <;> rw [h] at hc0 <;> exact absurd hc0 (by decide)
  unfold parseDuration
  rw [hrep]
  simp only [List.head?_cons]
  rw [if_neg (show ¬ (some c0 = some '-' ∨ some c0 = some '+') from by
    rintro (h | h) <;> injection h with h' <;>
      first | exact hc0m.1 h' | exact hc0m.2 h')]
  rw [if_neg (show ¬ (c0 :: t0 : List Char) = ['0'] from by
    intro h; rw [← hrep] at h; exact segsRender_ne_singleton segs hne '0' h)]
  have hfuel : (c0 :: t0).length + 1 = ((c0 :: t0).length - segs.length) + 1 + segs.length := by
    have := segsRender_length segs
    rw [hrep] at this
    omega
  rw [hfuel]
  rw [if_neg (List.cons_ne_nil c0 t0)]
  have hloop : parseDurLoop ((c0 :: t0).length - segs.length + 1 + segs.length)
      (c0 :: t0) 0 = some (segsVal segs) := by
    have h := parseDurLoop_segs segs ((c0 :: t0).length - segs.length) 0 hok (by omega)
    rw [hrep, Nat.zero_add] at h
    exact h
  rw [hloop]
  have h1 : c0 ≠ '-' := hc0m.1
  have h2 : ¬ ((segsVal segs : Int)) > 2 ^ 63 - 1 := by
    have h3 : (segsVal segs : Int) ≤ ((2 ^ 63 - 1 : Nat) : Int) := by exact_mod_cast hb
    have h4 : ((2 ^ 63 - 1 : Nat) : Int) = 2 ^ 63 - 1 := by norm_num
    omega
  simp only [beq_iff_eq, Option.some.injEq]
  simp [h1, h2]
  omega

/-! ## `Duration.String` on whole-second values -/

theorem fmtFracChars_whole (iv : Nat) : fmtFracChars (iv * 1000000000) 9 = ([], iv) := by
  have h1 : iv * 1000000000 % 10 ^ 9 = 0 := by
    norm_num [Nat.mul_mod_left]
  have h2 : iv * 1000000000 / 10 ^ 9 = iv := by
    norm_num [Nat.mul_div_cancel]
  simp [fmtFracChars, h1, h2]

theorem natAbs_mul_giga (iv : Nat) : ((iv : Int) * 1000000000).natAbs = iv * 1000000000 := by
  have h : (iv : Int) * 1000000000 = ((iv * 1000000000 : Nat) : Int) := by push_cast; ring
  rw [h, Int.natAbs_ofNat]

theorem durString_minutes (iv : Nat) (h1 : 60 ≤ iv) (h2 : iv < 3600) :
    durString ((iv : Int) * 1000000000) =
      natToChars (iv / 60) ++ 'm' :: (natToChars (iv % 60) ++ ['s']) := by
  have hneg : ¬ ((iv : Int) * 1000000000 < 0) := by
    have h0 : (0 : Int) ≤ (iv : Int) * 1000000000 := by positivity
    omega
  have hsmall : ¬ (iv * 1000000000 < 1000000000) := by omega
  have hff := fmtFracChars_whole iv
  have hu2 : ¬ (iv / 60 = 0) := by omega
  have hu2m : iv / 60 % 60 = iv / 60 := by omega
  have hu3 : iv / 60 / 60 = 0 := by omega
  simp only [durString, natAbs_mul_giga, hff, hu2m, hu3]
  rw [if_neg hneg, if_neg hsmall, if_neg hu2, if_pos trivial]
  simp

theorem durString_hours (iv : Nat) (h1 : 3600 ≤ iv) :
    durString ((iv : Int) * 1000000000) =
      natToChars (iv / 3600) ++ 'h' :: (natToChars (iv / 60 % 60) ++
        'm' :: (natToChars (iv % 60) ++ ['s'])) := by
  have hneg : ¬ ((iv : Int) * 1000000000 < 0) := by
    have h0 : (0 : Int) ≤ (iv : Int) * 1000000000 := by positivity
    omega
  have hsmall : ¬ (iv * 1000000000 < 1000000000) := by omega
  have hff := fmtFracChars_whole iv
  have hu2 : ¬ (iv / 60 = 0) := by omega
  have hu3 : ¬ (iv / 3600 = 0) := by omega
  have hu36 : iv / 60 / 60 = iv / 3600 := by omega
  simp only [durString, natAbs_mul_giga, hff, hu36]
  rw [if_neg hneg, if_neg hsmall, if_neg hu2, if_neg hu3]
  simp

/-! ## `CutSuffix` and the `m0s`/`h0m` compaction -/

theorem cutSuffixL_append (a b : List Char) : cutSuffixL (a ++ b) b = some a := by
  have hl : (a ++ b).length - b.length = a.length := by
    rw [List.length_append]; omega
  unfold cutSuffixL
  rw [if_pos ⟨by rw [List.length_append]; omega, by rw [hl, List.drop_left]⟩]
  rw [hl, List.take_left]

theorem cutSuffixL_eq_none (s suf : List Char) (h : ∀ v : List Char, s ≠ v ++ suf) :
    cutSuffixL s suf = none := by
  unfold cutSuffixL
  rw [if_neg]
  rintro ⟨hl, hd⟩
  exact h (s.take (s.length - suf.length)) (by
    conv_lhs => rw [← List.take_append_drop (s.length - suf.length) s]
    rw [hd])

theorem append_singleton_inj (a b : List Char) (x y : Char) (h : a ++ [x] = b ++ [y]) :
    a = b ∧ x = y := by
  have h2 := congrArg List.reverse h
  simp only [List.reverse_append, List.reverse_cons, List.reverse_nil, List.nil_append,
    List.singleton_append] at h2
  injection h2 with h3 h4
  refine ⟨?_, h3⟩
  rw [← List.reverse_reverse a, h4, List.reverse_reverse]

theorem last_ne_reject (W : List Char) (c x y z : Char) (hne : c ≠ z) :
    ∀ v : List Char, W ++ [c] ≠ v ++ [x, y, z] := by
  intro v h
  have h2 : W ++ [c] = (v ++ [x, y]) ++ [z] := by rw [h]; simp
  rcases append_singleton_inj _ _ _ _ h2 with ⟨_, h3⟩
  exact hne h3

theorem digit_tail_reject (P : List Char) (S : Nat) (hS : S ≠ 0) (c x : Char)
    (hx : isDigit x = false) :
    ∀ v : List Char, (P ++ natToChars S) ++ [c] ≠ v ++ [x, '0', c] := by
  intro v h
  rcases List.eq_nil_or_concat (natToChars S) with hnc | ⟨R, dl, hnc⟩
  · exact natToChars_nonempty S hnc
  have h2 : ((P ++ R) ++ [dl]) ++ [c] = ((v ++ [x]) ++ ['0']) ++ [c] := by
    rw [hnc] at h
    simp only [List.concat_eq_append, List.append_assoc] at h ⊢
    simpa using h
  rcases append_singleton_inj _ _ _ _ h2 with ⟨h3, _⟩
  rcases append_singleton_inj _ _ _ _ h3 with ⟨h4, h5⟩
  rcases List.eq_nil_or_concat R with hR | ⟨R', dl2, hR⟩
  · have : natToChars S = ['0'] := by rw [hnc, hR, h5]; rfl
    have h6 : S = 0 := by
      have := digitsVal_natToChars S
      rw [this.symm, ‹natToChars S = ['0']›]
      rfl
    exact hS h6
  · have h7 : (P ++ R') ++ [dl2] = v ++ [x] := by rw [← h4, hR]; simp
    rcases append_singleton_inj _ _ _ _ h7 with ⟨_, h8⟩
    have hmem : dl2 ∈ natToChars S := by
      rw [hnc, hR]
      simp
    have := (List.all_eq_true.mp (natToChars_all_digits S)) dl2 hmem
    rw [h8, hx] at this
    exact absurd this (by decide)

theorem natToChars_zero : natToChars 0 = ['0'] := by
  have h : natDigs 0 = [0] := by rw [natDigs_eq]; norm_num
  simp [natToChars, h]
  decide

theorem durCompact1_none (s : List Char) (h : cutSuffixL s ['m', '0', 's'] = none) :
    durCompact1 s = s := by
  unfold durCompact1
  rw [h]

theorem durCompact1_cut (a : List Char) :
    durCompact1 (a ++ ['m', '0', 's']) = a ++ ['m'] := by
  unfold durCompact1
  rw [cutSuffixL_append]

theorem durCompact2_none (s : List Char) (h : cutSuffixL s ['h', '0', 'm'] = none) :
    durCompact2 s = s := by
  unfold durCompact2
  rw [h]

theorem durCompact2_cut (a : List Char) :
    durCompact2 (a ++ ['h', '0', 'm']) = a ++ ['h'] := by
  unfold durCompact2
  rw [cutSuffixL_append]

/-- `durCompact` of the rendered minute form, nonzero seconds. -/
theorem durCompact_minutes_sne (M S : Nat) (hS : S ≠ 0) :
    durCompact (natToChars M ++ 'm' :: (natToChars S ++ ['s'])) =
      natToChars M ++ 'm' :: (natToChars S ++ ['s']) := by
  have hshape : natToChars M ++ 'm' :: (natToChars S ++ ['s']) =
      ((natToChars M ++ ['m']) ++ natToChars S) ++ ['s'] := by simp
  unfold durCompact
  rw [hshape]
  rw [durCompact1_none _ (cutSuffixL_eq_none _ _
    (digit_tail_reject (natToChars M ++ ['m']) S hS 's' 'm' (by decide)))]
  rw [durCompact2_none _ (cutSuffixL_eq_none _ _
    (last_ne_reject ((natToChars M ++ ['m']) ++ natToChars S) 's' 'h' '0' 'm' (by decide)))]

/-- `durCompact` of the rendered minute form, zero seconds, nonzero minutes. -/
theorem durCompact_minutes_s0 (M : Nat) (hM : M ≠ 0) :
    durCompact (natToChars M ++ 'm' :: (natToChars 0 ++ ['s'])) =
      natToChars M ++ ['m'] := by
  have hshape : natToChars M ++ 'm' :: (natToChars 0 ++ ['s']) =
      natToChars M ++ ['m', '0', 's'] := by rw [natToChars_zero]; rfl
  unfold durCompact
  rw [hshape, durCompact1_cut]
  rw [durCompact2_none _ (cutSuffixL_eq_none _ _ (show ∀ v : List Char,
      natToChars M ++ ['m'] ≠ v ++ ['h', '0', 'm'] from by
    have h := digit_tail_reject [] M hM 'm' 'h' (by decide)
    simpa using h))]

/-- `durCompact` of the rendered hour form, nonzero seconds. -/
theorem durCompact_hours_sne (H M S : Nat) (hS : S ≠ 0) :
    durCompact (natToChars H ++ 'h' :: (natToChars M ++ 'm' :: (natToChars S ++ ['s']))) =
      natToChars H ++ 'h' :: (natToChars M ++ 'm' :: (natToChars S ++ ['s'])) := by
  have hshape : natToChars H ++ 'h' :: (natToChars M ++ 'm' :: (natToChars S ++ ['s'])) =
      (((natToChars H ++ ['h'] ++ natToChars M) ++ ['m']) ++ natToChars S) ++ ['s'] := by
    simp
  unfold durCompact
  rw [hshape]
  rw [durCompact1_none _ (cutSuffixL_eq_none _ _
    (digit_tail_reject ((natToChars H ++ ['h'] ++ natToChars M) ++ ['m']) S hS 's' 'm'
      (by decide)))]
  rw [durCompact2_none _ (cutSuffixL_eq_none _ _
    (last_ne_reject _ 's' 'h' '0' 'm' (by decide)))]

/-- `durCompact` of the rendered hour form, zero seconds, nonzero minutes. -/
theorem durCompact_hours_s0 (H M : Nat) (hM : M ≠ 0) :
    durCompact (natToChars H ++ 'h' :: (natToChars M ++ 'm' :: (natToChars 0 ++ ['s']))) =
      natToChars H ++ 'h' :: (natToChars M ++ ['m']) := by
  have hshape : natToChars H ++ 'h' :: (natToChars M ++ 'm' :: (natToChars 0 ++ ['s'])) =
      ((natToChars H ++ ['h']) ++ natToChars M) ++ ['m', '0', 's'] := by
    rw [natToChars_zero]; simp
  unfold durCompact
  rw [hshape, durCompact1_cut]
  rw [durCompact2_none _ (cutSuffixL_eq_none _ _ (show ∀ v : List Char,
      ((natToChars H ++ ['h']) ++ natToChars M) ++ ['m'] ≠ v ++ ['h', '0', 'm'] from
    digit_tail_reject (natToChars H ++ ['h']) M hM 'm' 'h' (by decide)))]
  simp

/-- `durCompact` of the rendered hour form, zero minutes and seconds. -/
theorem durCompact_hours_m0s0 (H : Nat) :
    durCompact (natToChars H ++ 'h' :: (natToChars 0 ++ 'm' :: (natToChars 0 ++ ['s']))) =
      natToChars H ++ ['h'] := by
  have hshape : natToChars H ++ 'h' :: (natToChars 0 ++ 'm' :: (natToChars 0 ++ ['s'])) =
      ((natToChars H ++ ['h', '0']) ++ ['m', '0', 's']) := by
    rw [natToChars_zero]; simp
  unfold durCompact
  rw [hshape, durCompact1_cut]
  have hshape2 : (natToChars H ++ ['h', '0']) ++ ['m'] = natToChars H ++ ['h', '0', 'm'] := by
    simp
  rw [hshape2, durCompact2_cut]

/-! ## Round trip of the rendered duration -/

theorem unitNs_m : unitNs ['m'] = some 60000000000 := by decide

theorem unitNs_h : unitNs ['h'] = some 3600000000000 := by decide

theorem unitNs_s : unitNs ['s'] = some 1000000000 := by decide

theorem segOK_m : (unitNs ['m']).isSome = true ∧ notUnitChar 'm' = false := by decide

theorem segOK_h : (unitNs ['h']).isSome = true ∧ notUnitChar 'h' = false := by decide

theorem segOK_s : (unitNs ['s']).isSome = true ∧ notUnitChar 's' = false := by decide

/-- `ParseDuration` undoes `durCompact ∘ Duration.String` on whole-second
durations of at least one minute (the renderer's secondly range). -/
theorem parse_render_duration (iv : Nat) (h60 : 60 ≤ iv) (hub : iv ≤ 9223372036) :
    parseDuration (durCompact (durString ((iv : Int) * 1000000000))) =
      some ((iv : Int) * 1000000000) := by
  have hcast : ∀ n : Nat, n = iv * 1000000000 →
      some ((n : Int)) = some ((iv : Int) * 1000000000) := by
    intro n hn
    subst hn
    norm_cast
  by_cases hlt : iv < 3600
  · rw [durString_minutes iv h60 hlt]
    by_cases hs : iv % 60 = 0
    · rw [hs, durCompact_minutes_s0 (iv / 60) (by omega)]
      have hseg : natToChars (iv / 60) ++ ['m'] = segsRender [(iv / 60, 'm')] := by
        simp [segsRender]
      rw [hseg]
      rw [parseDuration_segs [(iv / 60, 'm')] (by simp)
        (by
          intro e he
          simp only [List.mem_singleton] at he
          subst he
          exact segOK_m)
        (by simp [segsVal, unitNs_m]; try omega)]
      exact hcast _ (by simp [segsVal, unitNs_m]; try omega)
    · rw [durCompact_minutes_sne (iv / 60) (iv % 60) hs]
      have hseg : natToChars (iv / 60) ++ 'm' :: (natToChars (iv % 60) ++ ['s']) =
          segsRender [(iv / 60, 'm'), (iv % 60, 's')] := by
        simp [segsRender]
      rw [hseg]
      rw [parseDuration_segs [(iv / 60, 'm'), (iv % 60, 's')] (by simp)
        (by
          intro e he
          simp only [List.mem_cons, List.mem_singleton, List.not_mem_nil, or_false] at he
          rcases he with rfl | rfl
          · exact segOK_m
          · exact segOK_s)
        (by simp [segsVal, unitNs_m, unitNs_s]; try omega)]
      exact hcast _ (by simp [segsVal, unitNs_m, unitNs_s]; try omega)
  · rw [durString_hours iv (by omega)]
    by_cases hs : iv % 60 = 0
    · by_cases hm : iv / 60 % 60 = 0
      · rw [hs, hm, durCompact_hours_m0s0 (iv / 3600)]
        have hseg : natToChars (iv / 3600) ++ ['h'] = segsRender [(iv / 3600, 'h')] := by
          simp [segsRender]
        rw [hseg]
        rw [parseDuration_segs [(iv / 3600, 'h')] (by simp)
          (by
            intro e he
            simp only [List.mem_singleton] at he
            subst he
            exact segOK_h)
          (by simp [segsVal, unitNs_h]; try omega)]
        exact hcast _ (by simp [segsVal, unitNs_h]; try omega)
      · rw [hs, durCompact_hours_s0 (iv / 3600) (iv / 60 % 60) hm]
        have hseg : natToChars (iv / 3600) ++ 'h' :: (natToChars (iv / 60 % 60) ++ ['m']) =
            segsRender [(iv / 3600, 'h'), (iv / 60 % 60, 'm')] := by
          simp [segsRender]
        rw [hseg]
        rw [parseDuration_segs [(iv / 3600, 'h'), (iv / 60 % 60, 'm')] (by simp)
          (by
            intro e he
            simp only [List.mem_cons, List.mem_singleton, List.not_mem_nil, or_false] at he
            rcases he with rfl | rfl
            · exact segOK_h
            · exact segOK_m)
          (by simp [segsVal, unitNs_h, unitNs_m]; try omega)]
        exact hcast _ (by simp [segsVal, unitNs_h, unitNs_m]; try omega)
    · rw [durCompact_hours_sne (iv / 3600) (iv / 60 % 60) (iv % 60) hs]
      have hseg : natToChars (iv / 3600) ++ 'h' :: (natToChars (iv / 60 % 60) ++
          'm' :: (natToChars (iv % 60) ++ ['s'])) =
          segsRender [(iv / 3600, 'h'), (iv / 60 % 60, 'm'), (iv % 60, 's')] := by
        simp [segsRender]
      rw [hseg]
      rw [parseDuration_segs [(iv / 3600, 'h'), (iv / 60 % 60, 'm'), (iv % 60, 's')]
        (by simp)
        (by
          intro e he
          simp only [List.mem_cons, List.mem_singleton, List.not_mem_nil, or_false] at he
          rcases he with rfl | rfl | rfl
          · exact segOK_h
          · exact segOK_m
          · exact segOK_s)
        (by simp [segsVal, unitNs_h, unitNs_m, unitNs_s]; try omega)]
      exact hcast _ (by simp [segsVal, unitNs_h, unitNs_m, unitNs_s]; try omega)

theorem stripSign_natToChars_app (X : Nat) (r : List Char) :
    stripSign (natToChars X ++ r) = (false, natToChars X ++ r) := by
  apply stripSign_of_head
  intro c hc
  obtain ⟨d, ds, hnc⟩ : ∃ d ds, natToChars X = d :: ds := by
    cases h : natToChars X with
    | nil => exact absurd h (natToChars_nonempty X)
    | cons a b => exact ⟨a, b, rfl⟩
  have hd : isDigit d = true := by
    have := natToChars_all_digits X
    rw [hnc] at this
    exact (List.all_eq_true.mp this) d (List.mem_cons_self _ _)
  rw [hnc, List.cons_append] at hc
  simp only [List.head?_cons, Option.mem_def, Option.some.injEq] at hc
  subst hc
  constructor <;> intro h <;> rw [h] at hd <;> exact absurd hd (by decide)

/-- The rendered duration is never an integer literal (`strconv.ParseInt`
rejects it). -/
theorem parseInt64_none_render_duration (iv : Nat) (h60 : 60 ≤ iv) :
    parseInt64 (durCompact (durString ((iv : Int) * 1000000000))) = none := by
  by_cases hlt : iv < 3600
  · rw [durString_minutes iv h60 hlt]
    by_cases hs : iv % 60 = 0
    · rw [hs, durCompact_minutes_s0 (iv / 60) (by omega)]
      exact parseInt64_none_of_nondigit _ 'm'
        (by rw [stripSign_natToChars_app]; simp) (by decide)
    · rw [durCompact_minutes_sne (iv / 60) (iv % 60) hs]
      exact parseInt64_none_of_nondigit _ 'm'
        (by rw [show natToChars (iv / 60) ++ 'm' :: (natToChars (iv % 60) ++ ['s']) =
              natToChars (iv / 60) ++ ('m' :: (natToChars (iv % 60) ++ ['s'])) from rfl,
            stripSign_natToChars_app]; simp) (by decide)
  · rw [durString_hours iv (by omega)]
    by_cases hs : iv % 60 = 0
    · by_cases hm : iv / 60 % 60 = 0
      · rw [hs, hm, durCompact_hours_m0s0 (iv / 3600)]
        exact parseInt64_none_of_nondigit _ 'h'
          (by rw [stripSign_natToChars_app]; simp) (by decide)
      · rw [hs, durCompact_hours_s0 (iv / 3600) (iv / 60 % 60) hm]
        exact parseInt64_none_of_nondigit _ 'h'
          (by rw [stripSign_natToChars_app]; simp) (by decide)
    · rw [durCompact_hours_sne (iv / 3600) (iv / 60 % 60) (iv % 60) hs]
      exact parseInt64_none_of_nondigit _ 'h'
        (by rw [stripSign_natToChars_app]; simp) (by decide)

/-- `intervalVal` on the `secondly` duration fallback recovers the interval. -/
theorem intervalVal_render_duration (iv : Nat) (h60 : 60 ≤ iv) (hub : iv ≤ 9223372036) :
    intervalVal uSecondly (durCompact (durString ((iv : Int) * 1000000000))) =
      some ((iv : Int)) := by
  unfold intervalVal
  rw [parseInt64_none_render_duration iv h60]
  rw [if_pos rfl]
  rw [parse_render_duration iv h60 hub]
  rw [Option.map_some']
  rw [Int.mul_tdiv_cancel _ (by norm_num)]

/-! ## `MarshalText` rule words and their re-parsing -/

theorem wrap64_eq_self (x : Int) (h1 : -(2 ^ 63) ≤ x) (h2 : x ≤ 2 ^ 63 - 1) :
    wrap64 x = x := by
  unfold wrap64
  rw [Int.emod_eq_of_lt (by omega) (by omega)]
  omega

theorem unit_valid_cases (u : Int) (h : unitIsValid u = true) :
    u = uLast ∨ u = uSecondly ∨ u = uDaily ∨ u = uMonthly ∨ u = uYearly := by
  simp only [unitIsValid, numUnits, decide_eq_true_eq] at h
  unfold uLast uSecondly uDaily uMonthly uYearly
  omega

theorem normalize_self_valid (pd : Period) (h : pd.normalize = (pd, true)) :
    unitIsValid pd.unit = true ∧ (pd.unit = uLast → pd.interval = 1) ∧
      (pd.unit ≠ uLast → 0 < pd.interval) := by
  unfold Period.normalize at h
  by_cases hl : pd.unit = uLast
  · rw [if_pos hl] at h
    rw [Prod.mk.injEq] at h
    refine ⟨h.2, fun _ => ?_, fun hne => absurd hl hne⟩
    have := congrArg Period.interval h.1
    simpa using this.symm
  · rw [if_neg hl] at h
    rw [Prod.mk.injEq] at h
    rcases Bool.and_eq_true_iff.mp h.2 with ⟨hv, hp⟩
    exact ⟨hv, fun he => absurd he hl, fun _ => by simpa using hp⟩

theorem ruleUnit_unitName (u : Int) (h : unitIsValid u = true) :
    ruleUnit (unitName u) = some u := by
  rcases unit_valid_cases u h with rfl | rfl | rfl | rfl | rfl <;> decide

theorem unitName_ne_nil (u : Int) (h : unitIsValid u = true) : unitName u ≠ [] := by
  rcases unit_valid_cases u h with rfl | rfl | rfl | rfl | rfl <;> decide

theorem unitName_chars (u : Int) (h : unitIsValid u = true) :
    ∀ ch ∈ unitName u, isSpaceAscii ch = false ∧ ch ≠ '@' ∧ ch ≠ ':' := by
  rcases unit_valid_cases u h with rfl | rfl | rfl | rfl | rfl <;> decide

theorem natToChars_not_mem (c : Char) (hc : isDigit c = false) (n : Nat) :
    c ∉ natToChars n := by
  intro h
  have := (List.all_eq_true.mp (natToChars_all_digits n)) c h
  rw [hc] at this
  exact absurd this (by decide)

theorem intToChars_pos (v : Int) (h : 0 < v) : intToChars v = natToChars v.toNat := by
  unfold intToChars
  rw [if_neg (by omega)]

theorem parseInt64_intToChars_pos (v : Int) (h1 : 0 < v) (h2 : v ≤ 2 ^ 63 - 1) :
    parseInt64 (intToChars v) = some v := by
  rw [intToChars_pos v h1]
  rw [parseInt64_natToChars v.toNat (by omega)]
  rw [Int.toNat_of_nonneg (by omega)]

theorem render_duration_chars (iv : Nat) (h60 : 60 ≤ iv) :
    ∀ ch ∈ durCompact (durString ((iv : Int) * 1000000000)),
      isDigit ch = true ∨ ch = 'h' ∨ ch = 'm' ∨ ch = 's' := by
  have hdig : ∀ (n : Nat) (ch : Char), ch ∈ natToChars n → isDigit ch = true :=
    fun n ch hm => (List.all_eq_true.mp (natToChars_all_digits n)) ch hm
  by_cases hlt : iv < 3600
  · rw [durString_minutes iv h60 hlt]
    by_cases hs : iv % 60 = 0
    · rw [hs, durCompact_minutes_s0 (iv / 60) (by omega)]
      intro ch hch
      rcases List.mem_append.mp hch with h | h
      · exact Or.inl (hdig _ _ h)
      · simp only [List.mem_singleton] at h
        exact Or.inr (Or.inr (Or.inl h))
    · rw [durCompact_minutes_sne (iv / 60) (iv % 60) hs]
      intro ch hch
      rcases List.mem_append.mp hch with h | h
      · exact Or.inl (hdig _ _ h)
      · rcases List.mem_cons.mp h with h | h
        · exact Or.inr (Or.inr (Or.inl h))
        · rcases List.mem_append.mp h with h | h
          · exact Or.inl (hdig _ _ h)
          · simp only [List.mem_singleton] at h
            exact Or.inr (Or.inr (Or.inr h))
  · rw [durString_hours iv (by omega)]
    by_cases hs : iv % 60 = 0
    · by_cases hm : iv / 60 % 60 = 0
      · rw [hs, hm, durCompact_hours_m0s0 (iv / 3600)]
        intro ch hch
        rcases List.mem_append.mp hch with h | h
        · exact Or.inl (hdig _ _ h)
        · simp only [List.mem_singleton] at h
          exact Or.inr (Or.inl h)
      · rw [hs, durCompact_hours_s0 (iv / 3600) (iv / 60 % 60) hm]
        intro ch hch
        rcases List.mem_append.mp hch with h | h
        · exact Or.inl (hdig _ _ h)
        · rcases List.mem_cons.mp h with h | h
          · exact Or.inr (Or.inl h)
          · rcases List.mem_append.mp h with h | h
            · exact Or.inl (hdig _ _ h)
            · simp only [List.mem_singleton] at h
              exact Or.inr (Or.inr (Or.inl h))
    · rw [durCompact_hours_sne (iv / 3600) (iv / 60 % 60) (iv % 60) hs]
      intro ch hch
      rcases List.mem_append.mp hch with h | h
      · exact Or.inl (hdig _ _ h)
      · rcases List.mem_cons.mp h with h | h
        · exact Or.inr (Or.inl h)
        · rcases List.mem_append.mp h with h | h
          · exact Or.inl (hdig _ _ h)
          · rcases List.mem_cons.mp h with h | h
            · exact Or.inr (Or.inr (Or.inl h))
            · rcases List.mem_append.mp h with h | h
              · exact Or.inl (hdig _ _ h)
              · simp only [List.mem_singleton] at h
                exact Or.inr (Or.inr (Or.inr h))

/-- The bounds under which a stored `(period, count)` entry re-parses exactly:
interval and count in the `int64` range rendered faithfully, and `secondly`
intervals below the `time.Duration` overflow threshold. -/
def EntryInv (pd : Period) (c : Int) : Prop :=
  1 ≤ pd.interval ∧ pd.interval ≤ 2 ^ 63 - 1 ∧
    (pd.unit = uSecondly → pd.interval ≤ 9223372036) ∧
    (c = -1 ∨ (1 ≤ c ∧ c ≤ 2 ^ 63 - 1))

theorem wrap_render_interval (pd : Period) (h1 : 1 ≤ pd.interval)
    (hsec : pd.interval ≤ 9223372036) :
    wrap64 (1000000000 * pd.interval) = ((pd.interval.toNat : Int)) * 1000000000 := by
  rw [wrap64_eq_self _ (by omega) (by omega)]
  rw [Int.toNat_of_nonneg (by omega)]
  ring

theorem digit_word_facts (c : Char) (h : isDigit c = true) :
    isSpaceAscii c = false ∧ c ≠ '@' ∧ c ≠ ':' := by
  refine ⟨?_, fun hc => by rw [hc] at h; exact absurd h (by decide),
    fun hc => by rw [hc] at h; exact absurd h (by decide)⟩
  cases hs : isSpaceAscii c with
  | false => rfl
  | true =>
    exfalso
    have hs' : c = ' ' ∨ c = '\t' ∨ c = '\n' ∨ c = Char.ofNat 11 ∨ c = Char.ofNat 12 ∨
        c = '\r' := by
      simpa [isSpaceAscii, or_assoc] using hs
    rcases hs' with rfl | rfl | rfl | rfl | rfl | rfl <;> exact absurd h (by decide)

/-- All characters of the rendered interval string (integer or duration form)
are word characters: not whitespace, `@`, or `:`. -/
theorem interval_chars (pd : Period) (h1 : 1 ≤ pd.interval) (h2 : pd.interval ≤ 2 ^ 63 - 1)
    (hsec : pd.unit = uSecondly → pd.interval ≤ 9223372036) :
    ∀ ch ∈ (if pd.unit = uSecondly ∧ pd.interval ≥ 60 then
        durCompact (durString (wrap64 (1000000000 * pd.interval)))
      else intToChars pd.interval),
      isSpaceAscii ch = false ∧ ch ≠ '@' ∧ ch ≠ ':' := by
  intro ch hch
  by_cases hc : pd.unit = uSecondly ∧ pd.interval ≥ 60
  · rw [if_pos hc, wrap_render_interval pd h1 (hsec hc.1)] at hch
    have := render_duration_chars pd.interval.toNat (by omega) ch hch
    rcases this with hd | rfl | rfl | rfl
    · exact digit_word_facts ch hd
    · exact ⟨by decide, by decide, by decide⟩
    · exact ⟨by decide, by decide, by decide⟩
    · exact ⟨by decide, by decide, by decide⟩
  · rw [if_neg hc, intToChars_pos _ (by omega)] at hch
    exact digit_word_facts ch ((List.all_eq_true.mp (natToChars_all_digits _)) ch hch)

/-- All characters of a rendered rule are non-whitespace. -/
theorem renderRule_not_space (pd : Period) (c : Int) (hnorm : pd.normalize = (pd, true))
    (hInv : EntryInv pd c) :
    ∀ ch ∈ renderRule pd c, isSpaceAscii ch = false := by
  obtain ⟨hvalid, _, _⟩ := normalize_self_valid pd hnorm
  obtain ⟨hi1, hi2, hisec, hcnt⟩ := hInv
  intro ch hch
  unfold renderRule at hch
  rcases List.mem_append.mp hch with h | h
  · rcases List.mem_append.mp h with h | h
    · by_cases hpos : 0 < c
      · rw [if_pos hpos] at h
        rcases List.mem_append.mp h with h | h
        · rw [intToChars_pos _ hpos] at h
          exact (digit_word_facts ch
            ((List.all_eq_true.mp (natToChars_all_digits _)) ch h)).1
        · simp only [List.mem_singleton] at h
          rw [h]; decide
      · rw [if_neg hpos] at h
        simp at h
    · exact (unitName_chars pd.unit hvalid ch h).1
  · by_cases hone : pd.interval ≠ 1
    · rw [if_pos hone] at h
      rcases List.mem_cons.mp h with h | h
      · rw [h]; decide
      · exact (interval_chars pd hi1 hi2 hisec ch h).1
    · rw [if_neg hone] at h
      simp at h

/-- A rendered rule is a nonempty word. -/
theorem renderRule_ne_nil (pd : Period) (c : Int) (hnorm : pd.normalize = (pd, true)) :
    renderRule pd c ≠ [] := by
  obtain ⟨hvalid, _, _⟩ := normalize_self_valid pd hnorm
  unfold renderRule
  intro h
  rcases List.append_eq_nil.mp h with ⟨h1, _⟩
  rcases List.append_eq_nil.mp h1 with ⟨_, h2⟩
  exact unitName_ne_nil pd.unit hvalid h2

theorem ruleParts_eq_found (s n u0 u x0 : List Char) (hasX : Bool)
    (h : cutChar '@' s = (n, u0, true)) (h2 : cutChar ':' u0 = (u, x0, hasX)) :
    ruleParts s = (n, u, if hasX then x0 else ['1']) := by
  unfold ruleParts
  rw [h]
  simp [h2]

theorem ruleParts_eq_notfound (s n u0 u x0 : List Char) (hasX : Bool)
    (h : cutChar '@' s = (n, u0, false)) (h2 : cutChar ':' n = (u, x0, hasX)) :
    ruleParts s = (['-', '1'], u, if hasX then x0 else ['1']) := by
  unfold ruleParts
  rw [h]
  simp [h2]

/-- `ruleParts` recovers the count, unit, and interval strings of a rendered
rule. -/
theorem ruleParts_renderRule (pd : Period) (c : Int)
    (hnorm : pd.normalize = (pd, true)) (hInv : EntryInv pd c) :
    ruleParts (renderRule pd c) =
      ((if 0 < c then intToChars c else ['-', '1']), unitName pd.unit,
        (if pd.interval = 1 then ['1'] else
          if pd.unit = uSecondly ∧ pd.interval ≥ 60 then
            durCompact (durString (wrap64 (1000000000 * pd.interval)))
          else intToChars pd.interval)) := by
  obtain ⟨hvalid, _, _⟩ := normalize_self_valid pd hnorm
  obtain ⟨hi1, hi2, hisec, hcnt⟩ := hInv
  have hUat : '@' ∉ unitName pd.unit := fun h => (unitName_chars pd.unit hvalid _ h).2.1 rfl
  have hUco : ':' ∉ unitName pd.unit := fun h => (unitName_chars pd.unit hvalid _ h).2.2 rfl
  have hIat : '@' ∉ (if pd.unit = uSecondly ∧ pd.interval ≥ 60 then
      durCompact (durString (wrap64 (1000000000 * pd.interval)))
    else intToChars pd.interval) :=
    fun h => (interval_chars pd hi1 hi2 hisec _ h).2.1 rfl
  have hCat : 0 < c → '@' ∉ intToChars c := by
    intro hpos
    rw [intToChars_pos _ hpos]
    exact natToChars_not_mem '@' (by decide) _
  by_cases hone : pd.interval = 1
  · have hR : renderRule pd c =
        (if 0 < c then intToChars c ++ ['@'] else []) ++ unitName pd.unit := by
      unfold renderRule
      rw [if_neg (show ¬ pd.interval ≠ 1 from not_not_intro hone)]
      simp
    by_cases hpos : 0 < c
    · rw [hR, if_pos hpos]
      have hsh : (intToChars c ++ ['@']) ++ unitName pd.unit =
          intToChars c ++ '@' :: unitName pd.unit := by simp
      rw [hsh]
      rw [ruleParts_eq_found _ _ _ _ _ _
        (cutChar_append '@' (intToChars c) (unitName pd.unit) (hCat hpos))
        (cutChar_not_mem ':' (unitName pd.unit) hUco)]
      rw [if_pos hpos, if_pos hone]
      rfl
    · rw [hR, if_neg hpos]
      rw [List.nil_append]
      rw [ruleParts_eq_notfound _ _ _ _ _ _
        (cutChar_not_mem '@' (unitName pd.unit) hUat)
        (cutChar_not_mem ':' (unitName pd.unit) hUco)]
      rw [if_neg hpos, if_pos hone]
      rfl
  · have hR : renderRule pd c =
        (if 0 < c then intToChars c ++ ['@'] else []) ++ (unitName pd.unit ++
          ':' :: (if pd.unit = uSecondly ∧ pd.interval ≥ 60 then
            durCompact (durString (wrap64 (1000000000 * pd.interval)))
          else intToChars pd.interval)) := by
      unfold renderRule
      rw [if_pos hone]
      simp
    have hnm : '@' ∉ unitName pd.unit ++ ':' :: (if pd.unit = uSecondly ∧
        pd.interval ≥ 60 then durCompact (durString (wrap64 (1000000000 * pd.interval)))
      else intToChars pd.interval) := by
      intro h
      rcases List.mem_append.mp h with h | h
      · exact hUat h
      · rcases List.mem_cons.mp h with h | h
        · exact absurd h.symm (by decide)
        · exact hIat h
    by_cases hpos : 0 < c
    · rw [hR, if_pos hpos]
      have hsh : (intToChars c ++ ['@']) ++ (unitName pd.unit ++
          ':' :: (if pd.unit = uSecondly ∧ pd.interval ≥ 60 then
            durCompact (durString (wrap64 (1000000000 * pd.interval)))
          else intToChars pd.interval)) =
          intToChars c ++ '@' :: (unitName pd.unit ++
          ':' :: (if pd.unit = uSecondly ∧ pd.interval ≥ 60 then
            durCompact (durString (wrap64 (1000000000 * pd.interval)))
          else intToChars pd.interval)) := by simp
      rw [hsh]
      rw [ruleParts_eq_found _ _ _ _ _ _
        (cutChar_append '@' (intToChars c) _ (hCat hpos))
        (cutChar_append ':' (unitName pd.unit) _ hUco)]
      rw [if_pos hpos, if_neg hone]
      rfl
    · rw [hR, if_neg hpos]
      rw [List.nil_append]
      rw [ruleParts_eq_notfound _ _ _ _ _ _
        (cutChar_not_mem '@' _ hnm)
        (cutChar_append ':' (unitName pd.unit) _ hUco)]
      rw [if_neg hpos, if_neg hone]
      rfl

theorem parseRule_eq (p : Policy) (s n u x : List Char) (h : ruleParts s = (n, u, x)) :
    parseRule p s =
      (match ruleUnit u with
      | none => .error (.unknownUnit s u)
      | some vu =>
        match parseInt64 n with
        | none => .error (.parseCount s n)
        | some vn =>
          if vn = 0 then .error (.zeroCount s)
          else
            match intervalVal vu x with
            | none => .error (.parseInterval s x)
            | some vx =>
              if vx < 1 then .error (.intervalNotPositive s)
              else if vu = uLast ∧ vx ≠ 1 then .error (.lastInterval s)
              else if p.get ⟨vu, vx⟩ ≠ 0 then .error (.duplicate s ⟨vu, vx⟩)
              else
                let (p', ok) := p.set ⟨vu, vx⟩ vn
                if ok then .ok p' else .error (.invalidPeriod s ⟨vu, vx⟩)) := by
  unfold parseRule
  rw [h]

theorem intervalVal_one (vu : Int) : intervalVal vu ['1'] = some 1 := by
  unfold intervalVal
  rw [show parseInt64 ['1'] = some 1 from by decide]

theorem intervalVal_int (vu : Int) (x : Int) (h1 : 0 < x) (h2 : x ≤ 2 ^ 63 - 1) :
    intervalVal vu (intToChars x) = some x := by
  unfold intervalVal
  rw [parseInt64_intToChars_pos x h1 h2]

theorem insertSorted_append_of_gt (l : List (Period × Int)) (pd : Period) (v : Int)
    (h : ∀ e ∈ l, e.1.ltP pd) : insertSorted l pd v = l ++ [(pd, v)] := by
  induction l with
  | nil => rfl
  | cons f t ih =>
    rcases f with ⟨q, w⟩
    have hf : q.ltP pd := h (q, w) (List.mem_cons_self _ _)
    unfold insertSorted
    rw [if_neg (show ¬ pd = q from fun he => ltP_irrefl pd (he ▸ hf))]
    rw [if_neg (show ¬ pd.ltP q from fun hl => ltP_irrefl pd (ltP_trans hl hf))]
    rw [ih fun e he => h e (List.mem_cons_of_mem _ he)]
    rfl

theorem get_zero_of_all_lt (l : List (Period × Int)) (pd : Period)
    (hnorm : pd.normalize = (pd, true)) (h : ∀ e ∈ l, e.1.ltP pd) :
    Policy.get ⟨l⟩ pd = 0 := by
  have hk : hasKey l pd = false := by
    cases hhk : hasKey l pd with
    | false => rfl
    | true =>
      exfalso
      rcases List.mem_map.mp ((hasKey_iff_mem l pd).mp hhk) with ⟨e, he, hfst⟩
      exact ltP_irrefl pd (hfst ▸ h e he)
  unfold Policy.get
  rw [hnorm]
  simp only [if_pos]
  exact lookup0_eq_zero_of_not_hasKey l pd hk

theorem set_append_of_gt (l : List (Period × Int)) (pd : Period) (c : Int)
    (hnorm : pd.normalize = (pd, true)) (hcs : c = -1 ∨ 1 ≤ c)
    (h : ∀ e ∈ l, e.1.ltP pd) :
    Policy.set ⟨l⟩ pd c = (⟨l ++ [(pd, c)]⟩, true) := by
  have hcount : (if c < 0 then -1 else c) = c := by
    rcases hcs with rfl | h1
    · norm_num
    · rw [if_neg (by omega)]
  have hne0 : ¬ c = 0 := by rcases hcs with rfl | h1 <;> omega
  unfold Policy.set
  rw [hnorm]
  simp only [hcount, if_neg hne0]
  rw [insertSorted_append_of_gt l pd c h]
  rfl

/-- Re-parsing a rendered rule appends exactly the entry it came from. -/
theorem parseRule_renderRule (l : List (Period × Int)) (pd : Period) (c : Int)
    (hnorm : pd.normalize = (pd, true)) (hInv : EntryInv pd c)
    (hgt : ∀ e ∈ l, e.1.ltP pd) :
    parseRule ⟨l⟩ (renderRule pd c) = .ok ⟨l ++ [(pd, c)]⟩ := by
  obtain ⟨hvalid, hlast1, _⟩ := normalize_self_valid pd hnorm
  obtain ⟨hi1, hi2, hisec, hcnt⟩ := hInv
  have hne0 : ¬ c = 0 := by rcases hcnt with rfl | ⟨h1, _⟩ <;> omega
  have hn : parseInt64 (if 0 < c then intToChars c else ['-', '1']) = some c := by
    by_cases hpos : 0 < c
    · rw [if_pos hpos]
      exact parseInt64_intToChars_pos c hpos (by rcases hcnt with rfl | ⟨_, h2⟩ <;> omega)
    · rw [if_neg hpos]
      rcases hcnt with rfl | ⟨h1, _⟩
      · decide
      · exact absurd (show (0 : Int) < c by omega) hpos
  have hx : intervalVal pd.unit (if pd.interval = 1 then ['1'] else
      if pd.unit = uSecondly ∧ pd.interval ≥ 60 then
        durCompact (durString (wrap64 (1000000000 * pd.interval)))
      else intToChars pd.interval) = some pd.interval := by
    by_cases hone : pd.interval = 1
    · rw [if_pos hone, intervalVal_one, hone]
    · rw [if_neg hone]
      by_cases hsec60 : pd.unit = uSecondly ∧ pd.interval ≥ 60
      · rw [if_pos hsec60, wrap_render_interval pd hi1 (hisec hsec60.1), hsec60.1]
        rw [intervalVal_render_duration pd.interval.toNat (by omega)
          (by have := hisec hsec60.1; omega)]
        rw [Int.toNat_of_nonneg (by omega)]
      · rw [if_neg hsec60]
        exact intervalVal_int pd.unit pd.interval (by omega) hi2
  have heta : (⟨pd.unit, pd.interval⟩ : Period) = pd := rfl
  rw [parseRule_eq _ _ _ _ _ (ruleParts_renderRule pd c hnorm ⟨hi1, hi2, hisec, hcnt⟩)]
  simp only [ruleUnit_unitName pd.unit hvalid, hn, hx, heta]
  rw [if_neg hne0]
  rw [if_neg (show ¬ pd.interval < 1 from by omega)]
  rw [if_neg (show ¬ (pd.unit = uLast ∧ pd.interval ≠ 1) from by
    rintro ⟨hl, hne⟩; exact hne (hlast1 hl))]
  rw [if_neg (show ¬ Policy.get ⟨l⟩ pd ≠ 0 from
    not_not_intro (get_zero_of_all_lt l pd hnorm hgt))]
  rw [set_append_of_gt l pd c hnorm (by rcases hcnt with rfl | ⟨h1, _⟩ <;> omega) hgt]
  rfl

/-! ## Bounds carried by a successful parse -/

theorem insertSorted_pairwise (l : List (Period × Int)) (pd : Period) (v : Int)
    (hp : l.Pairwise fun a b => a.1.ltP b.1) :
    (insertSorted l pd v).Pairwise fun a b => a.1.ltP b.1 := by
  induction l with
  | nil => simp [insertSorted]
  | cons f t ih =>
    rcases f with ⟨q, w⟩
    rcases List.pairwise_cons.mp hp with ⟨hhead, htail⟩
    by_cases heq : pd = q
    · unfold insertSorted
      rw [if_pos heq]
      exact List.pairwise_cons.mpr ⟨fun e he => heq ▸ hhead e he, htail⟩
    · by_cases hlt : pd.ltP q
      · unfold insertSorted
        rw [if_neg heq, if_pos hlt]
        refine List.pairwise_cons.mpr ⟨?_, hp⟩
        intro e he
        rcases List.mem_cons.mp he with rfl | he'
        · exact hlt
        · exact ltP_trans hlt (hhead e he')
      · unfold insertSorted
        rw [if_neg heq, if_neg hlt]
        refine List.pairwise_cons.mpr ⟨?_, ih htail⟩
        intro e he
        rcases mem_insertSorted t pd v e he with he' | rfl
        · exact hhead e he'
        · by_contra hq
          exact heq (ltP_total hlt hq)

theorem normalize_idem (pd pd2 : Period) (h : pd.normalize = (pd2, true)) :
    pd2.normalize = (pd2, true) := by
  unfold Period.normalize at h ⊢
  by_cases hl : pd.unit = uLast
  · rw [if_pos hl] at h
    rw [Prod.mk.injEq] at h
    obtain ⟨h1, _⟩ := h
    have hu : pd2.unit = uLast := by rw [← h1]; exact hl
    have hi : pd2.interval = 1 := by rw [← h1]
    rw [if_pos hu]
    have he : ({ pd2 with interval := 1 } : Period) = pd2 := by
      rw [show ({ pd2 with interval := 1 } : Period) = ⟨pd2.unit, 1⟩ from rfl, ← hi]
    rw [he, hu]
    rw [show unitIsValid uLast = true from by decide]
  · rw [if_neg hl] at h
    rw [Prod.mk.injEq] at h
    obtain ⟨h1, h2⟩ := h
    rw [← h1]
    rw [if_neg hl]
    rw [h2]

theorem parseInt64_bound (s : List Char) (v : Int) (h : parseInt64 s = some v) :
    -(2 ^ 63) ≤ v ∧ v ≤ 2 ^ 63 - 1 := by
  unfold parseInt64 at h
  rcases hss : stripSign s with ⟨neg, ds⟩
  rw [hss] at h
  simp only at h
  repeat' split at h
  all_goals first
    | (injection h with h'; subst h'; assumption)
    | exact absurd h (by simp)

theorem parseDurLoop_le (fuel : Nat) : ∀ (s : List Char) (d r : Nat),
    parseDurLoop fuel s d = some r → d ≤ 2 ^ 63 → r ≤ 2 ^ 63 := by
  induction fuel with
  | zero =>
    intro s d r h _
    exact absurd h (by simp [parseDurLoop])
  | succ n ih =>
    intro s d r h hd
    cases s with
    | nil =>
      have h' : some d = some r := h
      injection h' with h''
      omega
    | cons c t =>
      unfold parseDurLoop at h
      split at h
      · exact absurd h (by simp)
      · rcases hli : leadingInt 0 (c :: t) with _ | ⟨v, s1⟩
        · rw [hli] at h
          exact absurd h (by simp)
        · rw [hli] at h
          simp only at h
          repeat' split at h
          all_goals first
            | exact ih _ _ _ h (by omega)
            | simp at h

theorem parseDuration_bound (s : List Char) (d : Int) (h : parseDuration s = some d) :
    -(2 ^ 63) ≤ d ∧ d ≤ 2 ^ 63 - 1 := by
  unfold parseDuration at h
  simp only at h
  generalize hs1 : (if s.head? = some '-' ∨ s.head? = some '+' then s.tail else s) = s1 at h
  generalize hneg : (s.head? == some '-') = negb at h
  split at h
  · injection h with h'
    subst h'
    norm_num
  · split at h
    · exact absurd h (by simp)
    · rcases hloop : parseDurLoop (s1.length + 1) s1 0 with _ | dn
      · rw [hloop] at h
        exact absurd h (by simp)
      · rw [hloop] at h
        have hdn : dn ≤ 2 ^ 63 := parseDurLoop_le _ _ _ _ hloop (by omega)
        have hdn' : (dn : Int) ≤ 2 ^ 63 := by exact_mod_cast hdn
        simp only at h
        split at h
        · injection h with h'
          subst h'
          constructor <;> omega
        · split at h
          · exact absurd h (by simp)
          · injection h with h'
            subst h'
            constructor <;> omega

theorem intervalVal_bound (vu : Int) (x : List Char) (vx : Int)
    (h : intervalVal vu x = some vx) : vx ≤ 2 ^ 63 - 1 := by
  unfold intervalVal at h
  rcases hpi : parseInt64 x with _ | v
  · rw [hpi] at h
    simp only at h
    split at h
    · rcases hpd : parseDuration x with _ | dd
      · rw [hpd] at h
        exact absurd h (by simp)
      · rw [hpd] at h
        rw [Option.map_some'] at h
        injection h with h'
        subst h'
        rcases parseDuration_bound x dd hpd with ⟨hb1, hb2⟩
        have habs : (dd.tdiv 1000000000).natAbs = dd.natAbs / 1000000000 := by
          rw [Int.natAbs_tdiv]
          rfl
        have h1 : dd.tdiv 1000000000 ≤ ((dd.tdiv 1000000000).natAbs : Int) := Int.le_natAbs
        have h2 : dd.natAbs ≤ 2 ^ 63 := by omega
        have h3 : dd.natAbs / 1000000000 ≤ 9223372036 := by omega
        rw [habs] at h1
        have h4 : ((dd.natAbs / 1000000000 : Nat) : Int) ≤ 9223372036 := by exact_mod_cast h3
        omega
    · exact absurd h (by simp)
  · rw [hpi] at h
    injection h with h'
    subst h'
    exact (parseInt64_bound x v hpi).2

/-- Everything a successful `parseRule` step establishes. -/
theorem parseRule_ok_cases (p p' : Policy) (s : List Char) (h : parseRule p s = .ok p') :
    ∃ vu vn vx, ruleUnit (ruleParts s).2.1 = some vu ∧
      parseInt64 (ruleParts s).1 = some vn ∧ vn ≠ 0 ∧
      intervalVal vu (ruleParts s).2.2 = some vx ∧ 1 ≤ vx ∧
      ¬(vu = uLast ∧ vx ≠ 1) ∧ p.get ⟨vu, vx⟩ = 0 ∧
      Policy.set p ⟨vu, vx⟩ vn = (p', true) := by
  rcases hrp : ruleParts s with ⟨n, u, x⟩
  rw [parseRule_eq p s n u x hrp] at h
  rcases hru : ruleUnit u with _ | vu
  · simp [hru] at h
  · simp only [hru] at h
    rcases hpn : parseInt64 n with _ | vn
    · simp [hpn] at h
    · simp only [hpn] at h
      by_cases hvn0 : vn = 0
      · rw [if_pos hvn0] at h
        simp at h
      · rw [if_neg hvn0] at h
        rcases hx : intervalVal vu x with _ | vx
        · simp [hx] at h
        · simp only [hx] at h
          by_cases hvx1 : vx < 1
          · rw [if_pos hvx1] at h
            simp at h
          · rw [if_neg hvx1] at h
            by_cases hlast : vu = uLast ∧ vx ≠ 1
            · rw [if_pos hlast] at h
              simp at h
            · rw [if_neg hlast] at h
              by_cases hdup : p.get ⟨vu, vx⟩ ≠ 0
              · rw [if_pos hdup] at h
                simp at h
              · rw [if_neg hdup] at h
                rcases hset : p.set ⟨vu, vx⟩ vn with ⟨p2, ok⟩
                simp only [hset] at h
                cases ok with
                | false => simp at h
                | true =>
                  have hp2 : p2 = p' := by simpa using h
                  subst hp2
                  refine ⟨vu, vn, vx, ?_, ?_, hvn0, ?_, by omega, hlast,
                    not_not.mp hdup, hset⟩
                  · rfl
                  · rfl
                  · exact hx

/-- The invariant every policy built by `ParsePolicy` satisfies. -/
def PolInv (p : Policy) : Prop :=
  p.WF ∧ ∀ e ∈ p.entries,
    e.1.interval ≤ 2 ^ 63 - 1 ∧ (e.2 = -1 ∨ (1 ≤ e.2 ∧ e.2 ≤ 2 ^ 63 - 1))

theorem parseRule_inv (p p' : Policy) (s : List Char) (h : parseRule p s = .ok p')
    (hp : PolInv p) : PolInv p' := by
  obtain ⟨vu, vn, vx, hru, hpn, hvn0, hx, hvx1, hlast, hdup, hset⟩ :=
    parseRule_ok_cases p p' s h
  obtain ⟨⟨hpw, hpnorm⟩, hbounds⟩ := hp
  have hvxb : vx ≤ 2 ^ 63 - 1 := intervalVal_bound vu _ vx hx
  have hvnb := parseInt64_bound _ vn hpn
  unfold Policy.set at hset
  rcases hn2 : Period.normalize ⟨vu, vx⟩ with ⟨pd2, ok2⟩
  simp only [hn2] at hset
  cases ok2 with
  | false => simp at hset
  | true =>
    have hcount0 : ¬ (if vn < 0 then (-1 : Int) else vn) = 0 := by
      split <;> omega
    rw [if_pos rfl] at hset
    rw [if_neg hcount0] at hset
    rw [Prod.mk.injEq] at hset
    obtain ⟨hp'e, _⟩ := hset
    have hent : p'.entries = insertSorted p.entries pd2 (if vn < 0 then -1 else vn) := by
      rw [← hp'e]
    have hi2 : pd2.interval = 1 ∨ pd2.interval = vx := by
      unfold Period.normalize at hn2
      by_cases hL : vu = uLast
      · rw [if_pos hL, Prod.mk.injEq] at hn2
        left
        rw [← hn2.1]
      · rw [if_neg hL, Prod.mk.injEq] at hn2
        right
        rw [← hn2.1]
    refine ⟨⟨?_, ?_⟩, ?_⟩
    · rw [hent]
      exact insertSorted_pairwise _ _ _ hpw
    · intro e he
      rw [hent] at he
      rcases mem_insertSorted _ _ _ e he with he' | rfl
      · exact hpnorm e he'
      · exact normalize_idem ⟨vu, vx⟩ pd2 hn2
    · intro e he
      rw [hent] at he
      rcases mem_insertSorted _ _ _ e he with he' | rfl
      · exact hbounds e he'
      · constructor
        · rcases hi2 with h2 | h2 <;> rw [h2] <;> omega
        · split <;> omega

theorem parsePolicyAux_inv (rs : List (List Char)) : ∀ p q : Policy, PolInv p →
    parsePolicyAux p rs = (q, none) → PolInv q := by
  induction rs with
  | nil =>
    intro p q hp h
    unfold parsePolicyAux at h
    rw [Prod.mk.injEq] at h
    rw [← h.1]
    exact hp
  | cons s t ih =>
    intro p q hp h
    unfold parsePolicyAux at h
    rcases hpr : parseRule p s with e | p1
    · simp [hpr] at h
    · simp only [hpr] at h
      exact ih p1 q (parseRule_inv p p1 s hpr hp) h

theorem parsePolicyGo_inv (rs : List (List Char)) (p : Policy)
    (h : parsePolicyGo rs = (p, none)) : PolInv p := by
  refine parsePolicyAux_inv rs ⟨[]⟩ p ⟨⟨List.Pairwise.nil, ?_⟩, ?_⟩ h <;>
    intro e he <;> simp at he

theorem polInv_entryInv (p : Policy) (hp : PolInv p)
    (hsec : ∀ e ∈ p.entries, e.1.unit = uSecondly → e.1.interval ≤ 9223372036) :
    ∀ e ∈ p.entries, EntryInv e.1 e.2 := by
  intro e he
  obtain ⟨⟨_, hnorm⟩, hb⟩ := hp
  obtain ⟨hvalid, hlast, hpos⟩ := normalize_self_valid e.1 (hnorm e he)
  refine ⟨?_, (hb e he).1, hsec e he, (hb e he).2⟩
  by_cases hL : e.1.unit = uLast
  · have := hlast hL
    omega
  · have := hpos hL
    omega

/-! ## `MarshalText` over a sorted policy, and its re-parse -/

theorem map_lookup0_self (l : List (Period × Int)) :
    l.Pairwise (fun a b => a.1.ltP b.1) →
    (l.map Prod.fst).map (fun pd => (pd, lookup0 l pd)) = l := by
  induction l with
  | nil => intro _; rfl
  | cons e t ih =>
    intro hp
    rcases List.pairwise_cons.mp hp with ⟨hhead, htail⟩
    rw [List.map_cons, List.map_cons]
    congr 1
    · rw [lookup0_cons, if_pos rfl]
    · have hcong : ∀ pd ∈ t.map Prod.fst,
          (pd, lookup0 (e :: t) pd) = (pd, lookup0 t pd) := by
        intro pd hpd
        rcases List.mem_map.mp hpd with ⟨f, hf, rfl⟩
        have hne : e.1 ≠ f.1 := fun he => ltP_irrefl f.1 (he ▸ hhead f hf)
        rw [lookup0_cons, if_neg hne]
      rw [List.map_congr_left hcong]
      exact ih htail

theorem eachEntries_sorted (p : Policy)
    (hp : p.entries.Pairwise fun a b => a.1.ltP b.1) : eachEntries p = p.entries := by
  unfold eachEntries eachKeys
  rw [sortPeriods_of_pairwise _ (List.pairwise_map.mpr hp)]
  exact map_lookup0_self p.entries hp

theorem fields_marshalText (p : Policy)
    (hp : p.entries.Pairwise fun a b => a.1.ltP b.1)
    (hnorm : ∀ e ∈ p.entries, e.1.normalize = (e.1, true))
    (hInv : ∀ e ∈ p.entries, EntryInv e.1 e.2) :
    fields (marshalText p) = p.entries.map fun e => renderRule e.1 e.2 := by
  unfold marshalText
  rw [eachEntries_sorted p hp]
  rw [show (p.entries.map fun e => renderRule e.1 e.2) =
    p.entries.map fun e => renderRule e.1 e.2 from rfl]
  apply fields_joinSpace
  intro w hw
  rcases List.mem_map.mp hw with ⟨e, he, rfl⟩
  exact ⟨renderRule_ne_nil e.1 e.2 (hnorm e he),
    renderRule_not_space e.1 e.2 (hnorm e he) (hInv e he)⟩

theorem parsePolicyAux_render (todo : List (Period × Int)) :
    ∀ done : List (Period × Int),
    (∀ e ∈ todo, e.1.normalize = (e.1, true) ∧ EntryInv e.1 e.2) →
    (∀ e ∈ done, ∀ f ∈ todo, e.1.ltP f.1) →
    todo.Pairwise (fun a b => a.1.ltP b.1) →
    parsePolicyAux ⟨done⟩ (todo.map fun e => renderRule e.1 e.2) = (⟨done ++ todo⟩, none) := by
  induction todo with
  | nil =>
    intro done _ _ _
    rw [List.map_nil, List.append_nil]
    rfl
  | cons e t ih =>
    intro done hok hlt hp
    rw [List.map_cons]
    have hstep : parseRule ⟨done⟩ (renderRule e.1 e.2) = .ok ⟨done ++ [e]⟩ := by
      have h := parseRule_renderRule done e.1 e.2 (hok e (List.mem_cons_self _ _)).1
        (hok e (List.mem_cons_self _ _)).2
        (fun f hf => hlt f hf e (List.mem_cons_self _ _))
      exact h
    unfold parsePolicyAux
    rw [hstep]
    simp only
    rw [ih (done ++ [e])
      (fun f hf => hok f (List.mem_cons_of_mem _ hf))
      (by
        intro f hf g hg
        rcases List.mem_append.mp hf with hf' | hf'
        · exact hlt f hf' g (List.mem_cons_of_mem _ hg)
        · simp only [List.mem_singleton] at hf'
          subst hf'
          exact (List.pairwise_cons.mp hp).1 g hg)
      (List.pairwise_cons.mp hp).2]
    rw [List.append_assoc]
    rfl

/-! ## C5: the text-form round trip -/

def c5Rule : List Char := "secondly:9223372037".toList

/-- C5 (counterexample): `ParsePolicy ["secondly:9223372037"]` succeeds, but
rendering the parsed policy wraps `time.Second * interval` past `int64` (to
`secondly:-2562047h47m16.709551616s`), and re-parsing the rendered form
fails — so the round trip does not hold for every accepted rule list. -/
theorem parse_render_parse_fails_on_overflow :
    (parsePolicyGo [c5Rule]).2 = none ∧
      (parsePolicyGo (fields (marshalText (parsePolicyGo [c5Rule]).1))).2 ≠ none := by
  decide

/-- C5 (amended): for every rule list that `ParsePolicy` accepts whose parsed
policy keeps each `secondly` interval at most 9223372036 (the threshold under
which `time.Second * interval` does not overflow `int64`), re-parsing the
rendered form reproduces the policy exactly with no error (hence the second
rendering is byte-identical); moreover the rendering emits one word per
stored rule in the canonical `Period` order, omits the `N@` count prefix for
the infinite sentinel, and omits `:X` when the interval is 1. -/
theorem parse_render_parse_roundtrip (rules : List (List Char)) (p : Policy)
    (hparse : parsePolicyGo rules = (p, none))
    (hsec : ∀ e ∈ p.entries, e.1.unit = uSecondly → e.1.interval ≤ 9223372036) :
    parsePolicyGo (fields (marshalText p)) = (p, none) ∧
      marshalText ((parsePolicyGo (fields (marshalText p))).1) = marshalText p ∧
      fields (marshalText p) = (p.entries.map fun e => renderRule e.1 e.2) ∧
      p.entries.Pairwise (fun a b => a.1.ltP b.1) ∧
      (∀ e ∈ p.entries, e.2 < 0 → '@' ∉ renderRule e.1 e.2) ∧
      (∀ e ∈ p.entries, e.1.interval = 1 → ':' ∉ renderRule e.1 e.2) := by
  have hinv := parsePolicyGo_inv rules p hparse
  obtain ⟨⟨hpw, hpnorm⟩, hbounds⟩ := hinv
  have hEntry := polInv_entryInv p ⟨⟨hpw, hpnorm⟩, hbounds⟩ hsec
  have hfields : fields (marshalText p) = p.entries.map fun e => renderRule e.1 e.2 :=
    fields_marshalText p hpw hpnorm hEntry
  have hreparse : parsePolicyGo (fields (marshalText p)) = (p, none) := by
    rw [hfields]
    exact parsePolicyAux_render p.entries []
      (fun e he => ⟨hpnorm e he, hEntry e he⟩)
      (by intro e he; simp at he)
      hpw
  refine ⟨hreparse, ?_, hfields, hpw, ?_, ?_⟩
  · rw [hreparse]
  · intro e he hneg
    unfold renderRule
    rw [if_neg (by omega : ¬ (0 : Int) < e.2)]
    rw [List.nil_append]
    intro hmem
    rcases List.mem_append.mp hmem with h | h
    · obtain ⟨hvalid, _, _⟩ := normalize_self_valid e.1 (hpnorm e he)
      exact (unitName_chars e.1.unit hvalid '@' h).2.1 rfl
    · by_cases hone : e.1.interval ≠ 1
      · rw [if_pos hone] at h
        rcases List.mem_cons.mp h with h | h
        · exact absurd h.symm (by decide)
        · obtain ⟨hi1, hi2, hisec, _⟩ := hEntry e he
          exact (interval_chars e.1 hi1 hi2 hisec '@' h).2.1 rfl
      · rw [if_neg hone] at h
        simp at h
  · intro e he hone
    unfold renderRule
    rw [if_neg (show ¬ e.1.interval ≠ 1 from not_not_intro hone)]
    rw [List.append_nil]
    intro hmem
    rcases List.mem_append.mp hmem with h | h
    · by_cases hpos : 0 < e.2
      · rw [if_pos hpos] at h
        rcases List.mem_append.mp h with h | h
        · rw [intToChars_pos _ hpos] at h
          exact natToChars_not_mem ':' (by decide) _ h
        · simp only [List.mem_singleton] at h
          exact absurd h (by decide)
      · rw [if_neg hpos] at h
        simp at h
    · obtain ⟨hvalid, _, _⟩ := normalize_self_valid e.1 (hpnorm e he)
      exact (unitName_chars e.1.unit hvalid ':' h).2.2 rfl

def c5WitnessRules : List (List Char) :=
  ["1@last".toList, "secondly:1h30m".toList, "7@daily".toList, "3@monthly:2".toList,
    "yearly".toList]

/-- Witness for C5 at a concrete accepted rule list covering all five units,
count prefixes, and a `secondly` duration interval. -/
theorem parse_render_parse_roundtrip_witness :
    parsePolicyGo c5WitnessRules = ((parsePolicyGo c5WitnessRules).1, none) ∧
      parsePolicyGo (fields (marshalText (parsePolicyGo c5WitnessRules).1)) =
        ((parsePolicyGo c5WitnessRules).1, none) :=
  ⟨by decide,
    (parse_render_parse_roundtrip c5WitnessRules (parsePolicyGo c5WitnessRules).1
      (by decide) (by decide)).1⟩

/-! ## C6: the parse error taxonomy -/

/-- The grammar defects of one rule against the policy built so far, in the
source's check order: unknown unit, non-integer count, zero count,
unparseable interval, non-positive interval, `last` with interval ≠ 1, or a
duplicate normalized `unit:interval` pair. -/
def ruleDefect (p : Policy) (s : List Char) : Prop :=
  match ruleUnit (ruleParts s).2.1 with
  | none => True
  | some vu =>
    match parseInt64 (ruleParts s).1 with
    | none => True
    | some vn =>
      vn = 0 ∨
        match intervalVal vu (ruleParts s).2.2 with
        | none => True
        | some vx => vx < 1 ∨ (vu = uLast ∧ vx ≠ 1) ∨ p.get ⟨vu, vx⟩ ≠ 0

/-- The offending rule string each error reports. -/
def errRule : ParseErr → List Char
  | .unknownUnit r _ => r
  | .parseCount r _ => r
  | .zeroCount r => r
  | .parseInterval r _ => r
  | .intervalNotPositive r => r
  | .lastInterval r => r
  | .duplicate r _ => r
  | .invalidPeriod r _ => r

/-- The errors of the documented taxonomy (everything except the unreachable
`invalid period` case). -/
def isGrammarErr : ParseErr → Prop
  | .invalidPeriod _ _ => False
  | _ => True

theorem ruleUnit_valid (u : List Char) (vu : Int) (h : ruleUnit u = some vu) :
    unitIsValid vu = true := by
  unfold ruleUnit at h
  by_cases h1 : toLowerAscii u = unitName uLast
  · rw [if_pos h1] at h
    injection h with h'
    subst h'
    decide
  · rw [if_neg h1] at h
    by_cases h2 : toLowerAscii u = unitName uSecondly
    · rw [if_pos h2] at h
      injection h with h'
      subst h'
      decide
    · rw [if_neg h2] at h
      by_cases h3 : toLowerAscii u = unitName uDaily
      · rw [if_pos h3] at h
        injection h with h'
        subst h'
        decide
      · rw [if_neg h3] at h
        by_cases h4 : toLowerAscii u = unitName uMonthly
        · rw [if_pos h4] at h
          injection h with h'
          subst h'
          decide
        · rw [if_neg h4] at h
          by_cases h5 : toLowerAscii u = unitName uYearly
          · rw [if_pos h5] at h
            injection h with h'
            subst h'
            decide
          · rw [if_neg h5] at h
            simp at h

theorem normalize_ok (pd : Period) (hvalid : unitIsValid pd.unit = true)
    (hpos : 0 < pd.interval) : (pd.normalize).2 = true := by
  unfold Period.normalize
  split <;> simp [hvalid, hpos]

theorem set_snd_true (p : Policy) (pd : Period) (vn : Int)
    (hvalid : unitIsValid pd.unit = true) (hpos : 0 < pd.interval) :
    ∃ q, p.set pd vn = (q, true) := by
  have hok : (pd.normalize).2 = true := normalize_ok pd hvalid hpos
  rcases hn : pd.normalize with ⟨pd2, ok2⟩
  rw [hn] at hok
  simp only at hok
  subst hok
  unfold Policy.set
  rw [hn]
  exact ⟨_, rfl⟩

/-- A failing `parseRule` step exhibits a defect of the taxonomy, names the
offending rule, and never reports the unreachable `invalid period` case. -/
theorem parseRule_error_defect (p : Policy) (s : List Char) (e : ParseErr)
    (h : parseRule p s = .error e) :
    ruleDefect p s ∧ errRule e = s ∧ isGrammarErr e := by
  rcases hrp : ruleParts s with ⟨n, u, x⟩
  rw [parseRule_eq p s n u x hrp] at h
  unfold ruleDefect
  rw [hrp]
  simp only
  rcases hru : ruleUnit u with _ | vu
  · simp only [hru] at h ⊢
    injection h with h'
    subst h'
    exact ⟨trivial, rfl, trivial⟩
  · simp only [hru] at h ⊢
    rcases hpn : parseInt64 n with _ | vn
    · simp only [hpn] at h ⊢
      injection h with h'
      subst h'
      exact ⟨trivial, rfl, trivial⟩
    · simp only [hpn] at h ⊢
      by_cases hvn0 : vn = 0
      · rw [if_pos hvn0] at h
        injection h with h'
        subst h'
        exact ⟨Or.inl hvn0, rfl, trivial⟩
      · rw [if_neg hvn0] at h
        rcases hx : intervalVal vu x with _ | vx
        · simp only [hx] at h ⊢
          injection h with h'
          subst h'
          exact ⟨Or.inr trivial, rfl, trivial⟩
        · simp only [hx] at h ⊢
          by_cases hvx1 : vx < 1
          · rw [if_pos hvx1] at h
            injection h with h'
            subst h'
            exact ⟨Or.inr (Or.inl hvx1), rfl, trivial⟩
          · rw [if_neg hvx1] at h
            by_cases hlast : vu = uLast ∧ vx ≠ 1
            · rw [if_pos hlast] at h
              injection h with h'
              subst h'
              exact ⟨Or.inr (Or.inr (Or.inl hlast)), rfl, trivial⟩
            · rw [if_neg hlast] at h
              by_cases hdup : p.get ⟨vu, vx⟩ ≠ 0
              · rw [if_pos hdup] at h
                injection h with h'
                subst h'
                exact ⟨Or.inr (Or.inr (Or.inr hdup)), rfl, trivial⟩
              · rw [if_neg hdup] at h
                exfalso
                obtain ⟨q, hq⟩ := set_snd_true p ⟨vu, vx⟩ vn
                  (ruleUnit_valid u vu hru) (show (0 : Int) < vx by omega)
                rw [hq] at h
                simp at h

/-- A defect-free rule parses successfully. -/
theorem parseRule_ok_of_not_defect (p : Policy) (s : List Char)
    (h : ¬ ruleDefect p s) : ∃ p', parseRule p s = .ok p' := by
  rcases hrp : ruleParts s with ⟨n, u, x⟩
  rw [parseRule_eq p s n u x hrp]
  unfold ruleDefect at h
  rw [hrp] at h
  simp only at h
  rcases hru : ruleUnit u with _ | vu
  · rw [hru] at h
    exact absurd trivial h
  · simp only [hru] at h ⊢
    rcases hpn : parseInt64 n with _ | vn
    · rw [hpn] at h
      exact absurd trivial h
    · simp only [hpn] at h ⊢
      push_neg at h
      obtain ⟨hvn0, h2⟩ := h
      rw [if_neg hvn0]
      rcases hx : intervalVal vu x with _ | vx
      · rw [hx] at h2
        exact absurd trivial h2
      · simp only [hx] at h2 ⊢
        push_neg at h2
        obtain ⟨hvx1, hlast, hdup⟩ := h2
        rw [if_neg (show ¬ vx < 1 from by omega)]
        rw [if_neg (show ¬ (vu = uLast ∧ vx ≠ 1) from by
          rintro ⟨ha, hb⟩
          exact hb (hlast ha))]
        rw [if_neg (show ¬ p.get ⟨vu, vx⟩ ≠ 0 from not_not_intro hdup)]
        obtain ⟨q, hq⟩ := set_snd_true p ⟨vu, vx⟩ vn (ruleUnit_valid u vu hru)
          (show (0 : Int) < vx by omega)
        rw [hq]
        exact ⟨q, rfl⟩

/-- A defective rule makes `parseRule` fail. -/
theorem parseRule_error_of_defect (p : Policy) (s : List Char)
    (h : ruleDefect p s) : ∃ e, parseRule p s = .error e := by
  rcases he : parseRule p s with e | p'
  · exact ⟨e, rfl⟩
  · exfalso
    obtain ⟨vu, vn, vx, hru, hpn, hvn0, hx, hvx1, hlast, hdup, _⟩ :=
      parseRule_ok_cases p p' s he
    unfold ruleDefect at h
    simp only [hru, hpn, hx] at h
    rcases h with h | h | h | h
    · exact hvn0 h
    · omega
    · exact hlast h
    · exact h hdup

theorem parsePolicyAux_append (a b : List (List Char)) : ∀ p : Policy,
    parsePolicyAux p (a ++ b) =
      (match parsePolicyAux p a with
       | (q, none) => parsePolicyAux q b
       | (q, some e) => (q, some e)) := by
  induction a with
  | nil =>
    intro p
    rfl
  | cons s t ih =>
    intro p
    rw [List.cons_append]
    show (match parseRule p s with
      | .error e => (p, some e)
      | .ok p' => parsePolicyAux p' (t ++ b)) = _
    rcases hpr : parseRule p s with e | p1
    · simp only
      show (p, some e) =
        (match (match parseRule p s with
          | .error e => (p, some e)
          | .ok p' => parsePolicyAux p' t) with
          | (q, none) => parsePolicyAux q b
          | (q, some e) => (q, some e))
      rw [hpr]
    · simp only
      show parsePolicyAux p1 (t ++ b) =
        (match (match parseRule p s with
          | .error e => (p, some e)
          | .ok p' => parsePolicyAux p' t) with
          | (q, none) => parsePolicyAux q b
          | (q, some e) => (q, some e))
      rw [hpr]
      exact ih p1

/-- An error run stops at the first failing rule: the prefix parses clean,
the failing rule's `parseRule` is the reported error, and the returned
partial policy is the prefix's. -/
theorem parsePolicyAux_err (rs : List (List Char)) : ∀ (p q : Policy) (e : ParseErr),
    parsePolicyAux p rs = (q, some e) →
    ∃ pre s post, rs = pre ++ s :: post ∧
      (parsePolicyAux p pre).2 = none ∧
      parseRule (parsePolicyAux p pre).1 s = .error e ∧
      q = (parsePolicyAux p pre).1 := by
  induction rs with
  | nil =>
    intro p q e h
    exact absurd h (by simp [parsePolicyAux])
  | cons s t ih =>
    intro p q e h
    unfold parsePolicyAux at h
    rcases hpr : parseRule p s with e1 | p1
    · simp only [hpr] at h
      rw [Prod.mk.injEq] at h
      obtain ⟨h1, h2⟩ := h
      injection h2 with h2
      subst h2
      exact ⟨[], s, t, rfl, rfl, hpr, h1.symm⟩
    · simp only [hpr] at h
      obtain ⟨pre, s2, post, hsplit, hnone, herr, hq⟩ := ih p1 q e h
      have hpre : parsePolicyAux p (s :: pre) = parsePolicyAux p1 pre := by
        show (match parseRule p s with
          | Except.error e => (p, some e)
          | Except.ok p' => parsePolicyAux p' pre) = parsePolicyAux p1 pre
        rw [hpr]
      refine ⟨s :: pre, s2, post, by rw [hsplit]; rfl, ?_, ?_, ?_⟩
      · rw [hpre]; exact hnone
      · rw [hpre]; exact herr
      · rw [hpre]; exact hq

theorem get_eq (p : Policy) (pd pd2 : Period) (h : pd.normalize = (pd2, true)) :
    p.get pd = lookup0 p.entries pd2 := by
  unfold Policy.get
  rw [h]
  rfl

theorem get_zero_of_normalize_fail (p : Policy) (pd pd2 : Period)
    (h : pd.normalize = (pd2, false)) : p.get pd = 0 := by
  unfold Policy.get
  rw [h]
  rfl

theorem lookup0_insertSorted_ne (l : List (Period × Int)) (pd q : Period) (v : Int)
    (h : q ≠ pd) : lookup0 (insertSorted l pd v) q = lookup0 l q := by
  induction l with
  | nil =>
    show lookup0 [(pd, v)] q = lookup0 [] q
    rw [lookup0_cons, if_neg (fun he => h he.symm)]
  | cons f t ih =>
    rcases f with ⟨fq, fv⟩
    by_cases heq : pd = fq
    · unfold insertSorted
      rw [if_pos heq]
      rw [lookup0_cons, lookup0_cons]
      rw [if_neg (fun he : pd = q => h he.symm)]
      rw [if_neg (fun he : fq = q => h (heq ▸ he).symm)]
    · by_cases hlt : pd.ltP fq
      · unfold insertSorted
        rw [if_neg heq, if_pos hlt]
        rw [lookup0_cons]
        rw [if_neg (fun he : pd = q => h he.symm)]
      · unfold insertSorted
        rw [if_neg heq, if_neg hlt]
        rw [lookup0_cons, lookup0_cons]
        by_cases hfq : fq = q
        · rw [if_pos hfq, if_pos hfq]
        · rw [if_neg hfq, if_neg hfq]
          exact ih

/-- `Set` stores the canonicalized count at the stored key. -/
theorem set_ok_get_self (p p' : Policy) (pd : Period) (vn : Int) (hvn : vn ≠ 0)
    (hset : p.set pd vn = (p', true)) :
    p'.get pd = (if vn < 0 then -1 else vn) := by
  unfold Policy.set at hset
  rcases hn : pd.normalize with ⟨pd2, ok2⟩
  simp only [hn] at hset
  cases ok2 with
  | false => simp at hset
  | true =>
    have hcount0 : ¬ (if vn < 0 then (-1 : Int) else vn) = 0 := by split <;> omega
    rw [if_pos rfl, if_neg hcount0, Prod.mk.injEq] at hset
    obtain ⟨hp'e, _⟩ := hset
    rw [get_eq p' pd pd2 hn, ← hp'e]
    exact lookup0_insertSorted_self p.entries pd2 _

/-- `Set` leaves every other stored (nonzero) count unchanged, provided the
stored key's old count was zero (absent). -/
theorem set_ok_get_other (p p' : Policy) (pd : Period) (vn : Int) (hvn : vn ≠ 0)
    (hset : p.set pd vn = (p', true)) (hpd0 : p.get pd = 0)
    (q : Period) (hq : p.get q ≠ 0) : p'.get q = p.get q := by
  unfold Policy.set at hset
  rcases hn : pd.normalize with ⟨pd2, ok2⟩
  simp only [hn] at hset
  cases ok2 with
  | false => simp at hset
  | true =>
    have hcount0 : ¬ (if vn < 0 then (-1 : Int) else vn) = 0 := by split <;> omega
    rw [if_pos rfl, if_neg hcount0, Prod.mk.injEq] at hset
    obtain ⟨hp'e, _⟩ := hset
    rcases hnq : q.normalize with ⟨q2, okq⟩
    cases okq with
    | false => exact absurd (get_zero_of_normalize_fail p q q2 hnq) hq
    | true =>
      have hne : q2 ≠ pd2 := by
        intro he
        rw [get_eq p q q2 hnq, he, ← get_eq p pd pd2 hn, hpd0] at hq
        exact hq rfl
      rw [get_eq p' q q2 hnq, ← hp'e, get_eq p q q2 hnq]
      exact lookup0_insertSorted_ne p.entries pd2 q2 _ hne

/-- A clean parse stores every rule: the final policy's count at the rule's
parsed `unit:interval` is the rule's parsed count (negatives canonicalized to
the infinite sentinel). -/
theorem parsePolicyAux_stored (rs : List (List Char)) : ∀ p q : Policy,
    parsePolicyAux p rs = (q, none) →
    (∀ pd : Period, p.get pd ≠ 0 → q.get pd = p.get pd) ∧
    (∀ s ∈ rs, ∃ vu vn vx, ruleUnit (ruleParts s).2.1 = some vu ∧
      parseInt64 (ruleParts s).1 = some vn ∧
      intervalVal vu (ruleParts s).2.2 = some vx ∧
      q.get ⟨vu, vx⟩ = (if vn < 0 then -1 else vn)) := by
  induction rs with
  | nil =>
    intro p q h
    have h' : (p, (none : Option ParseErr)) = (q, none) := h
    rw [Prod.mk.injEq] at h'
    rw [← h'.1]
    exact ⟨fun _ _ => rfl, fun s hs => absurd hs (by simp)⟩
  | cons s t ih =>
    intro p q h
    unfold parsePolicyAux at h
    rcases hpr : parseRule p s with e | p1
    · simp [hpr] at h
    · simp only [hpr] at h
      obtain ⟨hpers, hstored⟩ := ih p1 q h
      obtain ⟨vu, vn, vx, hru, hpn, hvn0, hx, _, _, hdup, hset⟩ :=
        parseRule_ok_cases p p1 s hpr
      have hself : p1.get ⟨vu, vx⟩ = (if vn < 0 then -1 else vn) :=
        set_ok_get_self p p1 ⟨vu, vx⟩ vn hvn0 hset
      have hselfne : p1.get ⟨vu, vx⟩ ≠ 0 := by
        rw [hself]
        split <;> omega
      constructor
      · intro pd hpd
        have h1 : p1.get pd = p.get pd :=
          set_ok_get_other p p1 ⟨vu, vx⟩ vn hvn0 hset hdup pd hpd
        rw [← h1]
        exact hpers pd (by rw [h1]; exact hpd)
      · intro r hr
        rcases List.mem_cons.mp hr with rfl | hr'
        · exact ⟨vu, vn, vx, hru, hpn, hx, by rw [hpers _ hselfne]; exact hself⟩
        · exact hstored r hr'

/-- C6: `ParsePolicy` returns an error exactly when some rule, read in
order, has a grammar defect (unknown unit, non-integer count, zero count,
unparseable interval, non-positive interval, `last` with interval ≠ 1, or a
duplicate normalized `unit:interval` pair); it stops at the first failing
rule, whose string the error (always one of those six cases — the
invalid-period case is unreachable) reports, returning the policy built from
the clean prefix; on success every rule is stored under its parsed
`unit:interval` (omitted count defaulting to the sentinel `-1`, omitted
interval to `1`, `secondly` duration strings truncated to whole seconds)
with its canonicalized count; and `UnmarshalText` keeps the previous policy
whenever parsing fails. -/
theorem parse_policy_error_taxonomy (rs : List (List Char)) (prev : Policy)
    (b : List Char) :
    ((parsePolicyGo rs).2 ≠ none ↔
      ∃ pre s post, rs = pre ++ s :: post ∧ (parsePolicyGo pre).2 = none ∧
        ruleDefect (parsePolicyGo pre).1 s) ∧
    (∀ e, (parsePolicyGo rs).2 = some e →
      ∃ pre s post, rs = pre ++ s :: post ∧ (parsePolicyGo pre).2 = none ∧
        parseRule (parsePolicyGo pre).1 s = .error e ∧ errRule e = s ∧
        isGrammarErr e ∧ (parsePolicyGo rs).1 = (parsePolicyGo pre).1) ∧
    ((parsePolicyGo rs).2 = none → ∀ s ∈ rs, ∃ vu vn vx,
      ruleUnit (ruleParts s).2.1 = some vu ∧ parseInt64 (ruleParts s).1 = some vn ∧
      intervalVal vu (ruleParts s).2.2 = some vx ∧
      (parsePolicyGo rs).1.get ⟨vu, vx⟩ = (if vn < 0 then -1 else vn)) ∧
    ((unmarshalText prev b).2 ≠ none → (unmarshalText prev b).1 = prev) := by
  have herrcase : ∀ e, (parsePolicyGo rs).2 = some e →
      ∃ pre s post, rs = pre ++ s :: post ∧ (parsePolicyGo pre).2 = none ∧
        parseRule (parsePolicyGo pre).1 s = .error e ∧ errRule e = s ∧
        isGrammarErr e ∧ (parsePolicyGo rs).1 = (parsePolicyGo pre).1 := by
    intro e he
    have hrun : parsePolicyAux ⟨[]⟩ rs = ((parsePolicyGo rs).1, some e) := by
      rw [← he]
      rfl
    obtain ⟨pre, s, post, hsplit, hnone, herr, hq⟩ :=
      parsePolicyAux_err rs ⟨[]⟩ _ e hrun
    obtain ⟨_, hname, hgram⟩ := parseRule_error_defect _ s e herr
    exact ⟨pre, s, post, hsplit, hnone, herr, hname, hgram, hq⟩
  refine ⟨⟨?_, ?_⟩, herrcase, ?_, ?_⟩
  · intro hne
    rcases he : (parsePolicyGo rs).2 with _ | e
    · exact absurd he hne
    · obtain ⟨pre, s, post, hsplit, hnone, herr, _, _, _⟩ := herrcase e he
      exact ⟨pre, s, post, hsplit, hnone,
        (parseRule_error_defect _ s e herr).1⟩
  · rintro ⟨pre, s, post, rfl, hnone, hdef⟩
    obtain ⟨e, he⟩ := parseRule_error_of_defect _ s hdef
    show (parsePolicyAux ⟨[]⟩ (pre ++ s :: post)).2 ≠ none
    rw [parsePolicyAux_append pre (s :: post) ⟨[]⟩]
    have hpre : parsePolicyAux ⟨[]⟩ pre = ((parsePolicyGo pre).1, none) := by
      rw [← hnone]
      rfl
    rw [hpre]
    simp only
    show (match parseRule (parsePolicyGo pre).1 s with
      | Except.error e => ((parsePolicyGo pre).1, some e)
      | Except.ok p' => parsePolicyAux p' post).2 ≠ none
    rw [he]
    simp
  · intro hnone s hs
    have hrun : parsePolicyAux ⟨[]⟩ rs = ((parsePolicyGo rs).1, none) := by
      rw [← hnone]
      rfl
    exact (parsePolicyAux_stored rs ⟨[]⟩ _ hrun).2 s hs
  · intro hne
    unfold unmarshalText at hne ⊢
    rcases hgo : parsePolicyGo (fields b) with ⟨v, err⟩
    cases err with
    | none =>
      rw [hgo] at hne
      simp at hne
    | some e => rfl

/-! ## C4: monotonic convergence fails for inconsistent time zones -/

/-- Snapshots in ascending instant order whose fixed zones disagree: UTC,
UTC+14, and UTC−14 (instants 2012-03-30T12:00Z, 2012-03-31T11:00Z,
2012-04-01T00:00Z; local calendar days March 30, April 1, March 31). -/
def c4Snaps : List GoTime :=
  [goDateTime 2012 3 30 12 0 0 0 0,
    goDateTime 2012 4 1 1 0 0 0 50400,
    goDateTime 2012 3 31 10 0 0 0 (-50400)]

def c4Period : Period := { unit := uDaily, interval := 2 }

def c4Policy : Policy := ⟨[(c4Period, 2)]⟩

/-- C4 (failing input): under the well-formed policy `2@daily:2`, the first
two snapshots (oldest-first prefix) fully satisfy the policy (`need = 0`),
but adding the third, newest snapshot raises `need` back to 1: the newest
snapshot is claimed first, and its local calendar day (March 31 in UTC−14)
makes the schedule check skip both earlier snapshots, whose own local days
straddle it inconsistently. -/
theorem prune_need_increases_when_snapshot_added :
    c4Policy.WF ∧
      ((c4Snaps.take 2).map fun t => t.wall).Pairwise (· < ·) ∧
      (c4Snaps.map fun t => t.wall).Pairwise (· < ·) ∧
      lookup0 ((Prune (c4Snaps.take 2) c4Policy).2).entries c4Period = 0 ∧
      lookup0 ((Prune c4Snaps c4Policy).2).entries c4Period = 1 := by
  refine ⟨⟨?_, ?_⟩, ?_, ?_, ?_, ?_⟩ <;> decide

end Snappr
